import Mathlib

/-!
# Ohmic contact between a semiconductor and a resistive metal region (DDM level 2)

A shallow embedding of `src/solver/ddm2/ddm2_boundary_resistance_ohmic.cc`
(class `IF_Metal_OhmicBC`).  `PetscScalar` is read as a real number, `PetscInt`
as an integer.  The material library, the physical constants and the PETSc
vector are external to that file and appear as parameters.

A vector keeps the values set with `ADD_VALUES` in a stash until its next
assembly.  The theorems evaluate the residual functions on a vector whose stash
is empty, so that the stash of the result holds exactly the (row, value) pairs
added by the call, in call order.
-/

noncomputable section

namespace Genius

/-! ## Data model -/

/-- Region tags used by the boundary condition (`SimulationRegion::type()`). -/
inductive SimulationRegionType where
  | SemiconductorRegion
  | InsulatorRegion
  | MetalRegion
  deriving DecidableEq

/-- Insertion mode of a PETSc vector or matrix. -/
inductive InsertMode where
  | NOT_SET_VALUES
  | INSERT_VALUES
  | ADD_VALUES
  deriving DecidableEq

/-- Time discretisation schemes of `SolverSpecify::TS_type`. -/
inductive TemporalScheme where
  | BDF1
  | BDF2
  deriving DecidableEq

/-- Physical constants `PhysicalUnit::kb` and `PhysicalUnit::e`. -/
structure PhysicalUnit where
  kb : ℝ
  e : ℝ

/-- The fields of the `SolverSpecify` namespace read by the boundary condition. -/
structure SolverSpecify where
  TimeDependent : Bool
  TS_type : TemporalScheme
  BDF2_LowerOrder : Bool
  dt : ℝ
  dt_last : ℝ

/-- Per node physical data (`FVM_NodeData`): doping, affinity, permittivity and
the stored values of the previous (`n`, `p`, `psi`) and second previous
(`n_last`, `p_last`, `psi_last`) time step. -/
structure FVM_NodeData where
  Net_doping : ℝ
  affinity : ℝ
  eps : ℝ
  n : ℝ
  p : ℝ
  psi : ℝ
  n_last : ℝ
  p_last : ℝ
  psi_last : ℝ

/-- One item of `neighbor_node_begin() .. neighbor_node_end()`: the neighbour
node with its offsets and data, together with `distance(nb_node)` and
`cv_surface_area(nb_node)` as seen from the node that owns the list. -/
structure FVM_Neighbor where
  local_offset : Nat
  global_offset : Int
  node_data : FVM_NodeData
  distance : ℝ
  cv_surface_area : ℝ

/-- A finite volume node of one region (`FVM_Node`). -/
structure FVM_Node where
  local_offset : Nat
  global_offset : Int
  node_data : FVM_NodeData
  volume : ℝ
  outside_boundary_surface_area : ℝ
  neighbor_node : List FVM_Neighbor

/-- A mesh node on the boundary: its owner, the node returned by
`get_region_fvm_node` for the first region of the boundary (semiconductor) and
for the second one (metal), and the items of
`region_node_begin() .. region_node_end()` as (region type, node) pairs. -/
structure BoundaryNode where
  processor_id : Nat
  semiconductor_node : FVM_Node
  resistance_node : FVM_Node
  region_node : List (SimulationRegionType × FVM_Node)

/-- The band structure functions of the material library after `mapping`. -/
structure BandStructure where
  nie : ℝ → ℝ → ℝ → ℝ
  Nc : ℝ → ℝ
  Nv : ℝ → ℝ
  Eg : ℝ → ℝ

/-- The semiconductor material: `mapping` selects the node the band structure
functions are evaluated at. -/
structure Material where
  mapping : FVM_Node → BandStructure

/-- A PETSc vector: the assembled values and the stash of values set with
`ADD_VALUES` that the next assembly adds to them. -/
structure Vec where
  values : Int → ℝ
  stash : List (Int × ℝ)

/-- The boundary condition object: node list, configuration and the mutable
attributes written by the functions below. -/
structure IF_Metal_OhmicBC where
  nodes : List BoundaryNode
  _infinity_recombination : Bool
  elec_recomb_velocity : ℝ
  hole_recomb_velocity : ℝ
  z_width : ℝ
  material : Material
  Fermi : Bool
  _current_buffer : List ℝ
  current : ℝ
  psi : ℝ
  _buffer_rows : List Int := []
  _buffer_cols : List (List Int) := []
  _buffer_jacobian_entries : List (List ℝ) := []

/-! ## Equilibrium carrier densities -/

/-- Lines 247-259 (and 490-502): the pair (`electron_density`, `hole_density`)
computed from the net doping and the intrinsic density. -/
def equilibrium_density (net_dpoing nie : ℝ) : ℝ × ℝ :=
  if net_dpoing < 0 then
    let hole_density := (-net_dpoing + Real.sqrt (net_dpoing * net_dpoing + 4 * nie * nie)) / 2.0
    let electron_density := nie * nie / hole_density
    (electron_density, hole_density)
  else
    let electron_density := (net_dpoing + Real.sqrt (net_dpoing * net_dpoing + 4 * nie * nie)) / 2.0
    let hole_density := nie * nie / electron_density
    (electron_density, hole_density)

/-! ## PETSc vector operations -/

/-- `VecAssemblyBegin` / `VecAssemblyEnd`: the stashed values are added to the
assembled ones, first stashed first. -/
def VecAssembly (f : Vec) : Vec :=
  { values := f.stash.foldl
      (fun v entry => fun row => if row = entry.1 then v row + entry.2 else v row) f.values,
    stash := [] }

/-- `VecSetValue(f, row, value, ADD_VALUES)`. -/
def VecSetValue (f : Vec) (row : Int) (value : ℝ) : Vec :=
  { f with stash := f.stash ++ [(row, value)] }

/-- `VecSetValues(f, iy.size(), &iy[0], &y[0], ADD_VALUES)`. -/
def VecSetValues (f : Vec) (iy : List Int) (y : List ℝ) : Vec :=
  { f with stash := f.stash ++ iy.zip y }

/-- `VecGetValues(f, ni, ix, I)`: reads assembled values. -/
def VecGetValues (f : Vec) (ix : List Int) : List ℝ :=
  ix.map f.values

/-! ## Residual of the finite (limited) recombination regime -/

/-- The local buffers `iy`, `y` and `current_buffer` of a residual evaluation. -/
structure ResidualBuffers where
  iy : List Int
  y : List ℝ
  current_buffer : List ℝ

/-- `has_associated_region(node, InsulatorRegion)`. -/
def has_associated_region (bn : BoundaryNode) (t : SimulationRegionType) : Bool :=
  bn.region_node.any (fun rn => decide (rn.1 = t))

/-- Lines 335-345: time derivative of the field towards one neighbour. -/
def dEdt (ss : SolverSpecify) (x : Nat → ℝ) (V_semiconductor : ℝ)
    (semiconductor_node_data : FVM_NodeData) (nb : FVM_Neighbor) : ℝ :=
  let nb_node_data := nb.node_data
  let V_nb := x (nb.local_offset + 0)
  let distance := nb.distance
  if ss.TS_type = TemporalScheme.BDF2 ∧ ss.BDF2_LowerOrder = false then
    let r := ss.dt_last / (ss.dt_last + ss.dt)
    ((2 - r) / (1 - r) * (V_semiconductor - V_nb)
      - 1.0 / (r * (1 - r)) * (semiconductor_node_data.psi - nb_node_data.psi)
      + (1 - r) / r * (semiconductor_node_data.psi_last - nb_node_data.psi_last))
      / distance / (ss.dt_last + ss.dt)
  else
    ((V_semiconductor - V_nb) - (semiconductor_node_data.psi - nb_node_data.psi))
      / distance / ss.dt

/-- Lines 322-348: the loop accumulating `I_displacement` over the neighbours. -/
def I_displacement (ss : SolverSpecify) (x : Nat → ℝ) (V_semiconductor : ℝ)
    (semiconductor_node : FVM_Node) : ℝ :=
  semiconductor_node.neighbor_node.foldl
    (fun acc nb =>
      let cv_boundary := nb.cv_surface_area
      acc + cv_boundary * semiconductor_node.node_data.eps
        * dEdt ss x V_semiconductor semiconductor_node.node_data nb)
    0.0

/-- Lines 363-378: one pass of the loop over the region nodes of a boundary
node; only insulator nodes contribute. -/
def insulator_residual (x : Nat → ℝ) (V_resistance T_resistance : ℝ)
    (s : ResidualBuffers) (rn : SimulationRegionType × FVM_Node) : ResidualBuffers :=
  if rn.1 ≠ SimulationRegionType.InsulatorRegion then s
  else
    let insulator_node := rn.2
    let V_insulator := x (insulator_node.local_offset + 0)
    let f_phi := V_insulator - V_resistance
    let s := { s with y := s.y ++ [f_phi] }
    let s := { s with iy := s.iy ++ [insulator_node.global_offset + 0] }
    let T_insulator := x (insulator_node.local_offset + 1)
    let f_T := T_insulator - T_resistance
    let s := { s with y := s.y ++ [f_T] }
    { s with iy := s.iy ++ [insulator_node.global_offset + 1] }

/-- Lines 294-350: the current injected into the resistance region, from the
emission currents `In` and `Ip`, the carrier storage terms and the
displacement current. -/
def limited_inject_current (ss : SolverSpecify) (x : Nat → ℝ) (semiconductor_node : FVM_Node)
    (V_semiconductor n p In Ip : ℝ) : ℝ :=
  let semiconductor_node_data := semiconductor_node.node_data
  let inject_current := In + Ip
  let inject_current :=
    if ss.TimeDependent = true then
      if ss.TS_type = TemporalScheme.BDF2 ∧ ss.BDF2_LowerOrder = false then
        let r := ss.dt_last / (ss.dt_last + ss.dt)
        let Tn := -((2 - r) / (1 - r) * n - 1.0 / (r * (1 - r)) * semiconductor_node_data.n
                    + (1 - r) / r * semiconductor_node_data.n_last)
                  / (ss.dt_last + ss.dt) * semiconductor_node.volume
        let Tp := -((2 - r) / (1 - r) * p - 1.0 / (r * (1 - r)) * semiconductor_node_data.p
                    + (1 - r) / r * semiconductor_node_data.p_last)
                  / (ss.dt_last + ss.dt) * semiconductor_node.volume
        inject_current + Tn + Tp
      else
        let Tn := -(n - semiconductor_node_data.n) / ss.dt * semiconductor_node.volume
        let Tp := -(p - semiconductor_node_data.p) / ss.dt * semiconductor_node.volume
        inject_current + Tn + Tp
    else inject_current
  let inject_current :=
    if ss.TimeDependent = true then
      inject_current - I_displacement ss x V_semiconductor semiconductor_node
    else inject_current
  inject_current

/-- Lines 223-379: the body of the node loop of
`_DDM2_Function_Limited_Recombination` for a node of this processor; lines
294-350 are `limited_inject_current`. -/
def limited_node (pu : PhysicalUnit) (ss : SolverSpecify) (bc : IF_Metal_OhmicBC)
    (x : Nat → ℝ) (bn : BoundaryNode) (s : ResidualBuffers) : ResidualBuffers :=
  let eRecombVelocity := bc.elec_recomb_velocity
  let hRecombVelocity := bc.hole_recomb_velocity
  let semiconductor_node := bn.semiconductor_node
  let semiconductor_node_data := semiconductor_node.node_data
  let resistance_node := bn.resistance_node
  let resistance_node_data := resistance_node.node_data
  let V_resistance := x (resistance_node.local_offset + 0)
  let T_resistance := x (resistance_node.local_offset + 1)
  let V_semiconductor := x semiconductor_node.local_offset
  let n := x (semiconductor_node.local_offset + 1)
  let p := x (semiconductor_node.local_offset + 2)
  let T_semiconductor := x (semiconductor_node.local_offset + 3)
  let band := bc.material.mapping semiconductor_node
  let nie := band.nie p n T_semiconductor
  let Nc := band.Nc T_semiconductor
  let Nv := band.Nv T_semiconductor
  let Eg := band.Eg T_semiconductor
  let net_dpoing := semiconductor_node_data.Net_doping
  let electron_density := (equilibrium_density net_dpoing nie).1
  let hole_density := (equilibrium_density net_dpoing nie).2
  let f_psi := V_semiconductor
      - pu.kb * T_semiconductor / pu.e * Real.arsinh (semiconductor_node_data.Net_doping / (2 * nie))
      + Eg / (2 * pu.e)
      + pu.kb * T_semiconductor * Real.log (Nc / Nv) / (2 * pu.e)
      + semiconductor_node_data.affinity / pu.e
      - (V_resistance + resistance_node_data.affinity / pu.e)
  let s := { s with iy := s.iy ++ [semiconductor_node.global_offset + 0] }
  let s := { s with y := s.y ++ [f_psi] }
  let S := semiconductor_node.outside_boundary_surface_area
  let In := -eRecombVelocity * (n - electron_density) * S
  let Ip := hRecombVelocity * (p - hole_density) * S
  let s := { s with iy := s.iy ++ [semiconductor_node.global_offset + 1] }
  let s := { s with y := s.y ++ [In] }
  let s := { s with iy := s.iy ++ [semiconductor_node.global_offset + 2] }
  let s := { s with y := s.y ++ [-Ip] }
  let f_T := T_semiconductor - T_resistance
  let s := { s with iy := s.iy ++ [semiconductor_node.global_offset + 3] }
  let s := { s with y := s.y ++ [f_T] }
  let inject_current := limited_inject_current ss x semiconductor_node V_semiconductor n p In Ip
  let s := { s with iy := s.iy ++ [resistance_node.global_offset] }
  let s := { s with y := s.y ++ [inject_current] }
  let s := { s with current_buffer := s.current_buffer ++ [inject_current] }
  if has_associated_region bn SimulationRegionType.InsulatorRegion then
    bn.region_node.foldl (insulator_residual x V_resistance T_resistance) s
  else s

/-- The value of a residual evaluation: the boundary condition with its
updated attributes, the vector and the insertion flag. -/
structure ResidualResult where
  bc : IF_Metal_OhmicBC
  f : Vec
  add_value_flag : InsertMode

/-- Lines 218-380: the loop over all boundary nodes, skipping those of other
processors. -/
def limited_loop (pu : PhysicalUnit) (ss : SolverSpecify) (processor_id : Nat)
    (bc : IF_Metal_OhmicBC) (x : Nat → ℝ) (s : ResidualBuffers) : ResidualBuffers :=
  bc.nodes.foldl
    (fun s bn => if bn.processor_id ≠ processor_id then s else limited_node pu ss bc x bn s) s

/-- `IF_Metal_OhmicBC::_DDM2_Function_Limited_Recombination`. -/
def _DDM2_Function_Limited_Recombination (pu : PhysicalUnit) (ss : SolverSpecify)
    (processor_id : Nat) (bc : IF_Metal_OhmicBC) (x : Nat → ℝ) (f : Vec)
    (add_value_flag : InsertMode) : ResidualResult :=
  let f := if add_value_flag ≠ InsertMode.ADD_VALUES ∧ add_value_flag ≠ InsertMode.NOT_SET_VALUES
    then VecAssembly f else f
  let current_scale := bc.z_width
  let s := limited_loop pu ss processor_id bc x ⟨[], [], []⟩
  let f := if s.iy.length ≠ 0 then VecSetValues f s.iy s.y else f
  { bc := { bc with current := current_scale * s.current_buffer.foldl (fun a b => a + b) 0.0 },
    f := f,
    add_value_flag := InsertMode.ADD_VALUES }

/-! ## Row preprocessing of the residual vector -/

/-- The value of a preprocessing pass: the boundary condition (whose
`_current_buffer` the pass may rewrite) and the three row lists. -/
structure PreprocessResult where
  bc : IF_Metal_OhmicBC
  src_row : List Int
  dst_row : List Int
  clear_row : List Int

/-- Lines 98-109 (and 156-167): one pass of the loop over the region nodes. -/
def insulator_preprocess (metal_node : FVM_Node) (r : PreprocessResult)
    (rn : SimulationRegionType × FVM_Node) : PreprocessResult :=
  if rn.1 ≠ SimulationRegionType.InsulatorRegion then r
  else
    let insulator_node := rn.2
    let r := { r with clear_row := r.clear_row ++ [insulator_node.global_offset] }
    let r := { r with src_row := r.src_row ++ [insulator_node.global_offset + 1] }
    let r := { r with dst_row := r.dst_row ++ [metal_node.global_offset + 1] }
    { r with clear_row := r.clear_row ++ [insulator_node.global_offset + 1] }

/-- Lines 85-110: loop body of `DDM2_Function_Preprocess`, finite regime. -/
def function_preprocess_limited_node (bn : BoundaryNode) (r : PreprocessResult) :
    PreprocessResult :=
  let semiconductor_node := bn.semiconductor_node
  let metal_node := bn.resistance_node
  let r := { r with clear_row := r.clear_row ++ [semiconductor_node.global_offset] }
  let r := { r with src_row := r.src_row ++ [semiconductor_node.global_offset + 3] }
  let r := { r with dst_row := r.dst_row ++ [metal_node.global_offset + 1] }
  let r := { r with clear_row := r.clear_row ++ [semiconductor_node.global_offset + 3] }
  if has_associated_region bn SimulationRegionType.InsulatorRegion then
    bn.region_node.foldl (insulator_preprocess metal_node) r
  else r

/-- Lines 127-168: loop body of `DDM2_Function_Preprocess`, infinite regime. -/
def function_preprocess_infinite_node (f : Vec) (bn : BoundaryNode) (r : PreprocessResult) :
    PreprocessResult :=
  let semiconductor_node := bn.semiconductor_node
  let metal_node := bn.resistance_node
  let r := { r with clear_row := r.clear_row ++ [semiconductor_node.global_offset + 0] }
  let r := { r with clear_row := r.clear_row ++ [semiconductor_node.global_offset + 1] }
  let r := { r with clear_row := r.clear_row ++ [semiconductor_node.global_offset + 2] }
  let r := { r with src_row := r.src_row ++ [semiconductor_node.global_offset + 3] }
  let r := { r with dst_row := r.dst_row ++ [metal_node.global_offset + 1] }
  let r := { r with clear_row := r.clear_row ++ [semiconductor_node.global_offset + 3] }
  let ix := [semiconductor_node.global_offset + 1, semiconductor_node.global_offset + 2]
  let I := VecGetValues f ix
  let r := { r with bc := { r.bc with
    _current_buffer := r.bc._current_buffer ++ [I.getD 1 0 - I.getD 0 0] } }
  if has_associated_region bn SimulationRegionType.InsulatorRegion then
    bn.region_node.foldl (insulator_preprocess metal_node) r
  else r

/-- `IF_Metal_OhmicBC::DDM2_Function_Preprocess`. -/
def DDM2_Function_Preprocess (processor_id : Nat) (bc : IF_Metal_OhmicBC) (f : Vec)
    (src_row dst_row clear_row : List Int) : PreprocessResult :=
  let r : PreprocessResult := ⟨bc, src_row, dst_row, clear_row⟩
  let r :=
    if ¬ (bc._infinity_recombination = true) then
      bc.nodes.foldl
        (fun r bn =>
          if bn.processor_id ≠ processor_id then r else function_preprocess_limited_node bn r) r
    else r
  if bc._infinity_recombination = true then
    let r := { r with bc := { r.bc with _current_buffer := [] } }
    bc.nodes.foldl
      (fun r bn =>
        if bn.processor_id ≠ processor_id then r else function_preprocess_infinite_node f bn r) r
  else r

/-! ## Residual of the infinite recombination regime -/

/-- The loop state of `_DDM2_Function_Infinite_Recombination`: the counter `i`
into `_current_buffer`, the local buffers and the vector `f`, which the loop
writes with `VecSetValue`. -/
structure InfiniteBuffers where
  i : Nat
  iy : List Int
  y : List ℝ
  current_buffer : List ℝ
  f : Vec

/-- Lines 565-580: one pass of the loop over the region nodes. -/
def insulator_residual_infinite (x : Nat → ℝ) (V_resistance T_resistance : ℝ)
    (s : InfiniteBuffers) (rn : SimulationRegionType × FVM_Node) : InfiniteBuffers :=
  if rn.1 ≠ SimulationRegionType.InsulatorRegion then s
  else
    let insulator_node := rn.2
    let V_insulator := x (insulator_node.local_offset + 0)
    let f_phi := V_insulator - V_resistance
    let s := { s with y := s.y ++ [f_phi] }
    let s := { s with iy := s.iy ++ [insulator_node.global_offset + 0] }
    let T_insulator := x (insulator_node.local_offset + 1)
    let f_T := T_insulator - T_resistance
    let s := { s with y := s.y ++ [f_T] }
    { s with iy := s.iy ++ [insulator_node.global_offset + 1] }

/-- Lines 463-505: the three values pushed to `y` for the potential, electron
and hole rows of the semiconductor node, under Fermi or Boltzmann statistics. -/
def ohmic_governing_equations (pu : PhysicalUnit) (fermi_half : ℝ → ℝ) (Fermi : Bool)
    (semiconductor_node_data resistance_node_data : FVM_NodeData)
    (V_resistance V_semiconductor n p T_semiconductor nie Nc Nv Eg : ℝ) : List ℝ :=
  if Fermi = true then
    let Ec := -(pu.e * V_semiconductor + semiconductor_node_data.affinity)
    let Ev := -(pu.e * V_semiconductor + semiconductor_node_data.affinity + Eg)
    let phin := V_resistance + resistance_node_data.affinity / pu.e
    let phip := V_resistance + resistance_node_data.affinity / pu.e
    let etan := (-pu.e * phin - Ec) / pu.kb / T_semiconductor
    let etap := (Ev + pu.e * phip) / pu.kb / T_semiconductor
    [Nc * fermi_half etan - Nv * fermi_half etap - semiconductor_node_data.Net_doping,
     n - Nc * fermi_half etan,
     p - Nv * fermi_half etap]
  else
    let f_psi := V_semiconductor
        - pu.kb * T_semiconductor / pu.e
          * Real.arsinh (semiconductor_node_data.Net_doping / (2 * nie))
        + Eg / (2 * pu.e)
        + pu.kb * T_semiconductor * Real.log (Nc / Nv) / (2 * pu.e)
        + semiconductor_node_data.affinity / pu.e
        - (V_resistance + resistance_node_data.affinity / pu.e)
    let net_dpoing := semiconductor_node_data.Net_doping
    let electron_density := (equilibrium_density net_dpoing nie).1
    let hole_density := (equilibrium_density net_dpoing nie).2
    [f_psi, n - electron_density, p - hole_density]

/-- Lines 437-581: the body of the node loop of
`_DDM2_Function_Infinite_Recombination` for a node of this processor; lines
463-505 are `ohmic_governing_equations`; `none` when `_current_buffer[i]` is
read past the end of the buffer. -/
def infinite_node (pu : PhysicalUnit) (fermi_half : ℝ → ℝ) (ss : SolverSpecify)
    (bc : IF_Metal_OhmicBC) (x : Nat → ℝ) (bn : BoundaryNode) (s : InfiniteBuffers) :
    Option InfiniteBuffers :=
  let semiconductor_node := bn.semiconductor_node
  let semiconductor_node_data := semiconductor_node.node_data
  let resistance_node := bn.resistance_node
  let resistance_node_data := resistance_node.node_data
  let V_resistance := x (resistance_node.local_offset + 0)
  let T_resistance := x (resistance_node.local_offset + 1)
  let V_semiconductor := x semiconductor_node.local_offset
  let n := x (semiconductor_node.local_offset + 1)
  let p := x (semiconductor_node.local_offset + 2)
  let T_semiconductor := x (semiconductor_node.local_offset + 3)
  let band := bc.material.mapping semiconductor_node
  let nie := band.nie p n T_semiconductor
  let Nc := band.Nc T_semiconductor
  let Nv := band.Nv T_semiconductor
  let Eg := band.Eg T_semiconductor
  let governing := ohmic_governing_equations pu fermi_half bc.Fermi semiconductor_node_data
    resistance_node_data V_resistance V_semiconductor n p T_semiconductor nie Nc Nv Eg
  let s := { s with y := s.y ++ governing }
  let s := { s with iy := s.iy ++ [semiconductor_node.global_offset + 0] }
  let s := { s with iy := s.iy ++ [semiconductor_node.global_offset + 1] }
  let s := { s with iy := s.iy ++ [semiconductor_node.global_offset + 2] }
  let f_T := T_semiconductor - T_resistance
  let s := { s with iy := s.iy ++ [semiconductor_node.global_offset + 3] }
  let s := { s with y := s.y ++ [f_T] }
  match bc._current_buffer.get? s.i with
  | none => none
  | some inject_current =>
    let s := { s with i := s.i + 1 }
    let inject_current :=
      if ss.TimeDependent = true then
        inject_current - I_displacement ss x V_semiconductor semiconductor_node
      else inject_current
    let s := { s with f := VecSetValue s.f resistance_node.global_offset inject_current }
    let s := { s with current_buffer := s.current_buffer ++ [inject_current] }
    if has_associated_region bn SimulationRegionType.InsulatorRegion then
      some (bn.region_node.foldl (insulator_residual_infinite x V_resistance T_resistance) s)
    else some s

/-- Lines 432-582: the loop over all boundary nodes, skipping those of other
processors without advancing `i`. -/
def infinite_loop (pu : PhysicalUnit) (fermi_half : ℝ → ℝ) (ss : SolverSpecify)
    (processor_id : Nat) (bc : IF_Metal_OhmicBC) (x : Nat → ℝ) :
    List BoundaryNode → InfiniteBuffers → Option InfiniteBuffers
  | [], s => some s
  | bn :: rest, s =>
    if bn.processor_id ≠ processor_id then infinite_loop pu fermi_half ss processor_id bc x rest s
    else
      match infinite_node pu fermi_half ss bc x bn s with
      | none => none
      | some s => infinite_loop pu fermi_half ss processor_id bc x rest s

/-- `IF_Metal_OhmicBC::_DDM2_Function_Infinite_Recombination`. -/
def _DDM2_Function_Infinite_Recombination (pu : PhysicalUnit) (fermi_half : ℝ → ℝ)
    (ss : SolverSpecify) (processor_id : Nat) (bc : IF_Metal_OhmicBC) (x : Nat → ℝ) (f : Vec)
    (add_value_flag : InsertMode) : Option ResidualResult :=
  let f := if add_value_flag ≠ InsertMode.ADD_VALUES ∧ add_value_flag ≠ InsertMode.NOT_SET_VALUES
    then VecAssembly f else f
  let current_scale := bc.z_width
  match infinite_loop pu fermi_half ss processor_id bc x bc.nodes ⟨0, [], [], [], f⟩ with
  | none => none
  | some s =>
    let bc := { bc with current := current_scale * s.current_buffer.foldl (fun a b => a + b) 0.0 }
    let f := if s.iy.length ≠ 0 then VecSetValues s.f s.iy s.y else s.f
    some { bc := bc, f := f, add_value_flag := InsertMode.ADD_VALUES }

/-- `IF_Metal_OhmicBC::DDM2_Function`: dispatch on the recombination regime. -/
def DDM2_Function (pu : PhysicalUnit) (fermi_half : ℝ → ℝ) (ss : SolverSpecify)
    (processor_id : Nat) (bc : IF_Metal_OhmicBC) (x : Nat → ℝ) (f : Vec)
    (add_value_flag : InsertMode) : Option ResidualResult :=
  if bc._infinity_recombination = true then
    _DDM2_Function_Infinite_Recombination pu fermi_half ss processor_id bc x f add_value_flag
  else
    some (_DDM2_Function_Limited_Recombination pu ss processor_id bc x f add_value_flag)

/-! ## Row preprocessing of the Jacobian matrix -/

/-- Modelled from the spec: the sparse Jacobian `SparseMatrix<PetscScalar>`, whose
class is not part of the file.  It supports indexed read and add: `values` is
the map (row, column) -> value that `get_row` reads and `add` updates, and
`added` records the (row, column, value) triples of the calls to `add`, in call
order. -/
structure SparseMatrix where
  values : Int → Int → ℝ
  added : List (Int × Int × ℝ)

/-- Modelled from the spec: `jac->get_row(row, n, cols, vals)` reads the values
of one row at the given columns. -/
def SparseMatrix.get_row (jac : SparseMatrix) (row : Int) (cols : List Int) : List ℝ :=
  cols.map (jac.values row)

/-- Modelled from the spec: `jac->add(row, col, value)` adds to one entry. -/
def SparseMatrix.add (jac : SparseMatrix) (row col : Int) (value : ℝ) : SparseMatrix :=
  { values := fun r c => if r = row ∧ c = col then jac.values r c + value else jac.values r c,
    added := jac.added ++ [(row, col, value)] }

/-- A sequence of calls `jac->add(row, col, value)`, applied in order. -/
def SparseMatrix.add_all (jac : SparseMatrix) (calls : List (Int × Int × ℝ)) : SparseMatrix :=
  calls.foldl (fun m call => m.add call.1 call.2.1 call.2.2) jac

/-- The additions made by `jac->add_row(row, n, cols, vals)`: `vals[k]` at column
`cols[k]` of one row, for the given columns in order. -/
def add_row_calls (row : Int) (cols : List Int) (vals : List ℝ) : List (Int × Int × ℝ) :=
  (cols.zip vals).map (fun entry => (row, entry.1, entry.2))

/-- Modelled from the spec: `jac->add_row(row, n, cols, vals)`. -/
def SparseMatrix.add_row (jac : SparseMatrix) (row : Int) (cols : List Int) (vals : List ℝ) :
    SparseMatrix :=
  jac.add_all (add_row_calls row cols vals)

/-- Lines 614-639: loop body of `DDM2_Jacobian_Preprocess`, finite regime. -/
def jacobian_preprocess_limited_node (bn : BoundaryNode) (r : PreprocessResult) :
    PreprocessResult :=
  let semiconductor_node := bn.semiconductor_node
  let metal_node := bn.resistance_node
  let r := { r with clear_row := r.clear_row ++ [semiconductor_node.global_offset] }
  let r := { r with src_row := r.src_row ++ [semiconductor_node.global_offset + 3] }
  let r := { r with dst_row := r.dst_row ++ [metal_node.global_offset + 1] }
  let r := { r with clear_row := r.clear_row ++ [semiconductor_node.global_offset + 3] }
  if has_associated_region bn SimulationRegionType.InsulatorRegion then
    bn.region_node.foldl (insulator_preprocess metal_node) r
  else r

/-- Lines 687-705: one pass of the loop over the neighbours of the
semiconductor node, harvesting the entries of the electron row `row[1]` and the
hole row `row[2]` at the four columns of the neighbour. -/
def jacobian_harvest_neighbor (jac : SparseMatrix) (row : List Int) (resistance_node : FVM_Node)
    (bc : IF_Metal_OhmicBC) (nb : FVM_Neighbor) : IF_Metal_OhmicBC :=
  let col := [nb.global_offset + 0, nb.global_offset + 1, nb.global_offset + 2,
    nb.global_offset + 3]
  let A1 := jac.get_row (row.getD 1 0) col
  let A2 := jac.get_row (row.getD 2 0) col
  let JN := [-(A1.getD 0 0 - A2.getD 0 0), -(A1.getD 1 0 - A2.getD 1 0),
    -(A1.getD 2 0 - A2.getD 2 0), -(A1.getD 3 0 - A2.getD 3 0)]
  { bc with
    _buffer_rows := bc._buffer_rows ++ [resistance_node.global_offset],
    _buffer_cols := bc._buffer_cols ++ [col],
    _buffer_jacobian_entries := bc._buffer_jacobian_entries ++ [JN] }

/-- Lines 659-709: body of the first node loop of `DDM2_Jacobian_Preprocess` in
the infinite regime: harvest the derivatives of the electrode current. -/
def jacobian_harvest_node (jac : SparseMatrix) (bn : BoundaryNode) (bc : IF_Metal_OhmicBC) :
    IF_Metal_OhmicBC :=
  let semiconductor_node := bn.semiconductor_node
  let resistance_node := bn.resistance_node
  let row := [semiconductor_node.global_offset + 0, semiconductor_node.global_offset + 1,
    semiconductor_node.global_offset + 2, semiconductor_node.global_offset + 3]
  let A1 := jac.get_row (row.getD 1 0) row
  let A2 := jac.get_row (row.getD 2 0) row
  let JM := [-(A1.getD 0 0 - A2.getD 0 0), -(A1.getD 1 0 - A2.getD 1 0),
    -(A1.getD 2 0 - A2.getD 2 0), -(A1.getD 3 0 - A2.getD 3 0)]
  let bc := semiconductor_node.neighbor_node.foldl
    (jacobian_harvest_neighbor jac row resistance_node) bc
  { bc with
    _buffer_rows := bc._buffer_rows ++ [resistance_node.global_offset],
    _buffer_cols := bc._buffer_cols ++ [row],
    _buffer_jacobian_entries := bc._buffer_jacobian_entries ++ [JM] }

/-- Lines 718-745: body of the second node loop of `DDM2_Jacobian_Preprocess`
in the infinite regime. -/
def jacobian_preprocess_infinite_node (bn : BoundaryNode) (r : PreprocessResult) :
    PreprocessResult :=
  let semiconductor_node := bn.semiconductor_node
  let metal_node := bn.resistance_node
  let r := { r with clear_row := r.clear_row ++ [semiconductor_node.global_offset + 0] }
  let r := { r with clear_row := r.clear_row ++ [semiconductor_node.global_offset + 1] }
  let r := { r with clear_row := r.clear_row ++ [semiconductor_node.global_offset + 2] }
  let r := { r with src_row := r.src_row ++ [semiconductor_node.global_offset + 3] }
  let r := { r with dst_row := r.dst_row ++ [metal_node.global_offset + 1] }
  let r := { r with clear_row := r.clear_row ++ [semiconductor_node.global_offset + 3] }
  if has_associated_region bn SimulationRegionType.InsulatorRegion then
    bn.region_node.foldl (insulator_preprocess metal_node) r
  else r

/-- `IF_Metal_OhmicBC::DDM2_Jacobian_Preprocess`. -/
def DDM2_Jacobian_Preprocess (processor_id : Nat) (bc : IF_Metal_OhmicBC) (jac : SparseMatrix)
    (src_row dst_row clear_row : List Int) : PreprocessResult :=
  let r : PreprocessResult := ⟨bc, src_row, dst_row, clear_row⟩
  let r :=
    if ¬ (bc._infinity_recombination = true) then
      bc.nodes.foldl
        (fun r bn =>
          if bn.processor_id ≠ processor_id then r else jacobian_preprocess_limited_node bn r) r
    else r
  if bc._infinity_recombination = true then
    let r := { r with bc := { r.bc with
      _buffer_rows := [], _buffer_cols := [], _buffer_jacobian_entries := [] } }
    let harvested := bc.nodes.foldl
      (fun b bn => if bn.processor_id ≠ processor_id then b else jacobian_harvest_node jac bn b)
      r.bc
    let r := { r with bc := harvested }
    bc.nodes.foldl
      (fun r bn =>
        if bn.processor_id ≠ processor_id then r else jacobian_preprocess_infinite_node bn r) r
  else r

/-! ## Forward automatic differentiation -/

/-- Modelled from the spec: the dual value `AutoDScalar` of the automatic
differentiation library, which is not part of the file: a primal value and one
partial derivative for each direction. -/
structure AutoDScalar where
  value : ℝ
  ad : Nat → ℝ

/-- Modelled from the spec: a `PetscScalar` used as an `AutoDScalar`, all
derivatives zero. -/
def AutoDScalar.const (c : ℝ) : AutoDScalar := ⟨c, fun _ => 0⟩

/-- Modelled from the spec: `setADValue(i, v)` sets the derivative of direction `i`. -/
def AutoDScalar.setADValue (a : AutoDScalar) (i : Nat) (v : ℝ) : AutoDScalar :=
  ⟨a.value, fun j => if j = i then v else a.ad j⟩

/-- Modelled from the spec: `getADValue(i)` reads the derivative of direction `i`. -/
def AutoDScalar.getADValue (a : AutoDScalar) (i : Nat) : ℝ := a.ad i

/-- The six values behind the pointer `getADValue()` when `numdir = 6`. -/
def AutoDScalar.getADValues (a : AutoDScalar) : List ℝ :=
  [a.ad 0, a.ad 1, a.ad 2, a.ad 3, a.ad 4, a.ad 5]

/-- Modelled from the spec: sum of dual values. -/
instance : Add AutoDScalar :=
  ⟨fun a b => ⟨a.value + b.value, fun i => a.ad i + b.ad i⟩⟩

/-- Modelled from the spec: difference of dual values. -/
instance : Sub AutoDScalar :=
  ⟨fun a b => ⟨a.value - b.value, fun i => a.ad i - b.ad i⟩⟩

/-- Modelled from the spec: negation of a dual value. -/
instance : Neg AutoDScalar :=
  ⟨fun a => ⟨-a.value, fun i => -a.ad i⟩⟩

/-- Modelled from the spec: product rule. -/
instance : Mul AutoDScalar :=
  ⟨fun a b => ⟨a.value * b.value, fun i => a.ad i * b.value + a.value * b.ad i⟩⟩

/-- Modelled from the spec: quotient rule. -/
instance : Div AutoDScalar :=
  ⟨fun a b => ⟨a.value / b.value,
    fun i => (a.ad i * b.value - a.value * b.ad i) / (b.value * b.value)⟩⟩

/-- Modelled from the spec: chain rule for the square root. -/
def AutoDScalar.sqrt (a : AutoDScalar) : AutoDScalar :=
  ⟨Real.sqrt a.value, fun i => a.ad i / (2 * Real.sqrt a.value)⟩

/-- Modelled from the spec: chain rule for the inverse hyperbolic sine. -/
def AutoDScalar.asinh (a : AutoDScalar) : AutoDScalar :=
  ⟨Real.arsinh a.value, fun i => a.ad i / Real.sqrt (1 + a.value * a.value)⟩

/-- Modelled from the spec: chain rule for the logarithm. -/
def AutoDScalar.log (a : AutoDScalar) : AutoDScalar :=
  ⟨Real.log a.value, fun i => a.ad i / a.value⟩

/-- The declaration `AutoDScalar V = x[k]; V.setADValue(i, 1.0)` of an
independent variable of direction `i`. -/
def AutoDScalar.independent (v : ℝ) (i : Nat) : AutoDScalar :=
  (AutoDScalar.const v).setADValue i 1.0

/-- The band structure functions of the material library evaluated on dual
values. -/
structure BandStructureAD where
  nie : AutoDScalar → AutoDScalar → AutoDScalar → AutoDScalar
  Nc : AutoDScalar → AutoDScalar
  Nv : AutoDScalar → AutoDScalar
  Eg : AutoDScalar → AutoDScalar

/-- The semiconductor material evaluated on dual values. -/
structure MaterialAD where
  mapping : FVM_Node → BandStructureAD

/-! ## Jacobian of the finite (limited) recombination regime -/

/-- Lines 805-817 (and 1019-1031): the equilibrium densities on dual values. -/
def equilibrium_density_ad (net_dpoing : ℝ) (nie : AutoDScalar) : AutoDScalar × AutoDScalar :=
  if net_dpoing < 0 then
    let hole_density := (AutoDScalar.const (-net_dpoing)
      + AutoDScalar.sqrt (AutoDScalar.const (net_dpoing * net_dpoing)
          + AutoDScalar.const 4 * nie * nie)) / AutoDScalar.const 2.0
    let electron_density := nie * nie / hole_density
    (electron_density, hole_density)
  else
    let electron_density := (AutoDScalar.const net_dpoing
      + AutoDScalar.sqrt (AutoDScalar.const (net_dpoing * net_dpoing)
          + AutoDScalar.const 4 * nie * nie)) / AutoDScalar.const 2.0
    let hole_density := nie * nie / electron_density
    (electron_density, hole_density)

/-- Lines 820-824 (and 1013-1017): the governing equation for psi on dual
values. -/
def f_phi_ad (pu : PhysicalUnit) (semiconductor_node_data resistance_node_data : FVM_NodeData)
    (V_resistance V_semiconductor T_semiconductor nie Nc Nv Eg : AutoDScalar) : AutoDScalar :=
  V_semiconductor
    - AutoDScalar.const pu.kb * T_semiconductor / AutoDScalar.const pu.e
      * AutoDScalar.asinh
          (AutoDScalar.const semiconductor_node_data.Net_doping / (AutoDScalar.const 2 * nie))
    + Eg / AutoDScalar.const (2 * pu.e)
    + AutoDScalar.const pu.kb * T_semiconductor * AutoDScalar.log (Nc / Nv)
      / AutoDScalar.const (2 * pu.e)
    + AutoDScalar.const (semiconductor_node_data.affinity / pu.e)
    - (V_resistance + AutoDScalar.const (resistance_node_data.affinity / pu.e))

/-- Lines 891-902 (and 1070-1081): time derivative of the field towards one
neighbour on dual values. -/
def dEdt_ad (ss : SolverSpecify) (V_semiconductor V_nb : AutoDScalar)
    (semiconductor_node_data : FVM_NodeData) (nb : FVM_Neighbor) : AutoDScalar :=
  let nb_node_data := nb.node_data
  let distance := nb.distance
  if ss.TS_type = TemporalScheme.BDF2 ∧ ss.BDF2_LowerOrder = false then
    let r := ss.dt_last / (ss.dt_last + ss.dt)
    (AutoDScalar.const ((2 - r) / (1 - r)) * (V_semiconductor - V_nb)
      - AutoDScalar.const (1.0 / (r * (1 - r)) * (semiconductor_node_data.psi - nb_node_data.psi))
      + AutoDScalar.const
          ((1 - r) / r * (semiconductor_node_data.psi_last - nb_node_data.psi_last)))
      / AutoDScalar.const distance / AutoDScalar.const (ss.dt_last + ss.dt)
  else
    ((V_semiconductor - V_nb)
      - AutoDScalar.const (semiconductor_node_data.psi - nb_node_data.psi))
      / AutoDScalar.const distance / AutoDScalar.const ss.dt

/-- Lines 883-906 (and 1062-1085): the additions made for one neighbour in the
displacement current loop. -/
def jacobian_displacement_calls (ss : SolverSpecify) (x : Nat → ℝ)
    (V_semiconductor : AutoDScalar) (semiconductor_node resistance_node : FVM_Node)
    (nb : FVM_Neighbor) : List (Int × Int × ℝ) :=
  let V_nb := AutoDScalar.independent (x (nb.local_offset + 0)) 3
  let cv_boundary := nb.cv_surface_area
  let dEdt := dEdt_ad ss V_semiconductor V_nb semiconductor_node.node_data nb
  let I_displacement := AutoDScalar.const (cv_boundary * semiconductor_node.node_data.eps) * dEdt
  [(resistance_node.global_offset, semiconductor_node.global_offset,
      -I_displacement.getADValue 2),
   (resistance_node.global_offset, nb.global_offset, -I_displacement.getADValue 3)]

/-- Lines 916-930 (and 1094-1109): the additions made for one region node of a
boundary node; only insulator nodes contribute. -/
def jacobian_insulator_calls (x : Nat → ℝ) (V_resistance T_resistance : AutoDScalar)
    (resistance_node : FVM_Node) (rn : SimulationRegionType × FVM_Node) :
    List (Int × Int × ℝ) :=
  if rn.1 ≠ SimulationRegionType.InsulatorRegion then []
  else
    let insulator_node := rn.2
    let V_insulator := AutoDScalar.independent (x (insulator_node.local_offset + 0)) 2
    let T_insulator := AutoDScalar.independent (x (insulator_node.local_offset + 1)) 5
    let f_phi := V_insulator - V_resistance
    let f_T := T_insulator - T_resistance
    [(insulator_node.global_offset, resistance_node.global_offset, f_phi.getADValue 0),
     (insulator_node.global_offset, insulator_node.global_offset, f_phi.getADValue 2),
     (insulator_node.global_offset + 1, resistance_node.global_offset + 1, f_T.getADValue 1),
     (insulator_node.global_offset + 1, insulator_node.global_offset + 1, f_T.getADValue 5)]

/-- Lines 783-931: the additions `jac->add(row, col, value)` made by one pass of
the node loop of `_DDM2_Jacobian_Limited_Recombination` for a node of this
processor, in call order; a call of `add_row` contributes one addition for each
of its six columns. -/
def limited_jacobian_node (pu : PhysicalUnit) (ss : SolverSpecify) (bc : IF_Metal_OhmicBC)
    (material_ad : MaterialAD) (x : Nat → ℝ) (bn : BoundaryNode) : List (Int × Int × ℝ) :=
  let eRecombVelocity := bc.elec_recomb_velocity
  let hRecombVelocity := bc.hole_recomb_velocity
  let semiconductor_node := bn.semiconductor_node
  let semiconductor_node_data := semiconductor_node.node_data
  let resistance_node := bn.resistance_node
  let resistance_node_data := resistance_node.node_data
  let V_resistance := AutoDScalar.independent (x (resistance_node.local_offset + 0)) 0
  let T_resistance := AutoDScalar.independent (x (resistance_node.local_offset + 1)) 1
  let V_semiconductor := AutoDScalar.independent (x (semiconductor_node.local_offset + 0)) 2
  let n := AutoDScalar.independent (x (semiconductor_node.local_offset + 1)) 3
  let p := AutoDScalar.independent (x (semiconductor_node.local_offset + 2)) 4
  let T_semiconductor := AutoDScalar.independent (x (semiconductor_node.local_offset + 3)) 5
  let band := material_ad.mapping semiconductor_node
  let nie := band.nie p n T_semiconductor
  let Nc := band.Nc T_semiconductor
  let Nv := band.Nv T_semiconductor
  let Eg := band.Eg T_semiconductor
  let net_dpoing := semiconductor_node_data.Net_doping
  let electron_density := (equilibrium_density_ad net_dpoing nie).1
  let hole_density := (equilibrium_density_ad net_dpoing nie).2
  let f_phi := f_phi_ad pu semiconductor_node_data resistance_node_data V_resistance
    V_semiconductor T_semiconductor nie Nc Nv Eg
  let S := semiconductor_node.outside_boundary_surface_area
  let In := AutoDScalar.const (-eRecombVelocity) * (n - electron_density) * AutoDScalar.const S
  let Ip := AutoDScalar.const hRecombVelocity * (p - hole_density) * AutoDScalar.const S
  let calls := [
    (semiconductor_node.global_offset + 1, semiconductor_node.global_offset + 1,
      In.getADValue 3),
    (semiconductor_node.global_offset + 2, semiconductor_node.global_offset + 2,
      -Ip.getADValue 4),
    (resistance_node.global_offset, semiconductor_node.global_offset + 1, In.getADValue 3),
    (resistance_node.global_offset, semiconductor_node.global_offset + 2, Ip.getADValue 4)]
  let f_T := T_semiconductor - T_resistance
  let row := [semiconductor_node.global_offset + 0, semiconductor_node.global_offset + 1,
    semiconductor_node.global_offset + 2, semiconductor_node.global_offset + 3]
  let col := [resistance_node.global_offset + 0, resistance_node.global_offset + 1,
    semiconductor_node.global_offset + 0, semiconductor_node.global_offset + 1,
    semiconductor_node.global_offset + 2, semiconductor_node.global_offset + 3]
  let calls := calls ++ add_row_calls (row.getD 0 0) col f_phi.getADValues
  let calls := calls ++ add_row_calls (row.getD 3 0) col f_T.getADValues
  let calls :=
    if ss.TimeDependent = true then
      if ss.TS_type = TemporalScheme.BDF2 ∧ ss.BDF2_LowerOrder = false then
        let r := ss.dt_last / (ss.dt_last + ss.dt)
        let Tn := -(AutoDScalar.const ((2 - r) / (1 - r)) * n
              - AutoDScalar.const (1.0 / (r * (1 - r)) * semiconductor_node_data.n)
              + AutoDScalar.const ((1 - r) / r * semiconductor_node_data.n_last))
            / AutoDScalar.const (ss.dt_last + ss.dt) * AutoDScalar.const semiconductor_node.volume
        let Tp := -(AutoDScalar.const ((2 - r) / (1 - r)) * p
              - AutoDScalar.const (1.0 / (r * (1 - r)) * semiconductor_node_data.p)
              + AutoDScalar.const ((1 - r) / r * semiconductor_node_data.p_last))
            / AutoDScalar.const (ss.dt_last + ss.dt) * AutoDScalar.const semiconductor_node.volume
        calls ++ [
          (resistance_node.global_offset, semiconductor_node.global_offset + 1,
            Tn.getADValue 3),
          (resistance_node.global_offset, semiconductor_node.global_offset + 2,
            Tp.getADValue 4)]
      else
        let Tn := -(n - AutoDScalar.const semiconductor_node_data.n)
            / AutoDScalar.const ss.dt * AutoDScalar.const semiconductor_node.volume
        let Tp := -(p - AutoDScalar.const semiconductor_node_data.p)
            / AutoDScalar.const ss.dt * AutoDScalar.const semiconductor_node.volume
        calls ++ [
          (resistance_node.global_offset, semiconductor_node.global_offset + 1,
            Tn.getADValue 3),
          (resistance_node.global_offset, semiconductor_node.global_offset + 2,
            Tp.getADValue 4)]
    else calls
  let calls :=
    if ss.TimeDependent = true then
      calls ++ semiconductor_node.neighbor_node.flatMap
        (jacobian_displacement_calls ss x V_semiconductor semiconductor_node resistance_node)
    else calls
  if has_associated_region bn SimulationRegionType.InsulatorRegion then
    calls ++ bn.region_node.flatMap
      (jacobian_insulator_calls x V_resistance T_resistance resistance_node)
  else calls

/-- The value of a Jacobian evaluation: the boundary condition, the matrix and
the insertion flag. -/
structure JacobianResult where
  bc : IF_Metal_OhmicBC
  jac : SparseMatrix
  add_value_flag : InsertMode

/-- `IF_Metal_OhmicBC::_DDM2_Jacobian_Limited_Recombination`. -/
def _DDM2_Jacobian_Limited_Recombination (pu : PhysicalUnit) (ss : SolverSpecify)
    (processor_id : Nat) (bc : IF_Metal_OhmicBC) (material_ad : MaterialAD) (x : Nat → ℝ)
    (jac : SparseMatrix) (_add_value_flag : InsertMode) : JacobianResult :=
  let jac := bc.nodes.foldl
    (fun jac bn =>
      if bn.processor_id ≠ processor_id then jac
      else jac.add_all (limited_jacobian_node pu ss bc material_ad x bn)) jac
  { bc := bc, jac := jac, add_value_flag := InsertMode.ADD_VALUES }

/-! ## Jacobian of the infinite recombination regime -/

/-- Lines 994-1035: the governing equations `f_phi`, `f_elec`, `f_hole` on dual
values, under Fermi or Boltzmann statistics. -/
def ohmic_governing_equations_ad (pu : PhysicalUnit) (fermi_half_ad : AutoDScalar → AutoDScalar)
    (Fermi : Bool) (semiconductor_node_data resistance_node_data : FVM_NodeData)
    (V_resistance V_semiconductor n p T_semiconductor nie Nc Nv Eg : AutoDScalar) :
    List AutoDScalar :=
  if Fermi = true then
    let Ec := -(AutoDScalar.const pu.e * V_semiconductor
      + AutoDScalar.const semiconductor_node_data.affinity)
    let Ev := -(AutoDScalar.const pu.e * V_semiconductor
      + AutoDScalar.const semiconductor_node_data.affinity + Eg)
    let phin := V_resistance + AutoDScalar.const (resistance_node_data.affinity / pu.e)
    let phip := V_resistance + AutoDScalar.const (resistance_node_data.affinity / pu.e)
    let etan := (AutoDScalar.const (-pu.e) * phin - Ec) / AutoDScalar.const pu.kb / T_semiconductor
    let etap := (Ev + AutoDScalar.const pu.e * phip) / AutoDScalar.const pu.kb / T_semiconductor
    [Nc * fermi_half_ad etan - Nv * fermi_half_ad etap
        - AutoDScalar.const semiconductor_node_data.Net_doping,
     n - Nc * fermi_half_ad etan,
     p - Nv * fermi_half_ad etap]
  else
    let f_phi := f_phi_ad pu semiconductor_node_data resistance_node_data V_resistance
      V_semiconductor T_semiconductor nie Nc Nv Eg
    let net_dpoing := semiconductor_node_data.Net_doping
    let electron_density := (equilibrium_density_ad net_dpoing nie).1
    let hole_density := (equilibrium_density_ad net_dpoing nie).2
    [f_phi, n - electron_density, p - hole_density]

/-- Lines 969-1110: the additions made by one pass of the node loop of
`_DDM2_Jacobian_Infinite_Recombination` for a node of this processor, in call
order. -/
def infinite_jacobian_node (pu : PhysicalUnit) (fermi_half_ad : AutoDScalar → AutoDScalar)
    (ss : SolverSpecify) (bc : IF_Metal_OhmicBC) (material_ad : MaterialAD) (x : Nat → ℝ)
    (bn : BoundaryNode) : List (Int × Int × ℝ) :=
  let semiconductor_node := bn.semiconductor_node
  let semiconductor_node_data := semiconductor_node.node_data
  let resistance_node := bn.resistance_node
  let resistance_node_data := resistance_node.node_data
  let V_resistance := AutoDScalar.independent (x (resistance_node.local_offset + 0)) 0
  let T_resistance := AutoDScalar.independent (x (resistance_node.local_offset + 1)) 1
  let V_semiconductor := AutoDScalar.independent (x (semiconductor_node.local_offset + 0)) 2
  let n := AutoDScalar.independent (x (semiconductor_node.local_offset + 1)) 3
  let p := AutoDScalar.independent (x (semiconductor_node.local_offset + 2)) 4
  let T_semiconductor := AutoDScalar.independent (x (semiconductor_node.local_offset + 3)) 5
  let band := material_ad.mapping semiconductor_node
  let nie := band.nie p n T_semiconductor
  let Nc := band.Nc T_semiconductor
  let Nv := band.Nv T_semiconductor
  let Eg := band.Eg T_semiconductor
  let governing := ohmic_governing_equations_ad pu fermi_half_ad bc.Fermi semiconductor_node_data
    resistance_node_data V_resistance V_semiconductor n p T_semiconductor nie Nc Nv Eg
  let f_phi := governing.getD 0 (AutoDScalar.const 0)
  let f_elec := governing.getD 1 (AutoDScalar.const 0)
  let f_hole := governing.getD 2 (AutoDScalar.const 0)
  let f_T := T_semiconductor - T_resistance
  let row := [semiconductor_node.global_offset + 0, semiconductor_node.global_offset + 1,
    semiconductor_node.global_offset + 2, semiconductor_node.global_offset + 3]
  let col := [resistance_node.global_offset + 0, resistance_node.global_offset + 1,
    semiconductor_node.global_offset + 0, semiconductor_node.global_offset + 1,
    semiconductor_node.global_offset + 2, semiconductor_node.global_offset + 3]
  let calls := add_row_calls (row.getD 0 0) col f_phi.getADValues
  let calls := calls ++ add_row_calls (row.getD 1 0) col f_elec.getADValues
  let calls := calls ++ add_row_calls (row.getD 2 0) col f_hole.getADValues
  let calls := calls ++ add_row_calls (row.getD 3 0) col f_T.getADValues
  let calls :=
    if ss.TimeDependent = true then
      calls ++ semiconductor_node.neighbor_node.flatMap
        (jacobian_displacement_calls ss x V_semiconductor semiconductor_node resistance_node)
    else calls
  if has_associated_region bn SimulationRegionType.InsulatorRegion then
    calls ++ bn.region_node.flatMap
      (jacobian_insulator_calls x V_resistance T_resistance resistance_node)
  else calls

/-- Lines 950-954: the additions made by the replay of the harvested buffer:
for every buffered row, `add_row` over the first four buffered columns and
entries. -/
def jacobian_replay_calls (bc : IF_Metal_OhmicBC) : List (Int × Int × ℝ) :=
  (bc._buffer_rows.zip (bc._buffer_cols.zip bc._buffer_jacobian_entries)).flatMap
    (fun buffered => add_row_calls buffered.1 (buffered.2.1.take 4) (buffered.2.2.take 4))

/-- `IF_Metal_OhmicBC::_DDM2_Jacobian_Infinite_Recombination`. -/
def _DDM2_Jacobian_Infinite_Recombination (pu : PhysicalUnit)
    (fermi_half_ad : AutoDScalar → AutoDScalar) (ss : SolverSpecify) (processor_id : Nat)
    (bc : IF_Metal_OhmicBC) (material_ad : MaterialAD) (x : Nat → ℝ) (jac : SparseMatrix)
    (_add_value_flag : InsertMode) : JacobianResult :=
  let jac := jac.add_all (jacobian_replay_calls bc)
  let jac := bc.nodes.foldl
    (fun jac bn =>
      if bn.processor_id ≠ processor_id then jac
      else jac.add_all (infinite_jacobian_node pu fermi_half_ad ss bc material_ad x bn)) jac
  { bc := bc, jac := jac, add_value_flag := InsertMode.ADD_VALUES }

/-- `IF_Metal_OhmicBC::DDM2_Jacobian`: dispatch on the recombination regime. -/
def DDM2_Jacobian (pu : PhysicalUnit) (fermi_half_ad : AutoDScalar → AutoDScalar)
    (ss : SolverSpecify) (processor_id : Nat) (bc : IF_Metal_OhmicBC) (material_ad : MaterialAD)
    (x : Nat → ℝ) (jac : SparseMatrix) (add_value_flag : InsertMode) : JacobianResult :=
  if bc._infinity_recombination = true then
    _DDM2_Jacobian_Infinite_Recombination pu fermi_half_ad ss processor_id bc material_ad x jac
      add_value_flag
  else
    _DDM2_Jacobian_Limited_Recombination pu ss processor_id bc material_ad x jac add_value_flag

/-! ## Terminal current and potential -/

/-- Modelled from the spec: `Parallel::sum` replaces the value of every process
by the sum of the values of all processes, given here in rank order. -/
def Parallel_sum (values : List ℝ) : ℝ :=
  values.sum

/-- Modelled from the spec: `Parallel::allgather` replaces the buffer of every
process by the buffers of all processes, concatenated in rank order. -/
def Parallel_allgather (buffers : List (List ℝ)) : List ℝ :=
  buffers.flatten

/-- Lines 1127-1140: the local `psi_buffer` of one process before the gather. -/
def psi_buffer_local (processor_id : Nat) (bc : IF_Metal_OhmicBC) (x : Nat → ℝ) : List ℝ :=
  bc.nodes.foldl
    (fun psi_buffer bn =>
      if bn.processor_id ≠ processor_id then psi_buffer
      else
        let resistance_node := bn.resistance_node
        let V_resistance := x resistance_node.local_offset
        psi_buffer ++ [V_resistance])
    []

/-- `IF_Metal_OhmicBC::DDM2_Update_Solution` as run by process `processor_id`
among `n_processors` processes, process `r` holding the boundary condition
object `bc r` and the local solution array `x r`. -/
def DDM2_Update_Solution (n_processors : Nat) (bc : Nat → IF_Metal_OhmicBC)
    (x : Nat → Nat → ℝ) (processor_id : Nat) : IF_Metal_OhmicBC :=
  let current := Parallel_sum ((List.range n_processors).map (fun r => (bc r).current))
  let psi_buffer := Parallel_allgather
    ((List.range n_processors).map (fun r => psi_buffer_local r (bc r) (x r)))
  let psi :=
    if psi_buffer.length ≠ 0 then
      psi_buffer.foldl (fun a b => a + b) 0.0 / (psi_buffer.length : ℝ)
    else 0.0
  { bc processor_id with current := current, psi := psi }

/-! ## Auxiliary definitions used in the statements -/

/-- The (row, value) pairs held by the buffers `iy` and `y`. -/
def ResidualBuffers.entries (s : ResidualBuffers) : List (Int × ℝ) :=
  s.iy.zip s.y

/-- The (row, value) pairs that the loop over the region nodes appends. -/
def insulator_entries (x : Nat → ℝ) (V_resistance T_resistance : ℝ)
    (l : List (SimulationRegionType × FVM_Node)) : List (Int × ℝ) :=
  l.flatMap (fun rn =>
    if rn.1 ≠ SimulationRegionType.InsulatorRegion then []
    else [(rn.2.global_offset + 0, x (rn.2.local_offset + 0) - V_resistance),
          (rn.2.global_offset + 1, x (rn.2.local_offset + 1) - T_resistance)])

/-- The (row, value) pairs that one pass of the node loop of the finite regime
appends, read off a pass that starts from empty buffers. -/
def limited_node_entries (pu : PhysicalUnit) (ss : SolverSpecify) (bc : IF_Metal_OhmicBC)
    (x : Nat → ℝ) (bn : BoundaryNode) : List (Int × ℝ) :=
  (limited_node pu ss bc x bn ⟨[], [], []⟩).entries

/-- The nodes of the list that belong to processor `processor_id`. -/
def owned_nodes (processor_id : Nat) (nodes : List BoundaryNode) : List BoundaryNode :=
  nodes.filter (fun bn => decide (bn.processor_id = processor_id))

/-- The (row, value) pairs held by the buffers `iy` and `y`. -/
def InfiniteBuffers.entries (s : InfiniteBuffers) : List (Int × ℝ) :=
  s.iy.zip s.y

/-- The (row, value) pairs that one pass of the node loop of the infinite
regime appends to `iy` and `y`. -/
def infinite_node_entries (pu : PhysicalUnit) (fermi_half : ℝ → ℝ) (bc : IF_Metal_OhmicBC)
    (x : Nat → ℝ) (bn : BoundaryNode) : List (Int × ℝ) :=
  [bn.semiconductor_node.global_offset + 0, bn.semiconductor_node.global_offset + 1,
      bn.semiconductor_node.global_offset + 2].zip
    (ohmic_governing_equations pu fermi_half bc.Fermi bn.semiconductor_node.node_data
      bn.resistance_node.node_data (x (bn.resistance_node.local_offset + 0))
      (x bn.semiconductor_node.local_offset) (x (bn.semiconductor_node.local_offset + 1))
      (x (bn.semiconductor_node.local_offset + 2)) (x (bn.semiconductor_node.local_offset + 3))
      ((bc.material.mapping bn.semiconductor_node).nie
        (x (bn.semiconductor_node.local_offset + 2)) (x (bn.semiconductor_node.local_offset + 1))
        (x (bn.semiconductor_node.local_offset + 3)))
      ((bc.material.mapping bn.semiconductor_node).Nc (x (bn.semiconductor_node.local_offset + 3)))
      ((bc.material.mapping bn.semiconductor_node).Nv (x (bn.semiconductor_node.local_offset + 3)))
      ((bc.material.mapping bn.semiconductor_node).Eg (x (bn.semiconductor_node.local_offset + 3))))
  ++ [(bn.semiconductor_node.global_offset + 3,
        x (bn.semiconductor_node.local_offset + 3) - x (bn.resistance_node.local_offset + 1))]
  ++ (if has_associated_region bn SimulationRegionType.InsulatorRegion = true then
        insulator_entries x (x (bn.resistance_node.local_offset + 0))
          (x (bn.resistance_node.local_offset + 1)) bn.region_node
      else [])

/-- The value written at the metal potential row in the infinite regime when
the buffered conduction current is `c`: lines 519-553. -/
def infinite_inject_current (ss : SolverSpecify) (x : Nat → ℝ) (bn : BoundaryNode) (c : ℝ) : ℝ :=
  if ss.TimeDependent = true then
    c - I_displacement ss x (x bn.semiconductor_node.local_offset) bn.semiconductor_node
  else c

/-- Lines 303-304 (and 305-306): the carrier storage term `Tn` (`Tp`) of the
second-order branch, for the present density `c`, the stored densities
`c_prev` and `c_last` of the two previous steps and the node volume. -/
def bdf2_storage_term (ss : SolverSpecify) (c c_prev c_last volume : ℝ) : ℝ :=
  let r := ss.dt_last / (ss.dt_last + ss.dt)
  let T := -((2 - r) / (1 - r) * c - 1.0 / (r * (1 - r)) * c_prev + (1 - r) / r * c_last)
    / (ss.dt_last + ss.dt) * volume
  T

/-! ## Concrete inputs used to evaluate the functions -/

/-- Node data with zero doping, zero affinity, unit permittivity and zero
stored history. -/
def sample_node_data : FVM_NodeData := ⟨0, 0, 1, 0, 0, 0, 0, 0, 0⟩

/-- A neighbour at local and global offset 6, unit distance and unit face area. -/
def sample_neighbor : FVM_Neighbor := ⟨6, 6, sample_node_data, 1, 1⟩

/-- A semiconductor node at offset 2 with unit volume and unit boundary area. -/
def sample_semiconductor_node (nbs : List FVM_Neighbor) : FVM_Node :=
  ⟨2, 2, sample_node_data, 1, 1, nbs⟩

/-- A metal node at offset 0. -/
def sample_resistance_node : FVM_Node := ⟨0, 0, sample_node_data, 1, 0, []⟩

/-- A boundary node of processor 0 without insulator nodes. -/
def sample_boundary_node (nbs : List FVM_Neighbor) : BoundaryNode :=
  ⟨0, sample_semiconductor_node nbs, sample_resistance_node, []⟩

/-- A material with `nie = Nc = Nv = 1` and `Eg = 0`. -/
def sample_material : Material :=
  ⟨fun _ => ⟨fun _ _ _ => 1, fun _ => 1, fun _ => 1, fun _ => 0⟩⟩

/-- A boundary condition with unit recombination velocities and unit width. -/
def sample_bc (nodes : List BoundaryNode) (infinite : Bool) : IF_Metal_OhmicBC :=
  { nodes := nodes, _infinity_recombination := infinite, elec_recomb_velocity := 1,
    hole_recomb_velocity := 1, z_width := 1, material := sample_material, Fermi := false,
    _current_buffer := [], current := 0, psi := 0 }

/-- Unit physical constants. -/
def sample_unit : PhysicalUnit := ⟨1, 1⟩

/-- Solver settings with unit time steps and the first order scheme. -/
def sample_solver (time_dependent : Bool) : SolverSpecify :=
  ⟨time_dependent, TemporalScheme.BDF1, false, 1, 1⟩

/-- The sample boundary condition in the infinite regime under Fermi
statistics, with one buffered conduction current of value 0. -/
def sample_bc_fermi : IF_Metal_OhmicBC :=
  { sample_bc [sample_boundary_node []] true with Fermi := true, _current_buffer := [0] }

/-- The rows that the loop over the region nodes appends to `clear_row`. -/
def insulator_clear_rows (l : List (SimulationRegionType × FVM_Node)) : List Int :=
  l.flatMap (fun rn =>
    if rn.1 ≠ SimulationRegionType.InsulatorRegion then []
    else [rn.2.global_offset, rn.2.global_offset + 1])

/-- The (source, destination) pairs that the loop over the region nodes appends
to `src_row` and `dst_row`. -/
def insulator_move_rows (metal_node : FVM_Node) (l : List (SimulationRegionType × FVM_Node)) :
    List (Int × Int) :=
  l.flatMap (fun rn =>
    if rn.1 ≠ SimulationRegionType.InsulatorRegion then []
    else [(rn.2.global_offset + 1, metal_node.global_offset + 1)])

/-- The rows that one pass of a preprocessing node loop appends to `clear_row`,
in the infinite or in the finite regime. -/
def preprocess_clear_rows (infinite : Bool) (bn : BoundaryNode) : List Int :=
  (if infinite = true then
      [bn.semiconductor_node.global_offset + 0, bn.semiconductor_node.global_offset + 1,
        bn.semiconductor_node.global_offset + 2, bn.semiconductor_node.global_offset + 3]
    else [bn.semiconductor_node.global_offset, bn.semiconductor_node.global_offset + 3])
  ++ insulator_clear_rows bn.region_node

/-- The (source, destination) pairs that one pass of a preprocessing node loop
appends to `src_row` and `dst_row`. -/
def preprocess_move_rows (bn : BoundaryNode) : List (Int × Int) :=
  (bn.semiconductor_node.global_offset + 3, bn.resistance_node.global_offset + 1)
    :: insulator_move_rows bn.resistance_node bn.region_node

/-- The global rows of all unknowns at a boundary node: four of the
semiconductor node, two of the metal node and two of every insulator node. -/
def unknown_rows (bn : BoundaryNode) : List Int :=
  [bn.semiconductor_node.global_offset + 0, bn.semiconductor_node.global_offset + 1,
    bn.semiconductor_node.global_offset + 2, bn.semiconductor_node.global_offset + 3,
    bn.resistance_node.global_offset + 0, bn.resistance_node.global_offset + 1]
  ++ insulator_clear_rows bn.region_node

/-- An insulator node at offset 8. -/
def sample_insulator_node : FVM_Node := ⟨8, 8, sample_node_data, 1, 0, []⟩

/-- A boundary node of processor 0 with one associated insulator node. -/
def sample_boundary_node_insulator : BoundaryNode :=
  ⟨0, sample_semiconductor_node [], sample_resistance_node,
    [(SimulationRegionType.InsulatorRegion, sample_insulator_node)]⟩

/-- A matrix whose entry at (row, column) is `10 * row + column`, with nothing
added yet. -/
def sample_matrix : SparseMatrix := ⟨fun row col => 10 * (row : ℝ) + (col : ℝ), []⟩

/-- The buffered (row, columns, entries) triples of the harvested Jacobian. -/
def buffer_triples (bc : IF_Metal_OhmicBC) : List (Int × List Int × List ℝ) :=
  bc._buffer_rows.zip (bc._buffer_cols.zip bc._buffer_jacobian_entries)

/-- The three harvest buffers hold the same number of items. -/
def buffers_aligned (bc : IF_Metal_OhmicBC) : Prop :=
  bc._buffer_rows.length = bc._buffer_cols.length
  ∧ bc._buffer_cols.length = bc._buffer_jacobian_entries.length

/-- The additions to the metal potential row that the replay makes for the
four columns at `offset`: the entry of the hole row minus the entry of the
electron row of the matrix `jac` read by the harvest. -/
def harvest_column_calls (jac : SparseMatrix) (bn : BoundaryNode) (offset : Int) :
    List (Int × Int × ℝ) :=
  [offset + 0, offset + 1, offset + 2, offset + 3].map (fun col =>
    (bn.resistance_node.global_offset, col,
      jac.values (bn.semiconductor_node.global_offset + 2) col
        - jac.values (bn.semiconductor_node.global_offset + 1) col))

/-- The additions that the replay makes for one boundary node: the columns of
each neighbour in turn, then the columns of the semiconductor node. -/
def harvest_calls (jac : SparseMatrix) (bn : BoundaryNode) : List (Int × Int × ℝ) :=
  bn.semiconductor_node.neighbor_node.flatMap
      (fun nb => harvest_column_calls jac bn nb.global_offset)
  ++ harvest_column_calls jac bn bn.semiconductor_node.global_offset

/-- A material on dual values with `nie = Nc = Nv = 1` and `Eg = 0`, all
derivatives zero. -/
def sample_material_ad : MaterialAD :=
  ⟨fun _ => ⟨fun _ _ _ => AutoDScalar.const 1, fun _ => AutoDScalar.const 1,
    fun _ => AutoDScalar.const 1, fun _ => AutoDScalar.const 0⟩⟩

/-- The column of direction `j`: `col[j]` of lines 841-847. -/
def unknown_column (bn : BoundaryNode) (j : Nat) : Int :=
  [bn.resistance_node.global_offset + 0, bn.resistance_node.global_offset + 1,
    bn.semiconductor_node.global_offset + 0, bn.semiconductor_node.global_offset + 1,
    bn.semiconductor_node.global_offset + 2, bn.semiconductor_node.global_offset + 3].getD j 0

/-- The rows written by the residual of the finite regime for one node, in the
order of the calls: potential, electron, hole and temperature row of the
semiconductor node, then the potential row of the metal node. -/
def residual_row (bn : BoundaryNode) (i : Nat) : Int :=
  [bn.semiconductor_node.global_offset + 0, bn.semiconductor_node.global_offset + 1,
    bn.semiconductor_node.global_offset + 2, bn.semiconductor_node.global_offset + 3,
    bn.resistance_node.global_offset].getD i 0

/-- The six unknowns of a boundary node read from `x`, indexed by direction:
`V_resistance`, `T_resistance`, `V_semiconductor`, `n`, `p`, `T_semiconductor`. -/
def unknowns_of (x : Nat → ℝ) (bn : BoundaryNode) (j : Nat) : ℝ :=
  [x (bn.resistance_node.local_offset + 0), x (bn.resistance_node.local_offset + 1),
    x bn.semiconductor_node.local_offset, x (bn.semiconductor_node.local_offset + 1),
    x (bn.semiconductor_node.local_offset + 2), x (bn.semiconductor_node.local_offset + 3)].getD
      j 0

/-- The five residual values of lines 262-294 in steady state, `f_psi`, `In`,
`-Ip`, `f_T` and `In + Ip`, as a function of the six unknowns `u` indexed by
direction. -/
def steady_residual (pu : PhysicalUnit) (bc : IF_Metal_OhmicBC) (bn : BoundaryNode)
    (band : BandStructure) (u : Nat → ℝ) : List ℝ :=
  let V_resistance := u 0
  let T_resistance := u 1
  let V_semiconductor := u 2
  let n := u 3
  let p := u 4
  let T_semiconductor := u 5
  let nie := band.nie p n T_semiconductor
  let Nc := band.Nc T_semiconductor
  let Nv := band.Nv T_semiconductor
  let Eg := band.Eg T_semiconductor
  let electron_density :=
    (equilibrium_density bn.semiconductor_node.node_data.Net_doping nie).1
  let hole_density := (equilibrium_density bn.semiconductor_node.node_data.Net_doping nie).2
  let f_psi := V_semiconductor
      - pu.kb * T_semiconductor / pu.e
        * Real.arsinh (bn.semiconductor_node.node_data.Net_doping / (2 * nie))
      + Eg / (2 * pu.e)
      + pu.kb * T_semiconductor * Real.log (Nc / Nv) / (2 * pu.e)
      + bn.semiconductor_node.node_data.affinity / pu.e
      - (V_resistance + bn.resistance_node.node_data.affinity / pu.e)
  let S := bn.semiconductor_node.outside_boundary_surface_area
  let In := -bc.elec_recomb_velocity * (n - electron_density) * S
  let Ip := bc.hole_recomb_velocity * (p - hole_density) * S
  let f_T := T_semiconductor - T_resistance
  [f_psi, In, -Ip, f_T, In + Ip]

/-- The derivatives (residual index, direction, value) enumerated for a
material whose `nie`, `Nc`, `Nv` are the constants `nie0`, `Nc0`, `Nv0`, in the
order in which the Jacobian adds them. -/
def constant_material_jacobian (pu : PhysicalUnit) (bc : IF_Metal_OhmicBC) (bn : BoundaryNode)
    (nie0 Nc0 Nv0 : ℝ) : List (Nat × Nat × ℝ) :=
  let S := bn.semiconductor_node.outside_boundary_surface_area
  [(1, 3, -bc.elec_recomb_velocity * S), (2, 4, -(bc.hole_recomb_velocity * S)),
   (4, 3, -bc.elec_recomb_velocity * S), (4, 4, bc.hole_recomb_velocity * S),
   (0, 0, -1), (0, 1, 0), (0, 2, 1), (0, 3, 0), (0, 4, 0),
   (0, 5, -(pu.kb / pu.e)
        * Real.arsinh (bn.semiconductor_node.node_data.Net_doping / (2 * nie0))
      + pu.kb * Real.log (Nc0 / Nv0) / (2 * pu.e)),
   (3, 0, 0), (3, 1, -1), (3, 2, 0), (3, 3, 0), (3, 4, 0), (3, 5, 1)]

/-- A material whose intrinsic density is the lattice temperature. -/
def sample_material_thermal : Material :=
  ⟨fun _ => ⟨fun _ _ T => T, fun _ => 1, fun _ => 1, fun _ => 0⟩⟩

/-- The same material on dual values. -/
def sample_material_thermal_ad : MaterialAD :=
  ⟨fun _ => ⟨fun _ _ T => T, fun _ => AutoDScalar.const 1, fun _ => AutoDScalar.const 1,
    fun _ => AutoDScalar.const 0⟩⟩

/-- The sample boundary condition in the finite regime with the material whose
intrinsic density is the lattice temperature. -/
def sample_bc_thermal : IF_Metal_OhmicBC :=
  { sample_bc [sample_boundary_node []] false with material := sample_material_thermal }

/-- The value `inject_current` that one pass of the node loop of the finite
regime pushes to `current_buffer`. -/
def limited_node_inject_current (ss : SolverSpecify) (bc : IF_Metal_OhmicBC) (x : Nat → ℝ)
    (bn : BoundaryNode) : ℝ :=
  limited_inject_current ss x bn.semiconductor_node
    (x bn.semiconductor_node.local_offset)
    (x (bn.semiconductor_node.local_offset + 1))
    (x (bn.semiconductor_node.local_offset + 2))
    (-bc.elec_recomb_velocity
      * (x (bn.semiconductor_node.local_offset + 1)
          - (equilibrium_density bn.semiconductor_node.node_data.Net_doping
              ((bc.material.mapping bn.semiconductor_node).nie
                (x (bn.semiconductor_node.local_offset + 2))
                (x (bn.semiconductor_node.local_offset + 1))
                (x (bn.semiconductor_node.local_offset + 3)))).1)
      * bn.semiconductor_node.outside_boundary_surface_area)
    (bc.hole_recomb_velocity
      * (x (bn.semiconductor_node.local_offset + 2)
          - (equilibrium_density bn.semiconductor_node.node_data.Net_doping
              ((bc.material.mapping bn.semiconductor_node).nie
                (x (bn.semiconductor_node.local_offset + 2))
                (x (bn.semiconductor_node.local_offset + 1))
                (x (bn.semiconductor_node.local_offset + 3)))).2)
      * bn.semiconductor_node.outside_boundary_surface_area)

/-- A boundary node of processor 1. -/
def sample_boundary_node_remote : BoundaryNode :=
  ⟨1, sample_semiconductor_node [], sample_resistance_node, []⟩

/-- A residual vector whose assembled value is 1 at row 3, 3 at row 4 and 0
elsewhere, with an empty stash. -/
def sample_bulk_residual : Vec :=
  ⟨fun row => if row = 3 then 1 else if row = 4 then 3 else 0, []⟩

/-- Solver settings of a transient step with the second order scheme and unit
time steps. -/
def sample_solver_bdf2 : SolverSpecify := ⟨true, TemporalScheme.BDF2, false, 1, 1⟩

/-- Node data with the stored history `n = 2`, `n_last = 1`, `p = 5`,
`p_last = 7`. -/
def sample_node_data_linear : FVM_NodeData := ⟨0, 0, 1, 2, 5, 0, 1, 7, 0⟩

/-- A boundary node of processor 0 whose semiconductor node, at offset 2 with
unit volume, carries the history of `sample_node_data_linear`. -/
def sample_boundary_node_linear : BoundaryNode :=
  ⟨0, ⟨2, 2, sample_node_data_linear, 1, 1, []⟩, sample_resistance_node, []⟩

/-! ## Shared lemmas -/

theorem sqrt_disc_sq (d nie : ℝ) :
    Real.sqrt (d * d + 4 * nie * nie) * Real.sqrt (d * d + 4 * nie * nie)
      = d * d + 4 * nie * nie :=
  Real.mul_self_sqrt (by nlinarith [mul_self_nonneg d, mul_self_nonneg nie])

theorem sqrt_disc_gt_abs (d nie : ℝ) (h : 0 < nie) :
    |d| < Real.sqrt (d * d + 4 * nie * nie) := by
  have h1 : |d| = Real.sqrt (d * d) := by
    rw [← sq, Real.sqrt_sq_eq_abs]
  rw [h1]
  apply Real.sqrt_lt_sqrt (mul_self_nonneg d)
  nlinarith [mul_pos h h]

theorem majority_pos_of_neg (d nie : ℝ) (h : 0 < nie) :
    0 < (-d + Real.sqrt (d * d + 4 * nie * nie)) / 2.0 := by
  have h1 := sqrt_disc_gt_abs d nie h
  have h2 := le_abs_self d
  norm_num
  linarith

theorem majority_pos_of_nonneg (d nie : ℝ) (h : 0 < nie) :
    0 < (d + Real.sqrt (d * d + 4 * nie * nie)) / 2.0 := by
  have h1 := sqrt_disc_gt_abs d nie h
  have h2 := neg_abs_le d
  norm_num
  linarith

theorem sqrt_disc_3_2 : Real.sqrt ((-3 : ℝ) * (-3) + 4 * 2 * 2) = 5 := by
  rw [show ((-3 : ℝ) * (-3) + 4 * 2 * 2) = 5 ^ 2 by norm_num]
  exact Real.sqrt_sq (by norm_num)

theorem insulator_fold (x : Nat → ℝ) (V T : ℝ) :
    ∀ (l : List (SimulationRegionType × FVM_Node)) (s : ResidualBuffers),
      s.iy.length = s.y.length →
      (l.foldl (insulator_residual x V T) s).entries = s.entries ++ insulator_entries x V T l
      ∧ (l.foldl (insulator_residual x V T) s).iy.length
          = (l.foldl (insulator_residual x V T) s).y.length
      ∧ (l.foldl (insulator_residual x V T) s).current_buffer = s.current_buffer := by
  intro l
  induction l with
  | nil => intro s hs; simp [insulator_entries, hs]
  | cons rn rest ih =>
    intro s hs
    rw [List.foldl_cons]
    by_cases hrn : rn.1 = SimulationRegionType.InsulatorRegion
    · have hlen : (insulator_residual x V T s rn).iy.length
          = (insulator_residual x V T s rn).y.length := by
        simp [insulator_residual, hrn, hs]
      obtain ⟨h1, h2, h3⟩ := ih _ hlen
      refine ⟨?_, h2, ?_⟩
      · rw [h1]
        simp only [ResidualBuffers.entries, insulator_residual, hrn, ne_eq, not_true_eq_false,
          if_false, insulator_entries, List.flatMap_cons]
        rw [List.append_assoc s.iy, List.append_assoc s.y, List.zip_append hs]
        simp [List.append_assoc]
      · rw [h3]; simp [insulator_residual, hrn]
    · have hstep : insulator_residual x V T s rn = s := by
        simp [insulator_residual, hrn]
      rw [hstep]
      obtain ⟨h1, h2, h3⟩ := ih s hs
      refine ⟨?_, h2, h3⟩
      rw [h1]
      simp [insulator_entries, List.flatMap_cons, hrn]

theorem limited_node_append (pu : PhysicalUnit) (ss : SolverSpecify) (bc : IF_Metal_OhmicBC)
    (x : Nat → ℝ) (bn : BoundaryNode) (s : ResidualBuffers) (hs : s.iy.length = s.y.length) :
    (limited_node pu ss bc x bn s).entries = s.entries ++ limited_node_entries pu ss bc x bn
    ∧ (limited_node pu ss bc x bn s).iy.length = (limited_node pu ss bc x bn s).y.length := by
  unfold limited_node_entries limited_node
  by_cases h : has_associated_region bn SimulationRegionType.InsulatorRegion = true
  · simp only [h, if_true]
    rw [(insulator_fold x _ _ bn.region_node _ (by simp [hs])).1,
      (insulator_fold x _ _ bn.region_node _ (by simp)).1]
    refine ⟨?_, (insulator_fold x _ _ bn.region_node _ (by simp [hs])).2.1⟩
    simp only [ResidualBuffers.entries, List.append_assoc, List.nil_append]
    rw [List.zip_append hs, List.append_assoc]
  · simp only [h]
    refine ⟨?_, by simp [hs]⟩
    simp only [ResidualBuffers.entries, List.append_assoc, List.nil_append, Bool.false_eq_true,
      if_false]
    rw [List.zip_append hs]

theorem limited_node_entries_eq (pu : PhysicalUnit) (ss : SolverSpecify) (bc : IF_Metal_OhmicBC)
    (x : Nat → ℝ) (bn : BoundaryNode) :
    limited_node_entries pu ss bc x bn =
      (bn.semiconductor_node.global_offset + 0,
        x bn.semiconductor_node.local_offset
          - pu.kb * x (bn.semiconductor_node.local_offset + 3) / pu.e
            * Real.arsinh (bn.semiconductor_node.node_data.Net_doping
                / (2 * (bc.material.mapping bn.semiconductor_node).nie
                    (x (bn.semiconductor_node.local_offset + 2))
                    (x (bn.semiconductor_node.local_offset + 1))
                    (x (bn.semiconductor_node.local_offset + 3))))
          + (bc.material.mapping bn.semiconductor_node).Eg
              (x (bn.semiconductor_node.local_offset + 3)) / (2 * pu.e)
          + pu.kb * x (bn.semiconductor_node.local_offset + 3)
            * Real.log ((bc.material.mapping bn.semiconductor_node).Nc
                  (x (bn.semiconductor_node.local_offset + 3))
                / (bc.material.mapping bn.semiconductor_node).Nv
                  (x (bn.semiconductor_node.local_offset + 3))) / (2 * pu.e)
          + bn.semiconductor_node.node_data.affinity / pu.e
          - (x (bn.resistance_node.local_offset + 0) + bn.resistance_node.node_data.affinity / pu.e))
      :: (bn.semiconductor_node.global_offset + 1,
        -bc.elec_recomb_velocity
          * (x (bn.semiconductor_node.local_offset + 1)
              - (equilibrium_density bn.semiconductor_node.node_data.Net_doping
                  ((bc.material.mapping bn.semiconductor_node).nie
                    (x (bn.semiconductor_node.local_offset + 2))
                    (x (bn.semiconductor_node.local_offset + 1))
                    (x (bn.semiconductor_node.local_offset + 3)))).1)
          * bn.semiconductor_node.outside_boundary_surface_area)
      :: (bn.semiconductor_node.global_offset + 2,
        -(bc.hole_recomb_velocity
          * (x (bn.semiconductor_node.local_offset + 2)
              - (equilibrium_density bn.semiconductor_node.node_data.Net_doping
                  ((bc.material.mapping bn.semiconductor_node).nie
                    (x (bn.semiconductor_node.local_offset + 2))
                    (x (bn.semiconductor_node.local_offset + 1))
                    (x (bn.semiconductor_node.local_offset + 3)))).2)
          * bn.semiconductor_node.outside_boundary_surface_area))
      :: (bn.semiconductor_node.global_offset + 3,
        x (bn.semiconductor_node.local_offset + 3) - x (bn.resistance_node.local_offset + 1))
      :: (bn.resistance_node.global_offset,
        limited_inject_current ss x bn.semiconductor_node
          (x bn.semiconductor_node.local_offset)
          (x (bn.semiconductor_node.local_offset + 1))
          (x (bn.semiconductor_node.local_offset + 2))
          (-bc.elec_recomb_velocity
            * (x (bn.semiconductor_node.local_offset + 1)
                - (equilibrium_density bn.semiconductor_node.node_data.Net_doping
                    ((bc.material.mapping bn.semiconductor_node).nie
                      (x (bn.semiconductor_node.local_offset + 2))
                      (x (bn.semiconductor_node.local_offset + 1))
                      (x (bn.semiconductor_node.local_offset + 3)))).1)
            * bn.semiconductor_node.outside_boundary_surface_area)
          (bc.hole_recomb_velocity
            * (x (bn.semiconductor_node.local_offset + 2)
                - (equilibrium_density bn.semiconductor_node.node_data.Net_doping
                    ((bc.material.mapping bn.semiconductor_node).nie
                      (x (bn.semiconductor_node.local_offset + 2))
                      (x (bn.semiconductor_node.local_offset + 1))
                      (x (bn.semiconductor_node.local_offset + 3)))).2)
            * bn.semiconductor_node.outside_boundary_surface_area))
      :: (if has_associated_region bn SimulationRegionType.InsulatorRegion = true then
            insulator_entries x (x (bn.resistance_node.local_offset + 0))
              (x (bn.resistance_node.local_offset + 1)) bn.region_node
          else []) := by
  unfold limited_node_entries limited_node
  by_cases h : has_associated_region bn SimulationRegionType.InsulatorRegion = true
  · simp only [h, if_true]
    rw [(insulator_fold x _ _ bn.region_node _ (by simp)).1]
    simp [ResidualBuffers.entries]
  · simp only [h]
    simp [ResidualBuffers.entries]

theorem limited_loop_entries (pu : PhysicalUnit) (ss : SolverSpecify) (processor_id : Nat)
    (bc : IF_Metal_OhmicBC) (x : Nat → ℝ) :
    ∀ (nodes : List BoundaryNode) (s : ResidualBuffers), s.iy.length = s.y.length →
      (nodes.foldl (fun s bn =>
          if bn.processor_id ≠ processor_id then s else limited_node pu ss bc x bn s) s).entries
        = s.entries ++ (owned_nodes processor_id nodes).flatMap (limited_node_entries pu ss bc x)
      ∧ (nodes.foldl (fun s bn =>
          if bn.processor_id ≠ processor_id then s else limited_node pu ss bc x bn s) s).iy.length
        = (nodes.foldl (fun s bn =>
          if bn.processor_id ≠ processor_id then s else limited_node pu ss bc x bn s) s).y.length := by
  intro nodes
  induction nodes with
  | nil => intro s hs; simp [owned_nodes, hs]
  | cons bn rest ih =>
    intro s hs
    rw [List.foldl_cons]
    by_cases hb : bn.processor_id = processor_id
    · obtain ⟨h1, h2⟩ := limited_node_append pu ss bc x bn s hs
      obtain ⟨h3, h4⟩ := ih _ h2
      simp only [hb, ne_eq, not_true_eq_false, if_false] at h3 h4 ⊢
      refine ⟨?_, h4⟩
      rw [h3, h1]
      simp [owned_nodes, List.filter_cons, hb, List.flatMap_cons, List.append_assoc]
    · obtain ⟨h3, h4⟩ := ih s hs
      simp only [hb, ne_eq, not_false_eq_true, if_true] at h3 h4 ⊢
      refine ⟨?_, h4⟩
      rw [h3]
      simp [owned_nodes, List.filter_cons, hb]

theorem limited_stash (pu : PhysicalUnit) (ss : SolverSpecify) (processor_id : Nat)
    (bc : IF_Metal_OhmicBC) (x : Nat → ℝ) (values : Int → ℝ) (add_value_flag : InsertMode) :
    (_DDM2_Function_Limited_Recombination pu ss processor_id bc x ⟨values, []⟩
        add_value_flag).f.stash
      = (owned_nodes processor_id bc.nodes).flatMap (limited_node_entries pu ss bc x) := by
  obtain ⟨h1, h2⟩ := limited_loop_entries pu ss processor_id bc x bc.nodes ⟨[], [], []⟩ rfl
  have h0 : (⟨[], [], []⟩ : ResidualBuffers).entries = [] := rfl
  rw [h0, List.nil_append] at h1
  have hstash : ∀ g : Vec, g.stash = [] →
      (if (limited_loop pu ss processor_id bc x ⟨[], [], []⟩).iy.length ≠ 0 then
          VecSetValues g (limited_loop pu ss processor_id bc x ⟨[], [], []⟩).iy
            (limited_loop pu ss processor_id bc x ⟨[], [], []⟩).y
        else g).stash
        = (owned_nodes processor_id bc.nodes).flatMap (limited_node_entries pu ss bc x) := by
    intro g hg
    unfold limited_loop
    split_ifs with hz
    · simp only [VecSetValues, hg, List.nil_append]
      simpa [ResidualBuffers.entries] using h1
    · rw [hg]
      have hnil : (bc.nodes.foldl (fun s bn =>
          if bn.processor_id ≠ processor_id then s else limited_node pu ss bc x bn s)
            ⟨[], [], []⟩).iy = [] := by
        apply List.eq_nil_of_length_eq_zero
        simpa using hz
      rw [← h1]
      simp only [ResidualBuffers.entries, hnil, List.zip_nil_left]
  unfold _DDM2_Function_Limited_Recombination
  simp only []
  apply hstash
  split_ifs <;> simp [VecAssembly]

theorem limited_mem (pu : PhysicalUnit) (ss : SolverSpecify) (processor_id : Nat)
    (bc : IF_Metal_OhmicBC) (x : Nat → ℝ) (values : Int → ℝ) (add_value_flag : InsertMode)
    (bn : BoundaryNode) (hbn : bn ∈ bc.nodes) (hown : bn.processor_id = processor_id)
    (entry : Int × ℝ) (hentry : entry ∈ limited_node_entries pu ss bc x bn) :
    entry ∈ (_DDM2_Function_Limited_Recombination pu ss processor_id bc x ⟨values, []⟩
        add_value_flag).f.stash := by
  rw [limited_stash, List.mem_flatMap]
  exact ⟨bn, by simp [owned_nodes, hbn, hown], hentry⟩

theorem sqrt_disc_0_1 : Real.sqrt ((0 : ℝ) * 0 + 4 * 1 * 1) = 2 := by
  rw [show ((0 : ℝ) * 0 + 4 * 1 * 1) = 2 ^ 2 by norm_num]
  exact Real.sqrt_sq (by norm_num)

theorem equilibrium_density_0_1 : equilibrium_density 0 1 = (1, 1) := by
  unfold equilibrium_density
  rw [if_neg (lt_irrefl 0), sqrt_disc_0_1]
  norm_num

theorem equilibrium_density_neg3_2 : equilibrium_density (-3) 2 = (1, 4) := by
  unfold equilibrium_density
  rw [if_pos (by norm_num), sqrt_disc_3_2]
  norm_num

theorem equilibrium_density_diff (d nie : ℝ) (h : 0 < nie) :
    (equilibrium_density d nie).1 - (equilibrium_density d nie).2 = d := by
  have hs := sqrt_disc_sq d nie
  have h2 : (2.0 : ℝ) = 2 := by norm_num
  unfold equilibrium_density
  by_cases hd : d < 0
  · have hp := majority_pos_of_neg d nie h
    rw [h2] at hp
    simp only [hd, if_true, h2]
    have hq : nie * nie / ((-d + Real.sqrt (d * d + 4 * nie * nie)) / 2)
        = (-d + Real.sqrt (d * d + 4 * nie * nie)) / 2 + d := by
      rw [div_eq_iff (ne_of_gt hp)]
      linear_combination (-1 / 4 : ℝ) * hs
    rw [hq]; ring
  · have hp := majority_pos_of_nonneg d nie h
    rw [h2] at hp
    simp only [hd, if_false, h2]
    have hq : nie * nie / ((d + Real.sqrt (d * d + 4 * nie * nie)) / 2)
        = (d + Real.sqrt (d * d + 4 * nie * nie)) / 2 - d := by
      rw [div_eq_iff (ne_of_gt hp)]
      linear_combination (-1 / 4 : ℝ) * hs
    rw [hq]; ring

theorem limited_mem_inject (pu : PhysicalUnit) (ss : SolverSpecify) (processor_id : Nat)
    (bc : IF_Metal_OhmicBC) (x : Nat → ℝ) (values : Int → ℝ) (add_value_flag : InsertMode)
    (bn : BoundaryNode) (hbn : bn ∈ bc.nodes) (hown : bn.processor_id = processor_id) (v : ℝ)
    (hv : v = limited_inject_current ss x bn.semiconductor_node
          (x bn.semiconductor_node.local_offset)
          (x (bn.semiconductor_node.local_offset + 1))
          (x (bn.semiconductor_node.local_offset + 2))
          (-bc.elec_recomb_velocity
            * (x (bn.semiconductor_node.local_offset + 1)
                - (equilibrium_density bn.semiconductor_node.node_data.Net_doping
                    ((bc.material.mapping bn.semiconductor_node).nie
                      (x (bn.semiconductor_node.local_offset + 2))
                      (x (bn.semiconductor_node.local_offset + 1))
                      (x (bn.semiconductor_node.local_offset + 3)))).1)
            * bn.semiconductor_node.outside_boundary_surface_area)
          (bc.hole_recomb_velocity
            * (x (bn.semiconductor_node.local_offset + 2)
                - (equilibrium_density bn.semiconductor_node.node_data.Net_doping
                    ((bc.material.mapping bn.semiconductor_node).nie
                      (x (bn.semiconductor_node.local_offset + 2))
                      (x (bn.semiconductor_node.local_offset + 1))
                      (x (bn.semiconductor_node.local_offset + 3)))).2)
            * bn.semiconductor_node.outside_boundary_surface_area)) :
    (bn.resistance_node.global_offset, v) ∈
      (_DDM2_Function_Limited_Recombination pu ss processor_id bc x ⟨values, []⟩
        add_value_flag).f.stash := by
  apply limited_mem pu ss processor_id bc x values add_value_flag bn hbn hown
  rw [limited_node_entries_eq, hv]
  exact List.mem_cons_of_mem _ (List.mem_cons_of_mem _ (List.mem_cons_of_mem _
    (List.mem_cons_of_mem _ (List.mem_cons_self _ _))))

theorem foldl_add_eq_sum {α : Type} (g : α → ℝ) :
    ∀ (l : List α) (a : ℝ), l.foldl (fun acc nb => acc + g nb) a = a + (l.map g).sum := by
  intro l
  induction l with
  | nil => intro a; simp
  | cons b rest ih => intro a; rw [List.foldl_cons, ih]; simp [add_assoc]

theorem I_displacement_eq_sum (ss : SolverSpecify) (x : Nat → ℝ) (V : ℝ) (node : FVM_Node) :
    I_displacement ss x V node
      = (node.neighbor_node.map (fun nb =>
          nb.cv_surface_area * node.node_data.eps * dEdt ss x V node.node_data nb)).sum := by
  unfold I_displacement
  rw [foldl_add_eq_sum (fun nb : FVM_Neighbor =>
    nb.cv_surface_area * node.node_data.eps * dEdt ss x V node.node_data nb)]
  norm_num

theorem limited_stash_sample (ss : SolverSpecify) (nbs : List FVM_Neighbor) (x : Nat → ℝ) :
    (_DDM2_Function_Limited_Recombination sample_unit ss 0
        (sample_bc [sample_boundary_node nbs] false) x ⟨fun _ => 0, []⟩
        InsertMode.NOT_SET_VALUES).f.stash
      = [((2 : Int) + 0, x 2 - 1 * x (2 + 3) / 1 * Real.arsinh (0 / (2 * 1)) + 0 / (2 * 1)
            + 1 * x (2 + 3) * Real.log (1 / 1) / (2 * 1) + 0 / 1 - (x (0 + 0) + 0 / 1)),
         ((2 : Int) + 1, -1 * (x (2 + 1) - 1) * 1),
         ((2 : Int) + 2, -(1 * (x (2 + 2) - 1) * 1)),
         ((2 : Int) + 3, x (2 + 3) - x (0 + 1)),
         ((0 : Int), limited_inject_current ss x (sample_semiconductor_node nbs) (x 2)
            (x (2 + 1)) (x (2 + 2)) (-1 * (x (2 + 1) - 1) * 1) (1 * (x (2 + 2) - 1) * 1))] := by
  rw [limited_stash]
  have hown : owned_nodes 0 (sample_bc [sample_boundary_node nbs] false).nodes
      = [sample_boundary_node nbs] := rfl
  have hreg : has_associated_region (sample_boundary_node nbs)
      SimulationRegionType.InsulatorRegion = false := rfl
  rw [hown, List.flatMap_cons, List.flatMap_nil, List.append_nil, limited_node_entries_eq, hreg]
  simp only [sample_bc, sample_boundary_node, sample_semiconductor_node, sample_resistance_node,
    sample_material, sample_node_data, sample_unit, equilibrium_density_0_1, Bool.false_eq_true,
    if_false]

theorem insulator_fold_infinite (x : Nat → ℝ) (V T : ℝ) :
    ∀ (l : List (SimulationRegionType × FVM_Node)) (s : InfiniteBuffers),
      s.iy.length = s.y.length →
      (l.foldl (insulator_residual_infinite x V T) s).entries
          = s.entries ++ insulator_entries x V T l
      ∧ (l.foldl (insulator_residual_infinite x V T) s).iy.length
          = (l.foldl (insulator_residual_infinite x V T) s).y.length
      ∧ (l.foldl (insulator_residual_infinite x V T) s).current_buffer = s.current_buffer
      ∧ (l.foldl (insulator_residual_infinite x V T) s).i = s.i
      ∧ (l.foldl (insulator_residual_infinite x V T) s).f = s.f := by
  intro l
  induction l with
  | nil => intro s hs; simp [insulator_entries, hs]
  | cons rn rest ih =>
    intro s hs
    rw [List.foldl_cons]
    by_cases hrn : rn.1 = SimulationRegionType.InsulatorRegion
    · have hlen : (insulator_residual_infinite x V T s rn).iy.length
          = (insulator_residual_infinite x V T s rn).y.length := by
        simp [insulator_residual_infinite, hrn, hs]
      obtain ⟨h1, h2, h3, h4, h5⟩ := ih _ hlen
      refine ⟨?_, h2, ?_, ?_, ?_⟩
      · rw [h1]
        simp only [InfiniteBuffers.entries, insulator_residual_infinite, hrn, ne_eq,
          not_true_eq_false, if_false, insulator_entries, List.flatMap_cons]
        rw [List.append_assoc s.iy, List.append_assoc s.y, List.zip_append hs]
        simp [List.append_assoc]
      · rw [h3]; simp [insulator_residual_infinite, hrn]
      · rw [h4]; simp [insulator_residual_infinite, hrn]
      · rw [h5]; simp [insulator_residual_infinite, hrn]
    · have hstep : insulator_residual_infinite x V T s rn = s := by
        simp [insulator_residual_infinite, hrn]
      rw [hstep]
      obtain ⟨h1, h2, h3, h4, h5⟩ := ih s hs
      refine ⟨?_, h2, h3, h4, h5⟩
      rw [h1]
      simp [insulator_entries, List.flatMap_cons, hrn]

theorem ohmic_governing_equations_three (pu : PhysicalUnit) (fermi_half : ℝ → ℝ) (Fermi : Bool)
    (sd rd : FVM_NodeData) (V_r V_s n p T nie Nc Nv Eg : ℝ) :
    ∃ g0 g1 g2 : ℝ,
      ohmic_governing_equations pu fermi_half Fermi sd rd V_r V_s n p T nie Nc Nv Eg
        = [g0, g1, g2] := by
  unfold ohmic_governing_equations
  by_cases h : Fermi = true
  · simp only [h, if_true]; exact ⟨_, _, _, rfl⟩
  · simp only [h, if_false]; exact ⟨_, _, _, rfl⟩

theorem infinite_node_some (pu : PhysicalUnit) (fermi_half : ℝ → ℝ) (ss : SolverSpecify)
    (bc : IF_Metal_OhmicBC) (x : Nat → ℝ) (bn : BoundaryNode) (s : InfiniteBuffers) (c : ℝ)
    (hs : s.iy.length = s.y.length) (hc : bc._current_buffer.get? s.i = some c) :
    ∃ s1, infinite_node pu fermi_half ss bc x bn s = some s1
      ∧ s1.i = s.i + 1
      ∧ s1.f = VecSetValue s.f bn.resistance_node.global_offset
          (infinite_inject_current ss x bn c)
      ∧ s1.current_buffer = s.current_buffer ++ [infinite_inject_current ss x bn c]
      ∧ s1.entries = s.entries ++ infinite_node_entries pu fermi_half bc x bn
      ∧ s1.iy.length = s1.y.length := by
  obtain ⟨g0, g1, g2, hg⟩ := ohmic_governing_equations_three pu fermi_half bc.Fermi
    bn.semiconductor_node.node_data bn.resistance_node.node_data
    (x (bn.resistance_node.local_offset + 0))
    (x bn.semiconductor_node.local_offset) (x (bn.semiconductor_node.local_offset + 1))
    (x (bn.semiconductor_node.local_offset + 2)) (x (bn.semiconductor_node.local_offset + 3))
    ((bc.material.mapping bn.semiconductor_node).nie
      (x (bn.semiconductor_node.local_offset + 2)) (x (bn.semiconductor_node.local_offset + 1))
      (x (bn.semiconductor_node.local_offset + 3)))
    ((bc.material.mapping bn.semiconductor_node).Nc (x (bn.semiconductor_node.local_offset + 3)))
    ((bc.material.mapping bn.semiconductor_node).Nv (x (bn.semiconductor_node.local_offset + 3)))
    ((bc.material.mapping bn.semiconductor_node).Eg (x (bn.semiconductor_node.local_offset + 3)))
  unfold infinite_node infinite_node_entries
  simp only [hc, hg]
  by_cases h : has_associated_region bn SimulationRegionType.InsulatorRegion = true
  · simp only [h, if_true]
    refine ⟨_, rfl, ?_⟩
    obtain ⟨h1, h2, h3, h4, h5⟩ := insulator_fold_infinite x
      (x (bn.resistance_node.local_offset + 0)) (x (bn.resistance_node.local_offset + 1))
      bn.region_node
      ⟨s.i + 1,
        s.iy ++ [bn.semiconductor_node.global_offset + 0]
          ++ [bn.semiconductor_node.global_offset + 1]
          ++ [bn.semiconductor_node.global_offset + 2]
          ++ [bn.semiconductor_node.global_offset + 3],
        s.y ++ [g0, g1, g2]
          ++ [x (bn.semiconductor_node.local_offset + 3) - x (bn.resistance_node.local_offset + 1)],
        s.current_buffer ++ [if ss.TimeDependent = true then
            c - I_displacement ss x (x bn.semiconductor_node.local_offset) bn.semiconductor_node
          else c],
        VecSetValue s.f bn.resistance_node.global_offset (if ss.TimeDependent = true then
            c - I_displacement ss x (x bn.semiconductor_node.local_offset) bn.semiconductor_node
          else c)⟩ (by simp [hs])
    refine ⟨h4, h5, h3, ?_, h2⟩
    rw [h1]
    simp only [InfiniteBuffers.entries, List.append_assoc]
    rw [List.zip_append hs]
    simp
  · simp only [h]
    refine ⟨_, rfl, rfl, rfl, rfl, ?_, by simp [hs]⟩
    simp only [InfiniteBuffers.entries, List.append_assoc]
    rw [List.zip_append hs]
    simp

theorem drop_eq_cons_get {α : Type} :
    ∀ (l : List α) (i : Nat) (c : α) (t : List α), l.drop i = c :: t →
      l.get? i = some c ∧ l.drop (i + 1) = t := by
  intro l
  induction l with
  | nil => intro i c t h; simp at h
  | cons a rest ih =>
    intro i c t h
    cases i with
    | zero =>
      simp only [List.drop_zero, List.cons.injEq] at h
      simp [h.1, h.2]
    | succ j =>
      simp only [List.drop_succ_cons] at h
      simpa using ih j c t h

theorem infinite_loop_some (pu : PhysicalUnit) (fermi_half : ℝ → ℝ) (ss : SolverSpecify)
    (processor_id : Nat) (bc : IF_Metal_OhmicBC) (x : Nat → ℝ) :
    ∀ (nodes : List BoundaryNode) (s : InfiniteBuffers) (cs tail : List ℝ),
      s.iy.length = s.y.length → bc._current_buffer.drop s.i = cs ++ tail →
      cs.length = (owned_nodes processor_id nodes).length →
      ∃ s1, infinite_loop pu fermi_half ss processor_id bc x nodes s = some s1
        ∧ s1.f.stash = s.f.stash ++ List.zipWith
            (fun bn c => (bn.resistance_node.global_offset, infinite_inject_current ss x bn c))
            (owned_nodes processor_id nodes) cs
        ∧ s1.f.values = s.f.values
        ∧ s1.entries = s.entries
            ++ (owned_nodes processor_id nodes).flatMap (infinite_node_entries pu fermi_half bc x)
        ∧ s1.iy.length = s1.y.length := by
  intro nodes
  induction nodes with
  | nil =>
    intro s cs tail hs _ hlen
    have hcs : cs = [] := List.eq_nil_of_length_eq_zero (by simpa [owned_nodes] using hlen)
    exact ⟨s, rfl, by simp [owned_nodes], rfl, by simp [owned_nodes], hs⟩
  | cons bn rest ih =>
    intro s cs tail hs hdrop hlen
    by_cases hb : bn.processor_id = processor_id
    · have hown : owned_nodes processor_id (bn :: rest) = bn :: owned_nodes processor_id rest := by
        simp [owned_nodes, List.filter_cons, hb]
      rw [hown] at hlen ⊢
      cases cs with
      | nil => simp at hlen
      | cons c cs1 =>
        obtain ⟨hget, hdrop1⟩ := drop_eq_cons_get _ _ _ _ hdrop
        obtain ⟨s1, e1, hi, hf, _, hent, hl1⟩ :=
          infinite_node_some pu fermi_half ss bc x bn s c hs hget
        have hdrop2 : bc._current_buffer.drop s1.i = cs1 ++ tail := by rw [hi]; exact hdrop1
        obtain ⟨s2, e2, hst, hval, hent2, hl2⟩ :=
          ih s1 cs1 tail hl1 hdrop2 (by simpa using hlen)
        refine ⟨s2, ?_, ?_, ?_, ?_, hl2⟩
        · simp only [infinite_loop, hb, ne_eq, not_true_eq_false, if_false, e1]
          exact e2
        · rw [hst, hf]
          simp [VecSetValue, List.append_assoc]
        · rw [hval, hf]
          rfl
        · rw [hent2, hent]
          simp [List.flatMap_cons, List.append_assoc]
    · have hown : owned_nodes processor_id (bn :: rest) = owned_nodes processor_id rest := by
        simp [owned_nodes, List.filter_cons, hb]
      rw [hown] at hlen ⊢
      obtain ⟨s2, e2, hrest⟩ := ih s cs tail hs hdrop hlen
      refine ⟨s2, ?_, hrest⟩
      simp only [infinite_loop, hb, ne_eq, not_false_eq_true, if_true]
      exact e2

theorem infinite_stash (pu : PhysicalUnit) (fermi_half : ℝ → ℝ) (ss : SolverSpecify)
    (processor_id : Nat) (bc : IF_Metal_OhmicBC) (x : Nat → ℝ) (values : Int → ℝ)
    (add_value_flag : InsertMode) (cs tail : List ℝ) (hbuf : bc._current_buffer = cs ++ tail)
    (hlen : cs.length = (owned_nodes processor_id bc.nodes).length) :
    ∃ res, _DDM2_Function_Infinite_Recombination pu fermi_half ss processor_id bc x
        ⟨values, []⟩ add_value_flag = some res
      ∧ res.f.stash
          = List.zipWith
              (fun bn c => (bn.resistance_node.global_offset, infinite_inject_current ss x bn c))
              (owned_nodes processor_id bc.nodes) cs
            ++ (owned_nodes processor_id bc.nodes).flatMap
                (infinite_node_entries pu fermi_half bc x) := by
  have hentry : ∀ g : Vec, g.stash = [] →
      ∃ res, (match infinite_loop pu fermi_half ss processor_id bc x bc.nodes
                ⟨0, [], [], [], g⟩ with
          | none => none
          | some s =>
            some ({ bc := { bc with
                      current := bc.z_width * s.current_buffer.foldl (fun a b => a + b) 0.0 },
                    f := if s.iy.length ≠ 0 then VecSetValues s.f s.iy s.y else s.f,
                    add_value_flag := InsertMode.ADD_VALUES } : ResidualResult)) = some res
        ∧ res.f.stash
          = List.zipWith
              (fun bn c => (bn.resistance_node.global_offset, infinite_inject_current ss x bn c))
              (owned_nodes processor_id bc.nodes) cs
            ++ (owned_nodes processor_id bc.nodes).flatMap
                (infinite_node_entries pu fermi_half bc x) := by
    intro g hg
    obtain ⟨s1, e1, hst, _, hent, hl⟩ :=
      infinite_loop_some pu fermi_half ss processor_id bc x bc.nodes ⟨0, [], [], [], g⟩ cs tail
        rfl (by simpa using hbuf) hlen
    rw [e1]
    refine ⟨_, rfl, ?_⟩
    simp only [hg, List.nil_append] at hst
    have h0 : (⟨0, [], [], [], g⟩ : InfiniteBuffers).entries = [] := rfl
    rw [h0, List.nil_append] at hent
    by_cases hz : s1.iy.length ≠ 0
    · rw [if_pos hz, ← hent, ← hst]
      rfl
    · rw [if_neg hz, hst]
      have hnil : s1.iy = [] := List.eq_nil_of_length_eq_zero (by simpa using hz)
      rw [← hent]
      simp only [InfiniteBuffers.entries, hnil, List.zip_nil_left, List.append_nil]
  unfold _DDM2_Function_Infinite_Recombination
  simp only []
  apply hentry
  split_ifs <;> simp [VecAssembly]

theorem insulator_preprocess_fold_bc (metal_node : FVM_Node) :
    ∀ (l : List (SimulationRegionType × FVM_Node)) (r : PreprocessResult),
      (l.foldl (insulator_preprocess metal_node) r).bc = r.bc := by
  intro l
  induction l with
  | nil => intro r; rfl
  | cons rn rest ih =>
    intro r
    rw [List.foldl_cons, ih]
    unfold insulator_preprocess
    split_ifs <;> rfl

theorem function_preprocess_infinite_fold (processor_id : Nat) (f : Vec) :
    ∀ (nodes : List BoundaryNode) (r : PreprocessResult),
      (nodes.foldl (fun r bn =>
          if bn.processor_id ≠ processor_id then r
          else function_preprocess_infinite_node f bn r) r).bc
        = { r.bc with _current_buffer := r.bc._current_buffer
              ++ (owned_nodes processor_id nodes).map (fun bn =>
                  f.values (bn.semiconductor_node.global_offset + 2)
                    - f.values (bn.semiconductor_node.global_offset + 1)) } := by
  intro nodes
  induction nodes with
  | nil => intro r; simp [owned_nodes]
  | cons bn rest ih =>
    intro r
    rw [List.foldl_cons, ih]
    by_cases hb : bn.processor_id = processor_id
    · have hnode : (function_preprocess_infinite_node f bn r).bc
          = { r.bc with _current_buffer := r.bc._current_buffer
                ++ [f.values (bn.semiconductor_node.global_offset + 2)
                    - f.values (bn.semiconductor_node.global_offset + 1)] } := by
        unfold function_preprocess_infinite_node
        simp only []
        split_ifs
        · rw [insulator_preprocess_fold_bc]
          simp [VecGetValues]
        · simp [VecGetValues]
      simp only [hb, ne_eq, not_true_eq_false, if_false, hnode]
      simp [owned_nodes, List.filter_cons, hb, List.append_assoc]
    · simp only [hb, ne_eq, not_false_eq_true, if_true]
      simp [owned_nodes, List.filter_cons, hb]

theorem function_preprocess_infinite_bc (processor_id : Nat) (bc : IF_Metal_OhmicBC) (f : Vec)
    (src_row dst_row clear_row : List Int) (hinf : bc._infinity_recombination = true) :
    (DDM2_Function_Preprocess processor_id bc f src_row dst_row clear_row).bc
      = { bc with _current_buffer := (owned_nodes processor_id bc.nodes).map (fun bn =>
            f.values (bn.semiconductor_node.global_offset + 2)
              - f.values (bn.semiconductor_node.global_offset + 1)) } := by
  unfold DDM2_Function_Preprocess
  simp only [hinf, not_true_eq_false, if_false, if_true]
  rw [function_preprocess_infinite_fold]
  simp

theorem zipWith_map_self {α β γ : Type} (g : α → β → γ) (c : α → β) :
    ∀ l : List α, List.zipWith g l (l.map c) = l.map (fun a => g a (c a)) := by
  intro l
  induction l with
  | nil => rfl
  | cons a rest ih => simp [ih]

theorem infinite_mem (pu : PhysicalUnit) (fermi_half : ℝ → ℝ) (ss : SolverSpecify)
    (processor_id : Nat) (bc : IF_Metal_OhmicBC) (x : Nat → ℝ) (values : Int → ℝ)
    (add_value_flag : InsertMode)
    (hbuf : (owned_nodes processor_id bc.nodes).length ≤ bc._current_buffer.length) :
    ∃ res, _DDM2_Function_Infinite_Recombination pu fermi_half ss processor_id bc x
        ⟨values, []⟩ add_value_flag = some res
      ∧ ∀ bn ∈ bc.nodes, bn.processor_id = processor_id →
          ∀ entry ∈ infinite_node_entries pu fermi_half bc x bn, entry ∈ res.f.stash := by
  obtain ⟨res, hres, hstash⟩ := infinite_stash pu fermi_half ss processor_id bc x values
    add_value_flag (bc._current_buffer.take (owned_nodes processor_id bc.nodes).length)
    (bc._current_buffer.drop (owned_nodes processor_id bc.nodes).length)
    (List.take_append_drop _ _).symm (by rw [List.length_take]; exact Nat.min_eq_left hbuf)
  refine ⟨res, hres, ?_⟩
  intro bn hbn hown entry hentry
  rw [hstash]
  apply List.mem_append_right
  rw [List.mem_flatMap]
  exact ⟨bn, by simp [owned_nodes, hbn, hown], hentry⟩

theorem infinite_stash_sample_fermi (x : Nat → ℝ) :
    ∃ res, _DDM2_Function_Infinite_Recombination sample_unit (fun _ => 0) (sample_solver false) 0
        sample_bc_fermi x ⟨fun _ => 0, []⟩ InsertMode.NOT_SET_VALUES = some res
      ∧ res.f.stash = [((0 : Int), (0 : ℝ)), ((2 : Int) + 0, 1 * 0 - 1 * 0 - 0),
          ((2 : Int) + 1, x (2 + 1) - 1 * 0), ((2 : Int) + 2, x (2 + 2) - 1 * 0),
          ((2 : Int) + 3, x (2 + 3) - x (0 + 1))] := by
  obtain ⟨res, hres, hstash⟩ := infinite_stash sample_unit (fun _ => 0) (sample_solver false) 0
    sample_bc_fermi x (fun _ => 0) InsertMode.NOT_SET_VALUES [0] [] rfl rfl
  refine ⟨res, hres, ?_⟩
  rw [hstash]
  have hown : owned_nodes 0 sample_bc_fermi.nodes = [sample_boundary_node []] := rfl
  have hreg : has_associated_region (sample_boundary_node [])
      SimulationRegionType.InsulatorRegion = false := rfl
  rw [hown]
  simp only [List.zipWith_cons_cons, List.zipWith_nil_right, List.flatMap_cons, List.flatMap_nil,
    List.append_nil, infinite_node_entries, hreg]
  simp only [infinite_inject_current, sample_solver,
    ohmic_governing_equations, sample_bc_fermi, sample_bc, sample_boundary_node,
    sample_semiconductor_node, sample_resistance_node, sample_material, sample_node_data,
    sample_unit, Bool.false_eq_true, if_false, if_true, List.zip_cons_cons, List.zip_nil_right,
    List.cons_append, List.nil_append]

theorem zip_map_fst_snd {α β : Type} :
    ∀ l : List (α × β), (l.map Prod.fst).zip (l.map Prod.snd) = l := by
  intro l
  induction l with
  | nil => rfl
  | cons a rest ih => simp [ih]

theorem no_insulator_of_not_associated (bn : BoundaryNode)
    (h : has_associated_region bn SimulationRegionType.InsulatorRegion = false) :
    insulator_clear_rows bn.region_node = []
    ∧ ∀ metal_node, insulator_move_rows metal_node bn.region_node = [] := by
  have hall : ∀ rn ∈ bn.region_node, rn.1 ≠ SimulationRegionType.InsulatorRegion := by
    intro rn hrn heq
    have : has_associated_region bn SimulationRegionType.InsulatorRegion = true := by
      unfold has_associated_region
      rw [List.any_eq_true]
      exact ⟨rn, hrn, by simp [heq]⟩
    rw [h] at this
    exact Bool.false_ne_true this
  constructor
  · unfold insulator_clear_rows
    rw [List.flatMap_eq_nil_iff]
    intro rn hrn
    simp [hall rn hrn]
  · intro metal_node
    unfold insulator_move_rows
    rw [List.flatMap_eq_nil_iff]
    intro rn hrn
    simp [hall rn hrn]

theorem insulator_preprocess_fold_rows (metal_node : FVM_Node) :
    ∀ (l : List (SimulationRegionType × FVM_Node)) (r : PreprocessResult),
      (l.foldl (insulator_preprocess metal_node) r).src_row
          = r.src_row ++ (insulator_move_rows metal_node l).map Prod.fst
      ∧ (l.foldl (insulator_preprocess metal_node) r).dst_row
          = r.dst_row ++ (insulator_move_rows metal_node l).map Prod.snd
      ∧ (l.foldl (insulator_preprocess metal_node) r).clear_row
          = r.clear_row ++ insulator_clear_rows l := by
  intro l
  induction l with
  | nil => intro r; simp [insulator_move_rows, insulator_clear_rows]
  | cons rn rest ih =>
    intro r
    rw [List.foldl_cons]
    obtain ⟨h1, h2, h3⟩ := ih (insulator_preprocess metal_node r rn)
    rw [h1, h2, h3]
    by_cases hrn : rn.1 = SimulationRegionType.InsulatorRegion
    · simp [insulator_preprocess, insulator_move_rows, insulator_clear_rows, hrn,
        List.flatMap_cons]
    · simp [insulator_preprocess, insulator_move_rows, insulator_clear_rows, hrn,
        List.flatMap_cons]

theorem preprocess_node_rows (infinite : Bool) (bn : BoundaryNode) (r0 r : PreprocessResult)
    (hsrc : r.src_row = r0.src_row ++ [bn.semiconductor_node.global_offset + 3])
    (hdst : r.dst_row = r0.dst_row ++ [bn.resistance_node.global_offset + 1])
    (hclear : r.clear_row = r0.clear_row ++
      (if infinite = true then
        [bn.semiconductor_node.global_offset + 0, bn.semiconductor_node.global_offset + 1,
          bn.semiconductor_node.global_offset + 2, bn.semiconductor_node.global_offset + 3]
      else [bn.semiconductor_node.global_offset, bn.semiconductor_node.global_offset + 3])) :
    (if has_associated_region bn SimulationRegionType.InsulatorRegion = true then
        bn.region_node.foldl (insulator_preprocess bn.resistance_node) r else r).src_row
      = r0.src_row ++ (preprocess_move_rows bn).map Prod.fst
    ∧ (if has_associated_region bn SimulationRegionType.InsulatorRegion = true then
        bn.region_node.foldl (insulator_preprocess bn.resistance_node) r else r).dst_row
      = r0.dst_row ++ (preprocess_move_rows bn).map Prod.snd
    ∧ (if has_associated_region bn SimulationRegionType.InsulatorRegion = true then
        bn.region_node.foldl (insulator_preprocess bn.resistance_node) r else r).clear_row
      = r0.clear_row ++ preprocess_clear_rows infinite bn := by
  unfold preprocess_move_rows preprocess_clear_rows
  by_cases h : has_associated_region bn SimulationRegionType.InsulatorRegion = true
  · obtain ⟨h1, h2, h3⟩ := insulator_preprocess_fold_rows bn.resistance_node bn.region_node r
    simp only [h, if_true]
    rw [h1, h2, h3, hsrc, hdst, hclear]
    simp [List.append_assoc]
  · have hf : has_associated_region bn SimulationRegionType.InsulatorRegion = false := by
      simpa using h
    obtain ⟨hc, hm⟩ := no_insulator_of_not_associated bn hf
    rw [hc, hm, hf]
    simp only [Bool.false_eq_true, if_false]
    rw [hsrc, hdst, hclear]
    simp

theorem function_preprocess_limited_node_rows (bn : BoundaryNode) (r : PreprocessResult) :
    (function_preprocess_limited_node bn r).src_row
      = r.src_row ++ (preprocess_move_rows bn).map Prod.fst
    ∧ (function_preprocess_limited_node bn r).dst_row
      = r.dst_row ++ (preprocess_move_rows bn).map Prod.snd
    ∧ (function_preprocess_limited_node bn r).clear_row
      = r.clear_row ++ preprocess_clear_rows false bn := by
  unfold function_preprocess_limited_node
  exact preprocess_node_rows false bn r _ rfl rfl (by simp)

theorem jacobian_preprocess_limited_node_rows (bn : BoundaryNode) (r : PreprocessResult) :
    (jacobian_preprocess_limited_node bn r).src_row
      = r.src_row ++ (preprocess_move_rows bn).map Prod.fst
    ∧ (jacobian_preprocess_limited_node bn r).dst_row
      = r.dst_row ++ (preprocess_move_rows bn).map Prod.snd
    ∧ (jacobian_preprocess_limited_node bn r).clear_row
      = r.clear_row ++ preprocess_clear_rows false bn := by
  unfold jacobian_preprocess_limited_node
  exact preprocess_node_rows false bn r _ rfl rfl (by simp)

theorem function_preprocess_infinite_node_rows (f : Vec) (bn : BoundaryNode)
    (r : PreprocessResult) :
    (function_preprocess_infinite_node f bn r).src_row
      = r.src_row ++ (preprocess_move_rows bn).map Prod.fst
    ∧ (function_preprocess_infinite_node f bn r).dst_row
      = r.dst_row ++ (preprocess_move_rows bn).map Prod.snd
    ∧ (function_preprocess_infinite_node f bn r).clear_row
      = r.clear_row ++ preprocess_clear_rows true bn := by
  unfold function_preprocess_infinite_node
  exact preprocess_node_rows true bn r _ rfl rfl (by simp)

theorem jacobian_preprocess_infinite_node_rows (bn : BoundaryNode) (r : PreprocessResult) :
    (jacobian_preprocess_infinite_node bn r).src_row
      = r.src_row ++ (preprocess_move_rows bn).map Prod.fst
    ∧ (jacobian_preprocess_infinite_node bn r).dst_row
      = r.dst_row ++ (preprocess_move_rows bn).map Prod.snd
    ∧ (jacobian_preprocess_infinite_node bn r).clear_row
      = r.clear_row ++ preprocess_clear_rows true bn := by
  unfold jacobian_preprocess_infinite_node
  exact preprocess_node_rows true bn r _ rfl rfl (by simp)

theorem preprocess_fold_rows (processor_id : Nat) (infinite : Bool)
    (step : BoundaryNode → PreprocessResult → PreprocessResult)
    (hstep : ∀ bn r,
      (step bn r).src_row = r.src_row ++ (preprocess_move_rows bn).map Prod.fst
      ∧ (step bn r).dst_row = r.dst_row ++ (preprocess_move_rows bn).map Prod.snd
      ∧ (step bn r).clear_row = r.clear_row ++ preprocess_clear_rows infinite bn) :
    ∀ (nodes : List BoundaryNode) (r : PreprocessResult),
      (nodes.foldl (fun r bn => if bn.processor_id ≠ processor_id then r else step bn r) r).src_row
        = r.src_row ++ ((owned_nodes processor_id nodes).flatMap preprocess_move_rows).map Prod.fst
      ∧ (nodes.foldl (fun r bn =>
            if bn.processor_id ≠ processor_id then r else step bn r) r).dst_row
        = r.dst_row ++ ((owned_nodes processor_id nodes).flatMap preprocess_move_rows).map Prod.snd
      ∧ (nodes.foldl (fun r bn =>
            if bn.processor_id ≠ processor_id then r else step bn r) r).clear_row
        = r.clear_row
          ++ (owned_nodes processor_id nodes).flatMap (preprocess_clear_rows infinite) := by
  intro nodes
  induction nodes with
  | nil => intro r; simp [owned_nodes]
  | cons bn rest ih =>
    intro r
    rw [List.foldl_cons]
    by_cases hb : bn.processor_id = processor_id
    · obtain ⟨h1, h2, h3⟩ := ih (step bn r)
      obtain ⟨s1, s2, s3⟩ := hstep bn r
      simp only [hb, ne_eq, not_true_eq_false, if_false] at h1 h2 h3 ⊢
      rw [h1, h2, h3, s1, s2, s3]
      simp [owned_nodes, List.filter_cons, hb, List.flatMap_cons, List.append_assoc]
    · obtain ⟨h1, h2, h3⟩ := ih r
      simp only [hb, ne_eq, not_false_eq_true, if_true] at h1 h2 h3 ⊢
      rw [h1, h2, h3]
      simp [owned_nodes, List.filter_cons, hb]

theorem function_preprocess_rows (processor_id : Nat) (bc : IF_Metal_OhmicBC) (f : Vec)
    (src_row dst_row clear_row : List Int) :
    (DDM2_Function_Preprocess processor_id bc f src_row dst_row clear_row).src_row
      = src_row ++ ((owned_nodes processor_id bc.nodes).flatMap preprocess_move_rows).map Prod.fst
    ∧ (DDM2_Function_Preprocess processor_id bc f src_row dst_row clear_row).dst_row
      = dst_row ++ ((owned_nodes processor_id bc.nodes).flatMap preprocess_move_rows).map Prod.snd
    ∧ (DDM2_Function_Preprocess processor_id bc f src_row dst_row clear_row).clear_row
      = clear_row ++ (owned_nodes processor_id bc.nodes).flatMap
          (preprocess_clear_rows bc._infinity_recombination) := by
  unfold DDM2_Function_Preprocess
  by_cases hinf : bc._infinity_recombination = true
  · simp only [hinf, not_true_eq_false, if_false, if_true]
    exact preprocess_fold_rows processor_id true (function_preprocess_infinite_node f)
      (function_preprocess_infinite_node_rows f) bc.nodes _
  · have hf : bc._infinity_recombination = false := by simpa using hinf
    simp only [hf, Bool.false_eq_true, not_false_eq_true, if_true, if_false]
    exact preprocess_fold_rows processor_id false function_preprocess_limited_node
      function_preprocess_limited_node_rows bc.nodes _

theorem jacobian_preprocess_rows (processor_id : Nat) (bc : IF_Metal_OhmicBC)
    (jac : SparseMatrix) (src_row dst_row clear_row : List Int) :
    (DDM2_Jacobian_Preprocess processor_id bc jac src_row dst_row clear_row).src_row
      = src_row ++ ((owned_nodes processor_id bc.nodes).flatMap preprocess_move_rows).map Prod.fst
    ∧ (DDM2_Jacobian_Preprocess processor_id bc jac src_row dst_row clear_row).dst_row
      = dst_row ++ ((owned_nodes processor_id bc.nodes).flatMap preprocess_move_rows).map Prod.snd
    ∧ (DDM2_Jacobian_Preprocess processor_id bc jac src_row dst_row clear_row).clear_row
      = clear_row ++ (owned_nodes processor_id bc.nodes).flatMap
          (preprocess_clear_rows bc._infinity_recombination) := by
  unfold DDM2_Jacobian_Preprocess
  by_cases hinf : bc._infinity_recombination = true
  · simp only [hinf, not_true_eq_false, if_false, if_true]
    exact preprocess_fold_rows processor_id true jacobian_preprocess_infinite_node
      jacobian_preprocess_infinite_node_rows bc.nodes _
  · have hf : bc._infinity_recombination = false := by simpa using hinf
    simp only [hf, Bool.false_eq_true, not_false_eq_true, if_true, if_false]
    exact preprocess_fold_rows processor_id false jacobian_preprocess_limited_node
      jacobian_preprocess_limited_node_rows bc.nodes _

theorem unknown_rows_owner (nodes : List BoundaryNode)
    (hnodup : (nodes.flatMap unknown_rows).Nodup) (bn bn1 : BoundaryNode) (hbn : bn ∈ nodes)
    (hbn1 : bn1 ∈ nodes) (row : Int) (hrow : row ∈ unknown_rows bn)
    (hrow1 : row ∈ unknown_rows bn1) : bn = bn1 := by
  obtain ⟨_, hpair⟩ := List.nodup_flatMap.mp hnodup
  by_contra hne
  have hsymm : Symmetric (Function.onFun List.Disjoint unknown_rows) :=
    fun a b h => List.Disjoint.symm h
  exact hpair.forall hsymm hbn hbn1 hne hrow hrow1

theorem carrier_row_not_cleared_finite (processor_id : Nat) (nodes : List BoundaryNode)
    (hnodup : (nodes.flatMap unknown_rows).Nodup) (bn : BoundaryNode) (hbn : bn ∈ nodes)
    (k : Int) (hk : k = 1 ∨ k = 2) :
    bn.semiconductor_node.global_offset + k ∉
      (owned_nodes processor_id nodes).flatMap (preprocess_clear_rows false) := by
  intro hmem
  rw [List.mem_flatMap] at hmem
  obtain ⟨bn1, hbn1, hrow1⟩ := hmem
  have hbn1nodes : bn1 ∈ nodes := (List.mem_filter.mp hbn1).1
  have hrow : bn.semiconductor_node.global_offset + k ∈ unknown_rows bn := by
    unfold unknown_rows
    rcases hk with h | h <;> simp [h]
  have hsub : bn.semiconductor_node.global_offset + k ∈ unknown_rows bn1 := by
    unfold preprocess_clear_rows at hrow1
    unfold unknown_rows
    simp only [Bool.false_eq_true, if_false, List.mem_append, List.mem_cons,
      List.mem_singleton, List.not_mem_nil, or_false] at hrow1 ⊢
    rcases hrow1 with (h | h) | h
    · left; left; rw [h]; simp
    · left; right; right; right; left; exact h
    · right; exact h
  have heq := unknown_rows_owner nodes hnodup bn bn1 hbn hbn1nodes _ hrow hsub
  subst heq
  obtain ⟨hnd, _⟩ := List.nodup_flatMap.mp hnodup
  have hnd1 := hnd bn hbn
  unfold unknown_rows at hnd1
  rw [List.nodup_append] at hnd1
  obtain ⟨_, _, hdisj⟩ := hnd1
  unfold preprocess_clear_rows at hrow1
  simp only [Bool.false_eq_true, if_false, List.mem_append, List.mem_cons,
    List.mem_singleton, List.not_mem_nil, or_false] at hrow1
  rcases hrow1 with (h | h) | h
  · rcases hk with hk1 | hk1 <;> (rw [hk1] at h; omega)
  · rcases hk with hk1 | hk1 <;> (rw [hk1] at h; omega)
  · refine hdisj ?_ h
    rcases hk with hk1 | hk1 <;> simp [hk1]

theorem carrier_row_cleared_infinite (processor_id : Nat) (nodes : List BoundaryNode)
    (bn : BoundaryNode) (hbn : bn ∈ nodes) (hown : bn.processor_id = processor_id)
    (k : Int) (hk : k = 1 ∨ k = 2) :
    bn.semiconductor_node.global_offset + k ∈
      (owned_nodes processor_id nodes).flatMap (preprocess_clear_rows true) := by
  rw [List.mem_flatMap]
  refine ⟨bn, by simp [owned_nodes, hbn, hown], ?_⟩
  unfold preprocess_clear_rows
  rcases hk with h | h <;> simp [h]

theorem carrier_row_cleared_iff (processor_id : Nat) (nodes : List BoundaryNode)
    (infinite : Bool) (hnodup : (nodes.flatMap unknown_rows).Nodup) (bn : BoundaryNode)
    (hbn : bn ∈ nodes) (hown : bn.processor_id = processor_id) (k : Int) (hk : k = 1 ∨ k = 2) :
    bn.semiconductor_node.global_offset + k ∈
        (owned_nodes processor_id nodes).flatMap (preprocess_clear_rows infinite)
      ↔ infinite = true := by
  cases infinite with
  | true =>
    simp only [iff_true]
    exact carrier_row_cleared_infinite processor_id nodes bn hbn hown k hk
  | false =>
    simp only [Bool.false_eq_true, iff_false]
    exact carrier_row_not_cleared_finite processor_id nodes hnodup bn hbn k hk

theorem add_all_added :
    ∀ (calls : List (Int × Int × ℝ)) (jac : SparseMatrix),
      (jac.add_all calls).added = jac.added ++ calls := by
  intro calls
  induction calls with
  | nil => intro jac; simp [SparseMatrix.add_all]
  | cons call rest ih =>
    intro jac
    have hstep : jac.add_all (call :: rest)
        = (jac.add call.1 call.2.1 call.2.2).add_all rest := rfl
    rw [hstep, ih]
    simp [SparseMatrix.add]

theorem jacobian_loop_added (processor_id : Nat) (g : BoundaryNode → List (Int × Int × ℝ)) :
    ∀ (nodes : List BoundaryNode) (jac : SparseMatrix),
      (nodes.foldl (fun jac bn =>
          if bn.processor_id ≠ processor_id then jac else jac.add_all (g bn)) jac).added
        = jac.added ++ (owned_nodes processor_id nodes).flatMap g := by
  intro nodes
  induction nodes with
  | nil => intro jac; simp [owned_nodes]
  | cons bn rest ih =>
    intro jac
    rw [List.foldl_cons, ih]
    by_cases hb : bn.processor_id = processor_id
    · simp only [hb, ne_eq, not_true_eq_false, if_false, add_all_added]
      simp [owned_nodes, List.filter_cons, hb, List.flatMap_cons, List.append_assoc]
    · simp only [hb, ne_eq, not_false_eq_true, if_true]
      simp [owned_nodes, List.filter_cons, hb]

theorem limited_jacobian_added (pu : PhysicalUnit) (ss : SolverSpecify) (processor_id : Nat)
    (bc : IF_Metal_OhmicBC) (material_ad : MaterialAD) (x : Nat → ℝ) (jac : SparseMatrix)
    (add_value_flag : InsertMode) :
    (_DDM2_Jacobian_Limited_Recombination pu ss processor_id bc material_ad x jac
        add_value_flag).jac.added
      = jac.added ++ (owned_nodes processor_id bc.nodes).flatMap
          (limited_jacobian_node pu ss bc material_ad x) := by
  unfold _DDM2_Jacobian_Limited_Recombination
  exact jacobian_loop_added processor_id _ bc.nodes jac

theorem infinite_jacobian_added (pu : PhysicalUnit) (fermi_half_ad : AutoDScalar → AutoDScalar)
    (ss : SolverSpecify) (processor_id : Nat) (bc : IF_Metal_OhmicBC) (material_ad : MaterialAD)
    (x : Nat → ℝ) (jac : SparseMatrix) (add_value_flag : InsertMode) :
    (_DDM2_Jacobian_Infinite_Recombination pu fermi_half_ad ss processor_id bc material_ad x jac
        add_value_flag).jac.added
      = jac.added ++ jacobian_replay_calls bc
        ++ (owned_nodes processor_id bc.nodes).flatMap
            (infinite_jacobian_node pu fermi_half_ad ss bc material_ad x) := by
  unfold _DDM2_Jacobian_Infinite_Recombination
  simp only []
  rw [jacobian_loop_added processor_id _ bc.nodes, add_all_added]

theorem replay_calls_eq_triples (bc : IF_Metal_OhmicBC) :
    jacobian_replay_calls bc = (buffer_triples bc).flatMap
      (fun buffered => add_row_calls buffered.1 (buffered.2.1.take 4) (buffered.2.2.take 4)) :=
  rfl

theorem harvest_neighbor_step (jac : SparseMatrix) (bn : BoundaryNode) (bc : IF_Metal_OhmicBC)
    (nb : FVM_Neighbor) (h : buffers_aligned bc) :
    buffers_aligned (jacobian_harvest_neighbor jac
        [bn.semiconductor_node.global_offset + 0, bn.semiconductor_node.global_offset + 1,
          bn.semiconductor_node.global_offset + 2, bn.semiconductor_node.global_offset + 3]
        bn.resistance_node bc nb)
    ∧ jacobian_replay_calls (jacobian_harvest_neighbor jac
        [bn.semiconductor_node.global_offset + 0, bn.semiconductor_node.global_offset + 1,
          bn.semiconductor_node.global_offset + 2, bn.semiconductor_node.global_offset + 3]
        bn.resistance_node bc nb)
      = jacobian_replay_calls bc ++ harvest_column_calls jac bn nb.global_offset := by
  obtain ⟨h1, h2⟩ := h
  constructor
  · simp [buffers_aligned, jacobian_harvest_neighbor, h1, h2]
  · simp only [replay_calls_eq_triples, buffer_triples, jacobian_harvest_neighbor]
    rw [List.zip_append h2,
      List.zip_append (by rw [List.length_zip, ← h2, Nat.min_self]; exact h1)]
    simp [add_row_calls, harvest_column_calls, SparseMatrix.get_row]

theorem harvest_neighbors_fold (jac : SparseMatrix) (bn : BoundaryNode) :
    ∀ (l : List FVM_Neighbor) (bc : IF_Metal_OhmicBC), buffers_aligned bc →
      buffers_aligned (l.foldl (jacobian_harvest_neighbor jac
          [bn.semiconductor_node.global_offset + 0, bn.semiconductor_node.global_offset + 1,
            bn.semiconductor_node.global_offset + 2, bn.semiconductor_node.global_offset + 3]
          bn.resistance_node) bc)
      ∧ jacobian_replay_calls (l.foldl (jacobian_harvest_neighbor jac
          [bn.semiconductor_node.global_offset + 0, bn.semiconductor_node.global_offset + 1,
            bn.semiconductor_node.global_offset + 2, bn.semiconductor_node.global_offset + 3]
          bn.resistance_node) bc)
        = jacobian_replay_calls bc
          ++ l.flatMap (fun nb => harvest_column_calls jac bn nb.global_offset)
      ∧ (l.foldl (jacobian_harvest_neighbor jac
          [bn.semiconductor_node.global_offset + 0, bn.semiconductor_node.global_offset + 1,
            bn.semiconductor_node.global_offset + 2, bn.semiconductor_node.global_offset + 3]
          bn.resistance_node) bc).nodes = bc.nodes := by
  intro l
  induction l with
  | nil => intro bc h; exact ⟨h, by simp, rfl⟩
  | cons nb rest ih =>
    intro bc h
    rw [List.foldl_cons]
    obtain ⟨a1, r1⟩ := harvest_neighbor_step jac bn bc nb h
    obtain ⟨a2, r2, n2⟩ := ih _ a1
    refine ⟨a2, ?_, ?_⟩
    · rw [r2, r1]
      simp [List.flatMap_cons, List.append_assoc]
    · rw [n2]; rfl

theorem harvest_node_step (jac : SparseMatrix) (bn : BoundaryNode) (bc : IF_Metal_OhmicBC)
    (h : buffers_aligned bc) :
    buffers_aligned (jacobian_harvest_node jac bn bc)
    ∧ jacobian_replay_calls (jacobian_harvest_node jac bn bc)
      = jacobian_replay_calls bc ++ harvest_calls jac bn
    ∧ (jacobian_harvest_node jac bn bc).nodes = bc.nodes := by
  obtain ⟨⟨a1, a2⟩, r1, n1⟩ :=
    harvest_neighbors_fold jac bn bn.semiconductor_node.neighbor_node bc h
  refine ⟨?_, ?_, ?_⟩
  · simp only [buffers_aligned, jacobian_harvest_node, List.length_append, List.length_singleton]
    exact ⟨by rw [a1], by rw [a2]⟩
  · simp only [replay_calls_eq_triples, buffer_triples, jacobian_harvest_node]
    rw [List.zip_append a2,
      List.zip_append (by rw [List.length_zip, ← a2, Nat.min_self]; exact a1)]
    rw [List.flatMap_append]
    have hr := r1
    simp only [replay_calls_eq_triples, buffer_triples] at hr
    rw [hr]
    simp [add_row_calls, harvest_column_calls, harvest_calls, SparseMatrix.get_row,
      List.append_assoc]
  · simp only [jacobian_harvest_node]
    exact n1

theorem harvest_nodes_fold (processor_id : Nat) (jac : SparseMatrix) :
    ∀ (nodes : List BoundaryNode) (bc : IF_Metal_OhmicBC), buffers_aligned bc →
      buffers_aligned (nodes.foldl (fun b bn =>
          if bn.processor_id ≠ processor_id then b else jacobian_harvest_node jac bn b) bc)
      ∧ jacobian_replay_calls (nodes.foldl (fun b bn =>
          if bn.processor_id ≠ processor_id then b else jacobian_harvest_node jac bn b) bc)
        = jacobian_replay_calls bc
          ++ (owned_nodes processor_id nodes).flatMap (harvest_calls jac)
      ∧ (nodes.foldl (fun b bn =>
          if bn.processor_id ≠ processor_id then b else jacobian_harvest_node jac bn b) bc).nodes
        = bc.nodes := by
  intro nodes
  induction nodes with
  | nil => intro bc h; exact ⟨h, by simp [owned_nodes], rfl⟩
  | cons bn rest ih =>
    intro bc h
    rw [List.foldl_cons]
    by_cases hb : bn.processor_id = processor_id
    · obtain ⟨a1, r1, n1⟩ := harvest_node_step jac bn bc h
      obtain ⟨a2, r2, n2⟩ := ih _ a1
      simp only [hb, ne_eq, not_true_eq_false, if_false] at a2 r2 n2 ⊢
      refine ⟨a2, ?_, ?_⟩
      · rw [r2, r1]
        simp [owned_nodes, List.filter_cons, hb, List.flatMap_cons, List.append_assoc]
      · rw [n2, n1]
    · obtain ⟨a2, r2, n2⟩ := ih bc h
      simp only [hb, ne_eq, not_false_eq_true, if_true] at a2 r2 n2 ⊢
      refine ⟨a2, ?_, n2⟩
      rw [r2]
      simp [owned_nodes, List.filter_cons, hb]

theorem jacobian_preprocess_infinite_fold_bc (processor_id : Nat) :
    ∀ (nodes : List BoundaryNode) (r : PreprocessResult),
      (nodes.foldl (fun r bn =>
          if bn.processor_id ≠ processor_id then r
          else jacobian_preprocess_infinite_node bn r) r).bc = r.bc := by
  intro nodes
  induction nodes with
  | nil => intro r; rfl
  | cons bn rest ih =>
    intro r
    rw [List.foldl_cons, ih]
    by_cases hb : bn.processor_id = processor_id
    · simp only [hb, ne_eq, not_true_eq_false, if_false]
      unfold jacobian_preprocess_infinite_node
      simp only []
      split_ifs
      · rw [insulator_preprocess_fold_bc]
      · rfl
    · simp only [hb, ne_eq, not_false_eq_true, if_true]

theorem jacobian_preprocess_harvest (processor_id : Nat) (bc : IF_Metal_OhmicBC)
    (jac : SparseMatrix) (src_row dst_row clear_row : List Int)
    (hinf : bc._infinity_recombination = true) :
    jacobian_replay_calls
        (DDM2_Jacobian_Preprocess processor_id bc jac src_row dst_row clear_row).bc
      = (owned_nodes processor_id bc.nodes).flatMap (harvest_calls jac)
    ∧ (DDM2_Jacobian_Preprocess processor_id bc jac src_row dst_row clear_row).bc.nodes
      = bc.nodes := by
  unfold DDM2_Jacobian_Preprocess
  simp only []
  rw [if_neg (not_not.mpr hinf), if_pos hinf, jacobian_preprocess_infinite_fold_bc]
  obtain ⟨_, r1, n1⟩ := harvest_nodes_fold processor_id jac bc.nodes
    { bc with _buffer_rows := [], _buffer_cols := [], _buffer_jacobian_entries := [] }
    ⟨rfl, rfl⟩
  constructor
  · exact r1.trans (by simp [jacobian_replay_calls])
  · exact n1

theorem AutoDScalar.const_value (c : ℝ) : (AutoDScalar.const c).value = c := rfl

theorem AutoDScalar.const_ad (c : ℝ) (i : Nat) : (AutoDScalar.const c).ad i = 0 := rfl

theorem AutoDScalar.independent_value (v : ℝ) (i : Nat) :
    (AutoDScalar.independent v i).value = v := rfl

theorem AutoDScalar.independent_ad (v : ℝ) (i j : Nat) :
    (AutoDScalar.independent v i).ad j = if j = i then 1 else 0 := by
  simp only [AutoDScalar.independent, AutoDScalar.setADValue, AutoDScalar.const]
  norm_num

theorem AutoDScalar.add_value (a b : AutoDScalar) : (a + b).value = a.value + b.value := rfl

theorem AutoDScalar.add_ad (a b : AutoDScalar) (i : Nat) : (a + b).ad i = a.ad i + b.ad i := rfl

theorem AutoDScalar.sub_value (a b : AutoDScalar) : (a - b).value = a.value - b.value := rfl

theorem AutoDScalar.sub_ad (a b : AutoDScalar) (i : Nat) : (a - b).ad i = a.ad i - b.ad i := rfl

theorem AutoDScalar.neg_value (a : AutoDScalar) : (-a).value = -a.value := rfl

theorem AutoDScalar.neg_ad (a : AutoDScalar) (i : Nat) : (-a).ad i = -a.ad i := rfl

theorem AutoDScalar.mul_value (a b : AutoDScalar) : (a * b).value = a.value * b.value := rfl

theorem AutoDScalar.mul_ad (a b : AutoDScalar) (i : Nat) :
    (a * b).ad i = a.ad i * b.value + a.value * b.ad i := rfl

theorem AutoDScalar.div_value (a b : AutoDScalar) : (a / b).value = a.value / b.value := rfl

theorem AutoDScalar.div_ad (a b : AutoDScalar) (i : Nat) :
    (a / b).ad i = (a.ad i * b.value - a.value * b.ad i) / (b.value * b.value) := rfl

theorem AutoDScalar.sqrt_value (a : AutoDScalar) : a.sqrt.value = Real.sqrt a.value := rfl

theorem AutoDScalar.sqrt_ad (a : AutoDScalar) (i : Nat) :
    a.sqrt.ad i = a.ad i / (2 * Real.sqrt a.value) := rfl

theorem AutoDScalar.asinh_value (a : AutoDScalar) : a.asinh.value = Real.arsinh a.value := rfl

theorem AutoDScalar.asinh_ad (a : AutoDScalar) (i : Nat) :
    a.asinh.ad i = a.ad i / Real.sqrt (1 + a.value * a.value) := rfl

theorem AutoDScalar.log_value (a : AutoDScalar) : a.log.value = Real.log a.value := rfl

theorem AutoDScalar.log_ad (a : AutoDScalar) (i : Nat) : a.log.ad i = a.ad i / a.value := rfl

theorem equilibrium_density_ad_const (d nie0 : ℝ) (i : Nat) :
    (equilibrium_density_ad d (AutoDScalar.const nie0)).1.ad i = 0
    ∧ (equilibrium_density_ad d (AutoDScalar.const nie0)).2.ad i = 0 := by
  unfold equilibrium_density_ad
  by_cases hd : d < 0
  · simp [hd, AutoDScalar.const_value, AutoDScalar.const_ad, AutoDScalar.add_value,
      AutoDScalar.add_ad, AutoDScalar.mul_value, AutoDScalar.mul_ad, AutoDScalar.div_value,
      AutoDScalar.div_ad, AutoDScalar.sqrt_value, AutoDScalar.sqrt_ad]
  · simp [hd, AutoDScalar.const_value, AutoDScalar.const_ad, AutoDScalar.add_value,
      AutoDScalar.add_ad, AutoDScalar.mul_value, AutoDScalar.mul_ad, AutoDScalar.div_value,
      AutoDScalar.div_ad, AutoDScalar.sqrt_value, AutoDScalar.sqrt_ad]

theorem f_phi_ad_const (pu : PhysicalUnit) (sd rd : FVM_NodeData) (Vr Vs T nie0 Nc0 Nv0 Eg0 : ℝ) :
    (f_phi_ad pu sd rd (AutoDScalar.independent Vr 0) (AutoDScalar.independent Vs 2)
        (AutoDScalar.independent T 5) (AutoDScalar.const nie0) (AutoDScalar.const Nc0)
        (AutoDScalar.const Nv0) (AutoDScalar.const Eg0)).getADValues
      = [-1, 0, 1, 0, 0,
          -(pu.kb / pu.e) * Real.arsinh (sd.Net_doping / (2 * nie0))
            + pu.kb * Real.log (Nc0 / Nv0) / (2 * pu.e)] := by
  have h1 : pu.kb * pu.e / (pu.e * pu.e) = pu.kb / pu.e := by
    by_cases he : pu.e = 0
    · simp [he]
    · exact mul_div_mul_right _ _ he
  have h2 : pu.kb * Real.log (Nc0 / Nv0) * (2 * pu.e) / (2 * pu.e * (2 * pu.e))
      = pu.kb * Real.log (Nc0 / Nv0) / (2 * pu.e) := by
    by_cases he : pu.e = 0
    · simp [he]
    · exact mul_div_mul_right _ _ (mul_ne_zero two_ne_zero he)
  simp [f_phi_ad, AutoDScalar.getADValues, AutoDScalar.const_value, AutoDScalar.const_ad,
    AutoDScalar.independent_value, AutoDScalar.independent_ad, AutoDScalar.add_value,
    AutoDScalar.add_ad, AutoDScalar.sub_value, AutoDScalar.sub_ad, AutoDScalar.mul_value,
    AutoDScalar.mul_ad, AutoDScalar.div_value, AutoDScalar.div_ad, AutoDScalar.asinh_value,
    AutoDScalar.asinh_ad, AutoDScalar.log_value, AutoDScalar.log_ad, h1, h2]

theorem emission_ad_const (v S n p d nie0 : ℝ) :
    (AutoDScalar.const (-v) * (AutoDScalar.independent n 3
        - (equilibrium_density_ad d (AutoDScalar.const nie0)).1)
      * AutoDScalar.const S).getADValue 3 = -v * S
    ∧ (AutoDScalar.const v * (AutoDScalar.independent p 4
        - (equilibrium_density_ad d (AutoDScalar.const nie0)).2)
      * AutoDScalar.const S).getADValue 4 = v * S := by
  simp [AutoDScalar.getADValue, AutoDScalar.mul_ad, AutoDScalar.sub_ad, AutoDScalar.const_ad,
    AutoDScalar.const_value, AutoDScalar.independent_ad, AutoDScalar.mul_value,
    (equilibrium_density_ad_const d nie0 3).1, (equilibrium_density_ad_const d nie0 4).2]

theorem f_T_ad (T Tr : ℝ) :
    (AutoDScalar.independent T 5 - AutoDScalar.independent Tr 1).getADValues
      = [0, -1, 0, 0, 0, 1] := by
  simp [AutoDScalar.getADValues, AutoDScalar.sub_ad, AutoDScalar.independent_ad]

theorem limited_jacobian_node_const (pu : PhysicalUnit) (ss : SolverSpecify)
    (bc : IF_Metal_OhmicBC) (material_ad : MaterialAD) (x : Nat → ℝ) (bn : BoundaryNode)
    (nie0 Nc0 Nv0 Eg0 : ℝ)
    (hnie : ∀ p n T, (material_ad.mapping bn.semiconductor_node).nie p n T
      = AutoDScalar.const nie0)
    (hNc : ∀ T, (material_ad.mapping bn.semiconductor_node).Nc T = AutoDScalar.const Nc0)
    (hNv : ∀ T, (material_ad.mapping bn.semiconductor_node).Nv T = AutoDScalar.const Nv0)
    (hEg : ∀ T, (material_ad.mapping bn.semiconductor_node).Eg T = AutoDScalar.const Eg0)
    (hsteady : ss.TimeDependent = false)
    (hins : has_associated_region bn SimulationRegionType.InsulatorRegion = false) :
    limited_jacobian_node pu ss bc material_ad x bn
      = [(bn.semiconductor_node.global_offset + 1, bn.semiconductor_node.global_offset + 1,
            -bc.elec_recomb_velocity * bn.semiconductor_node.outside_boundary_surface_area),
         (bn.semiconductor_node.global_offset + 2, bn.semiconductor_node.global_offset + 2,
            -(bc.hole_recomb_velocity * bn.semiconductor_node.outside_boundary_surface_area)),
         (bn.resistance_node.global_offset, bn.semiconductor_node.global_offset + 1,
            -bc.elec_recomb_velocity * bn.semiconductor_node.outside_boundary_surface_area),
         (bn.resistance_node.global_offset, bn.semiconductor_node.global_offset + 2,
            bc.hole_recomb_velocity * bn.semiconductor_node.outside_boundary_surface_area),
         (bn.semiconductor_node.global_offset + 0, bn.resistance_node.global_offset + 0, -1),
         (bn.semiconductor_node.global_offset + 0, bn.resistance_node.global_offset + 1, 0),
         (bn.semiconductor_node.global_offset + 0, bn.semiconductor_node.global_offset + 0, 1),
         (bn.semiconductor_node.global_offset + 0, bn.semiconductor_node.global_offset + 1, 0),
         (bn.semiconductor_node.global_offset + 0, bn.semiconductor_node.global_offset + 2, 0),
         (bn.semiconductor_node.global_offset + 0, bn.semiconductor_node.global_offset + 3,
            -(pu.kb / pu.e)
                * Real.arsinh (bn.semiconductor_node.node_data.Net_doping / (2 * nie0))
              + pu.kb * Real.log (Nc0 / Nv0) / (2 * pu.e)),
         (bn.semiconductor_node.global_offset + 3, bn.resistance_node.global_offset + 0, 0),
         (bn.semiconductor_node.global_offset + 3, bn.resistance_node.global_offset + 1, -1),
         (bn.semiconductor_node.global_offset + 3, bn.semiconductor_node.global_offset + 0, 0),
         (bn.semiconductor_node.global_offset + 3, bn.semiconductor_node.global_offset + 1, 0),
         (bn.semiconductor_node.global_offset + 3, bn.semiconductor_node.global_offset + 2, 0),
         (bn.semiconductor_node.global_offset + 3, bn.semiconductor_node.global_offset + 3,
            1)] := by
  have hIn := (emission_ad_const bc.elec_recomb_velocity
    bn.semiconductor_node.outside_boundary_surface_area
    (x (bn.semiconductor_node.local_offset + 1)) (x (bn.semiconductor_node.local_offset + 2))
    bn.semiconductor_node.node_data.Net_doping nie0).1
  have hIp := (emission_ad_const bc.hole_recomb_velocity
    bn.semiconductor_node.outside_boundary_surface_area
    (x (bn.semiconductor_node.local_offset + 1)) (x (bn.semiconductor_node.local_offset + 2))
    bn.semiconductor_node.node_data.Net_doping nie0).2
  unfold limited_jacobian_node
  simp only [hnie, hNc, hNv, hEg, hsteady, hins, Bool.false_eq_true, if_false,
    f_phi_ad_const, f_T_ad, hIn, hIp]
  simp [add_row_calls]

theorem hasDerivAt_of_affine (g : ℝ → ℝ) (a t0 : ℝ) (h : ∀ t, g t = a * t + g 0) :
    HasDerivAt g a t0 := by
  have hg : g = fun t => a * t + g 0 := funext h
  rw [hg]
  simpa using ((hasDerivAt_id t0).const_mul a).add_const (g 0)

theorem limited_node_entries_steady (pu : PhysicalUnit) (ss : SolverSpecify)
    (bc : IF_Metal_OhmicBC) (x : Nat → ℝ) (bn : BoundaryNode)
    (hsteady : ss.TimeDependent = false)
    (hins : has_associated_region bn SimulationRegionType.InsulatorRegion = false) :
    limited_node_entries pu ss bc x bn
      = [0, 1, 2, 3, 4].map (fun i =>
          (residual_row bn i,
            (steady_residual pu bc bn (bc.material.mapping bn.semiconductor_node)
              (unknowns_of x bn)).getD i 0)) := by
  rw [limited_node_entries_eq]
  simp [residual_row, steady_residual, unknowns_of, limited_inject_current, hsteady, hins]

theorem steady_residual_const_deriv (pu : PhysicalUnit) (bc : IF_Metal_OhmicBC)
    (bn : BoundaryNode) (band : BandStructure) (u : Nat → ℝ) (nie0 Nc0 Nv0 Eg0 : ℝ)
    (hnie : ∀ p n T, band.nie p n T = nie0) (hNc : ∀ T, band.Nc T = Nc0)
    (hNv : ∀ T, band.Nv T = Nv0) (hEg : ∀ T, band.Eg T = Eg0) :
    ∀ e ∈ constant_material_jacobian pu bc bn nie0 Nc0 Nv0,
      HasDerivAt (fun t => (steady_residual pu bc bn band (Function.update u e.2.1 t)).getD e.1 0)
        e.2.2 (u e.2.1) := by
  intro e he
  simp only [constant_material_jacobian, List.mem_cons, List.mem_singleton, List.not_mem_nil,
    or_false] at he
  rcases he with rfl | rfl | rfl | rfl | rfl | rfl | rfl | rfl | rfl | rfl | rfl | rfl | rfl
    | rfl | rfl | rfl <;>
  · apply hasDerivAt_of_affine
    intro t
    simp [steady_residual, Function.update, hnie, hNc, hNv, hEg]
    try ring

theorem equilibrium_density_zero_pos (t : ℝ) (ht : 0 < t) :
    (equilibrium_density 0 t).1 = t := by
  unfold equilibrium_density
  rw [if_neg (lt_irrefl 0)]
  have hs : Real.sqrt ((0 : ℝ) * 0 + 4 * t * t) = 2 * t := by
    rw [show ((0 : ℝ) * 0 + 4 * t * t) = (2 * t) ^ 2 by ring]
    exact Real.sqrt_sq (by linarith)
  simp only [hs]
  norm_num

theorem sum_range_ite {M : Type} [AddCommMonoid M] (c : M) (k : Nat) :
    ∀ n : Nat, ((List.range n).map (fun r => if k = r then c else 0)).sum
      = if k < n then c else 0 := by
  intro n
  induction n with
  | zero => simp
  | succ m ih =>
    rw [List.range_succ, List.map_append, List.sum_append, ih]
    by_cases h1 : k < m
    · have h2 : k ≠ m := Nat.ne_of_lt h1
      have h3 : k < m + 1 := Nat.lt_succ_of_lt h1
      simp [h1, h2, h3]
    · by_cases h2 : k = m
      · simp [h2]
      · have h3 : ¬ k < m + 1 := by omega
        simp [h1, h2, h3]

theorem sum_over_owners {M : Type} [AddCommMonoid M] (g : BoundaryNode → M) (n : Nat) :
    ∀ nodes : List BoundaryNode, (∀ bn ∈ nodes, bn.processor_id < n) →
      ((List.range n).map (fun r => ((owned_nodes r nodes).map g).sum)).sum
        = (nodes.map g).sum := by
  intro nodes
  induction nodes with
  | nil => intro _; simp [owned_nodes]
  | cons bn rest ih =>
    intro h
    have hrest : ∀ b ∈ rest, b.processor_id < n := fun b hb => h b (List.mem_cons_of_mem _ hb)
    have hbn : bn.processor_id < n := h bn (List.mem_cons_self _ _)
    have hstep : ∀ r, ((owned_nodes r (bn :: rest)).map g).sum
        = (if bn.processor_id = r then g bn else 0) + ((owned_nodes r rest).map g).sum := by
      intro r
      by_cases hr : bn.processor_id = r
      · simp [owned_nodes, List.filter_cons, hr]
      · simp [owned_nodes, List.filter_cons, hr]
    simp only [hstep, List.sum_map_add, sum_range_ite, hbn, if_true, ih hrest, List.map_cons,
      List.sum_cons]

theorem insulator_fold_current_buffer (x : Nat → ℝ) (V T : ℝ) :
    ∀ (l : List (SimulationRegionType × FVM_Node)) (s : ResidualBuffers),
      (l.foldl (insulator_residual x V T) s).current_buffer = s.current_buffer := by
  intro l
  induction l with
  | nil => intro s; rfl
  | cons rn rest ih =>
    intro s
    rw [List.foldl_cons, ih]
    unfold insulator_residual
    split_ifs <;> rfl

theorem limited_node_current_buffer (pu : PhysicalUnit) (ss : SolverSpecify)
    (bc : IF_Metal_OhmicBC) (x : Nat → ℝ) (bn : BoundaryNode) (s : ResidualBuffers) :
    (limited_node pu ss bc x bn s).current_buffer
      = s.current_buffer ++ [limited_node_inject_current ss bc x bn] := by
  unfold limited_node limited_node_inject_current
  simp only []
  split_ifs
  · rw [insulator_fold_current_buffer]
  · rfl

theorem limited_loop_current_buffer (pu : PhysicalUnit) (ss : SolverSpecify)
    (processor_id : Nat) (bc : IF_Metal_OhmicBC) (x : Nat → ℝ) :
    ∀ (nodes : List BoundaryNode) (s : ResidualBuffers),
      (nodes.foldl (fun s bn =>
          if bn.processor_id ≠ processor_id then s
          else limited_node pu ss bc x bn s) s).current_buffer
        = s.current_buffer
          ++ (owned_nodes processor_id nodes).map (limited_node_inject_current ss bc x) := by
  intro nodes
  induction nodes with
  | nil => intro s; simp [owned_nodes]
  | cons bn rest ih =>
    intro s
    rw [List.foldl_cons, ih]
    by_cases hb : bn.processor_id = processor_id
    · simp only [hb, ne_eq, not_true_eq_false, if_false, limited_node_current_buffer]
      simp [owned_nodes, List.filter_cons, hb, List.append_assoc]
    · simp only [hb, ne_eq, not_false_eq_true, if_true]
      simp [owned_nodes, List.filter_cons, hb]

theorem limited_current (pu : PhysicalUnit) (ss : SolverSpecify) (processor_id : Nat)
    (bc : IF_Metal_OhmicBC) (x : Nat → ℝ) (f : Vec) (add_value_flag : InsertMode) :
    (_DDM2_Function_Limited_Recombination pu ss processor_id bc x f add_value_flag).bc.current
      = bc.z_width
        * ((owned_nodes processor_id bc.nodes).map (limited_node_inject_current ss bc x)).sum := by
  unfold _DDM2_Function_Limited_Recombination limited_loop
  simp only []
  rw [limited_loop_current_buffer, List.nil_append,
    foldl_add_eq_sum (fun v : ℝ => v) _ 0.0, List.map_id']
  norm_num

theorem infinite_returns (pu : PhysicalUnit) (fermi_half : ℝ → ℝ) (ss : SolverSpecify)
    (processor_id : Nat) (bc : IF_Metal_OhmicBC) (x : Nat → ℝ) (f : Vec)
    (add_value_flag : InsertMode)
    (hbuf : (owned_nodes processor_id bc.nodes).length ≤ bc._current_buffer.length) :
    ∃ res, _DDM2_Function_Infinite_Recombination pu fermi_half ss processor_id bc x f
        add_value_flag = some res := by
  have hloop : ∀ g : Vec, ∃ s1, infinite_loop pu fermi_half ss processor_id bc x bc.nodes
      ⟨0, [], [], [], g⟩ = some s1 := by
    intro g
    obtain ⟨s1, e1, _⟩ := infinite_loop_some pu fermi_half ss processor_id bc x bc.nodes
      ⟨0, [], [], [], g⟩ (bc._current_buffer.take (owned_nodes processor_id bc.nodes).length)
      (bc._current_buffer.drop (owned_nodes processor_id bc.nodes).length) rfl
      (by simp) (by rw [List.length_take]; exact Nat.min_eq_left hbuf)
    exact ⟨s1, e1⟩
  unfold _DDM2_Function_Infinite_Recombination
  simp only []
  obtain ⟨s1, e1⟩ := hloop (if add_value_flag ≠ InsertMode.ADD_VALUES
    ∧ add_value_flag ≠ InsertMode.NOT_SET_VALUES then VecAssembly f else f)
  rw [e1]
  exact ⟨_, rfl⟩

theorem sqrt_disc_ge_two_nie (d nie : ℝ) (h : 0 < nie) :
    2 * nie ≤ Real.sqrt (d * d + 4 * nie * nie) := by
  have h2 : Real.sqrt ((2 * nie) ^ 2) = 2 * nie := Real.sqrt_sq (by linarith)
  rw [← h2]
  apply Real.sqrt_le_sqrt
  nlinarith [mul_self_nonneg d]

theorem equilibrium_density_neg (d nie : ℝ) (hd : d < 0) :
    (equilibrium_density d nie).2 = (-d + Real.sqrt (d * d + 4 * nie * nie)) / 2.0
    ∧ (equilibrium_density d nie).1 = nie * nie / (equilibrium_density d nie).2 := by
  unfold equilibrium_density
  simp only [hd, if_true, and_self]

theorem equilibrium_density_nonneg (d nie : ℝ) (hd : ¬ d < 0) :
    (equilibrium_density d nie).1 = (d + Real.sqrt (d * d + 4 * nie * nie)) / 2.0
    ∧ (equilibrium_density d nie).2 = nie * nie / (equilibrium_density d nie).1 := by
  unfold equilibrium_density
  simp only [hd, if_false, and_self]

theorem equilibrium_density_ad_value (d : ℝ) (nie : AutoDScalar) :
    (equilibrium_density_ad d nie).1.value = (equilibrium_density d nie.value).1
    ∧ (equilibrium_density_ad d nie).2.value = (equilibrium_density d nie.value).2 := by
  unfold equilibrium_density_ad equilibrium_density
  by_cases hd : d < 0
  · simp only [hd, if_true]
    exact ⟨rfl, rfl⟩
  · simp only [hd, if_false]
    exact ⟨rfl, rfl⟩

theorem bdf2_linear_history (dt dt_last n a : ℝ) (hdt : 0 < dt) (hlast : 0 < dt_last) :
    ((2 - dt_last / (dt_last + dt)) / (1 - dt_last / (dt_last + dt)) * n
      - 1.0 / (dt_last / (dt_last + dt) * (1 - dt_last / (dt_last + dt))) * (n - a * dt)
      + (1 - dt_last / (dt_last + dt)) / (dt_last / (dt_last + dt))
        * (n - a * (dt + dt_last))) / (dt_last + dt) = a := by
  have hH : dt_last + dt ≠ 0 := ne_of_gt (add_pos hlast hdt)
  have h1 : dt ≠ 0 := ne_of_gt hdt
  have h2 : dt_last ≠ 0 := ne_of_gt hlast
  have hr : 1 - dt_last / (dt_last + dt) = dt / (dt_last + dt) := by
    field_simp
  have h2r : 2 - dt_last / (dt_last + dt) = (2 * dt + dt_last) / (dt_last + dt) := by
    field_simp
    ring
  rw [hr, h2r]
  norm_num
  field_simp
  ring

/-! ## Theorems -/

/-- C1: for every net doping `d` and every `nie > 0` the computed equilibrium
densities satisfy `electron_density * hole_density = nie^2`, in both branches. -/
theorem equilibrium_density_mass_action (d nie : ℝ) (h : 0 < nie) :
    (equilibrium_density d nie).1 * (equilibrium_density d nie).2 = nie ^ 2 := by
  unfold equilibrium_density
  by_cases hd : d < 0
  · have hp := majority_pos_of_neg d nie h
    simp only [hd, if_true]
    rw [div_mul_cancel₀ _ (ne_of_gt hp)]
    ring
  · have hp := majority_pos_of_nonneg d nie h
    simp only [hd, if_false]
    rw [mul_div_cancel₀ _ (ne_of_gt hp)]
    ring

theorem equilibrium_density_mass_action_witness :
    (0 : ℝ) < 2 ∧
      (equilibrium_density (-3) 2).1 * (equilibrium_density (-3) 2).2 = (2 : ℝ) ^ 2 :=
  ⟨by norm_num, equilibrium_density_mass_action (-3) 2 (by norm_num)⟩


/-- C2 (as stated) fails for p-type doping: with `d = -3` and `nie = 2` the
majority (hole) density is 4 and the minority (electron) density is 1, so
majority minus minority is 3, not `d = -3`. -/
theorem majority_minus_minority_counterexample :
    ((-3 : ℝ) ≠ 0 ∧ (0 : ℝ) < 2) ∧
      ¬ ((if (-3 : ℝ) < 0 then (equilibrium_density (-3) 2).2 - (equilibrium_density (-3) 2).1
          else (equilibrium_density (-3) 2).1 - (equilibrium_density (-3) 2).2) = -3) := by
  rw [equilibrium_density_neg3_2]
  norm_num

/-- C2 (amended): for every net doping `d ≠ 0` and every `nie > 0`, the majority
density (holes when `d < 0`, electrons otherwise) minus the minority density
equals the absolute value of `d`. -/
theorem majority_minus_minority_abs (d nie : ℝ) (hd : d ≠ 0) (h : 0 < nie) :
    (if d < 0 then (equilibrium_density d nie).2 - (equilibrium_density d nie).1
      else (equilibrium_density d nie).1 - (equilibrium_density d nie).2) = |d| := by
  have hdiff := equilibrium_density_diff d nie h
  by_cases hneg : d < 0
  · rw [if_pos hneg, abs_of_neg hneg]; linarith
  · have hpos : 0 < d := lt_of_le_of_ne (not_lt.mp hneg) (Ne.symm hd)
    rw [if_neg hneg, abs_of_pos hpos]; exact hdiff

theorem majority_minus_minority_abs_witness :
    ((-3 : ℝ) ≠ 0 ∧ (0 : ℝ) < 2) ∧
      (if (-3 : ℝ) < 0 then (equilibrium_density (-3) 2).2 - (equilibrium_density (-3) 2).1
        else (equilibrium_density (-3) 2).1 - (equilibrium_density (-3) 2).2) = |(-3 : ℝ)| :=
  ⟨⟨by norm_num, by norm_num⟩, majority_minus_minority_abs (-3) 2 (by norm_num) (by norm_num)⟩


/-- C3: in the finite-recombination residual, for every node of this processor,
if `n` and `p` equal the computed equilibrium electron and hole densities then
`In = 0` and `Ip = 0`, and the values added at the semiconductor electron row
and hole row are both zero. -/
theorem limited_emission_zero_at_equilibrium (pu : PhysicalUnit) (ss : SolverSpecify)
    (processor_id : Nat) (bc : IF_Metal_OhmicBC) (x : Nat → ℝ) (values : Int → ℝ)
    (add_value_flag : InsertMode) (bn : BoundaryNode) (hbn : bn ∈ bc.nodes)
    (hown : bn.processor_id = processor_id) :
    let n := x (bn.semiconductor_node.local_offset + 1)
    let p := x (bn.semiconductor_node.local_offset + 2)
    let T_semiconductor := x (bn.semiconductor_node.local_offset + 3)
    let nie := (bc.material.mapping bn.semiconductor_node).nie p n T_semiconductor
    let n_eq := (equilibrium_density bn.semiconductor_node.node_data.Net_doping nie).1
    let p_eq := (equilibrium_density bn.semiconductor_node.node_data.Net_doping nie).2
    let S := bn.semiconductor_node.outside_boundary_surface_area
    let In := -bc.elec_recomb_velocity * (n - n_eq) * S
    let Ip := bc.hole_recomb_velocity * (p - p_eq) * S
    n = n_eq → p = p_eq →
      In = 0 ∧ Ip = 0
      ∧ (bn.semiconductor_node.global_offset + 1, (0 : ℝ)) ∈
          (_DDM2_Function_Limited_Recombination pu ss processor_id bc x ⟨values, []⟩
            add_value_flag).f.stash
      ∧ (bn.semiconductor_node.global_offset + 2, (0 : ℝ)) ∈
          (_DDM2_Function_Limited_Recombination pu ss processor_id bc x ⟨values, []⟩
            add_value_flag).f.stash := by
  intro n p T_semiconductor nie n_eq p_eq S In Ip hn hp
  have hIn : In = 0 := by simp only [In, hn, sub_self, mul_zero, zero_mul]
  have hIp : Ip = 0 := by simp only [Ip, hp, sub_self, mul_zero, zero_mul]
  have e1 : (bn.semiconductor_node.global_offset + 1, (0 : ℝ))
      = (bn.semiconductor_node.global_offset + 1, In) := by rw [hIn]
  have e2 : (bn.semiconductor_node.global_offset + 2, (0 : ℝ))
      = (bn.semiconductor_node.global_offset + 2, -Ip) := by rw [hIp, neg_zero]
  refine ⟨hIn, hIp, ?_, ?_⟩
  · rw [e1]
    apply limited_mem pu ss processor_id bc x values add_value_flag bn hbn hown
    rw [limited_node_entries_eq]
    exact List.mem_cons_of_mem _ (List.mem_cons_self _ _)
  · rw [e2]
    apply limited_mem pu ss processor_id bc x values add_value_flag bn hbn hown
    rw [limited_node_entries_eq]
    exact List.mem_cons_of_mem _ (List.mem_cons_of_mem _ (List.mem_cons_self _ _))

theorem limited_emission_zero_at_equilibrium_witness :
    (1 : ℝ) = (equilibrium_density 0 1).1 ∧ (1 : ℝ) = (equilibrium_density 0 1).2
    ∧ ((2 : Int) + 1, (0 : ℝ)) ∈
        (_DDM2_Function_Limited_Recombination sample_unit (sample_solver false) 0
          (sample_bc [sample_boundary_node []] false) (fun _ => 1) ⟨fun _ => 0, []⟩
          InsertMode.NOT_SET_VALUES).f.stash
    ∧ ((2 : Int) + 2, (0 : ℝ)) ∈
        (_DDM2_Function_Limited_Recombination sample_unit (sample_solver false) 0
          (sample_bc [sample_boundary_node []] false) (fun _ => 1) ⟨fun _ => 0, []⟩
          InsertMode.NOT_SET_VALUES).f.stash :=
  have hn : (1 : ℝ) = (equilibrium_density 0 1).1 := by rw [equilibrium_density_0_1]
  have hp : (1 : ℝ) = (equilibrium_density 0 1).2 := by rw [equilibrium_density_0_1]
  ⟨hn, hp,
    (limited_emission_zero_at_equilibrium sample_unit (sample_solver false) 0
      (sample_bc [sample_boundary_node []] false) (fun _ => 1) (fun _ => 0)
      InsertMode.NOT_SET_VALUES (sample_boundary_node []) (List.mem_singleton.mpr rfl) rfl
      hn hp).2.2⟩


/-- C4: in the infinite-recombination residual under Boltzmann statistics
(Fermi flag off), for every node of this processor and all values of `V_semi`,
`V_metal`, `T_semi`, `T_metal`: if `n` and `p` equal the computed equilibrium
densities, the evaluation returns and the values it adds at the semiconductor
electron row and hole row are zero.  The buffer of conduction currents must
hold one entry per node of this processor for the evaluation to return. -/
theorem infinite_boltzmann_zero_at_equilibrium (pu : PhysicalUnit) (fermi_half : ℝ → ℝ)
    (ss : SolverSpecify) (processor_id : Nat) (bc : IF_Metal_OhmicBC) (x : Nat → ℝ)
    (values : Int → ℝ) (add_value_flag : InsertMode) (bn : BoundaryNode) (hbn : bn ∈ bc.nodes)
    (hown : bn.processor_id = processor_id) (hboltzmann : bc.Fermi = false)
    (hbuf : (owned_nodes processor_id bc.nodes).length ≤ bc._current_buffer.length) :
    let n := x (bn.semiconductor_node.local_offset + 1)
    let p := x (bn.semiconductor_node.local_offset + 2)
    let T_semiconductor := x (bn.semiconductor_node.local_offset + 3)
    let nie := (bc.material.mapping bn.semiconductor_node).nie p n T_semiconductor
    let n_eq := (equilibrium_density bn.semiconductor_node.node_data.Net_doping nie).1
    let p_eq := (equilibrium_density bn.semiconductor_node.node_data.Net_doping nie).2
    n = n_eq → p = p_eq →
      ∃ res, _DDM2_Function_Infinite_Recombination pu fermi_half ss processor_id bc x
          ⟨values, []⟩ add_value_flag = some res
        ∧ (bn.semiconductor_node.global_offset + 1, (0 : ℝ)) ∈ res.f.stash
        ∧ (bn.semiconductor_node.global_offset + 2, (0 : ℝ)) ∈ res.f.stash := by
  intro n p T_semiconductor nie n_eq p_eq hn hp
  obtain ⟨res, hres, hstash⟩ := infinite_stash pu fermi_half ss processor_id bc x values
    add_value_flag (bc._current_buffer.take (owned_nodes processor_id bc.nodes).length)
    (bc._current_buffer.drop (owned_nodes processor_id bc.nodes).length)
    (List.take_append_drop _ _).symm (by rw [List.length_take]; exact Nat.min_eq_left hbuf)
  have hmem : ∀ entry, entry ∈ infinite_node_entries pu fermi_half bc x bn →
      entry ∈ res.f.stash := by
    intro entry hentry
    rw [hstash]
    apply List.mem_append_right
    rw [List.mem_flatMap]
    exact ⟨bn, by simp [owned_nodes, hbn, hown], hentry⟩
  have hn0 : n - n_eq = 0 := sub_eq_zero.mpr hn
  have hp0 : p - p_eq = 0 := sub_eq_zero.mpr hp
  refine ⟨res, hres, hmem _ ?_, hmem _ ?_⟩
  · unfold infinite_node_entries ohmic_governing_equations
    simp only [hboltzmann, Bool.false_eq_true, if_false, List.zip_cons_cons]
    rw [← hn0]
    simp [n, n_eq, nie, p, T_semiconductor]
  · unfold infinite_node_entries ohmic_governing_equations
    simp only [hboltzmann, Bool.false_eq_true, if_false, List.zip_cons_cons]
    rw [← hp0]
    simp [n, p_eq, nie, p, T_semiconductor]

theorem infinite_boltzmann_zero_at_equilibrium_witness :
    (1 : ℝ) = (equilibrium_density 0 1).1 ∧ (1 : ℝ) = (equilibrium_density 0 1).2
    ∧ ∃ res, _DDM2_Function_Infinite_Recombination sample_unit (fun _ => 0) (sample_solver true) 0
          (DDM2_Function_Preprocess 0 (sample_bc [sample_boundary_node [sample_neighbor]] true)
            ⟨fun _ => 0, []⟩ [] [] []).bc
          (fun _ => 1) ⟨fun _ => 0, []⟩ InsertMode.NOT_SET_VALUES = some res
        ∧ ((2 : Int) + 1, (0 : ℝ)) ∈ res.f.stash
        ∧ ((2 : Int) + 2, (0 : ℝ)) ∈ res.f.stash :=
  have hn : (1 : ℝ) = (equilibrium_density 0 1).1 := by rw [equilibrium_density_0_1]
  have hp : (1 : ℝ) = (equilibrium_density 0 1).2 := by rw [equilibrium_density_0_1]
  ⟨hn, hp,
    infinite_boltzmann_zero_at_equilibrium sample_unit (fun _ => 0) (sample_solver true) 0
      (DDM2_Function_Preprocess 0 (sample_bc [sample_boundary_node [sample_neighbor]] true)
        ⟨fun _ => 0, []⟩ [] [] []).bc
      (fun _ => 1) (fun _ => 0) InsertMode.NOT_SET_VALUES
      (sample_boundary_node [sample_neighbor]) (List.mem_singleton.mpr rfl) rfl rfl
      (Nat.le_refl 1) hn hp⟩


/-- C5: in the finite-recombination residual with `TimeDependent` false, for
every node of this processor the value added at the metal node's potential row
is `In + Ip`, whatever the neighbours and the stored history are. -/
theorem limited_steady_inject_current (pu : PhysicalUnit) (ss : SolverSpecify)
    (processor_id : Nat) (bc : IF_Metal_OhmicBC) (x : Nat → ℝ) (values : Int → ℝ)
    (add_value_flag : InsertMode) (bn : BoundaryNode) (hbn : bn ∈ bc.nodes)
    (hown : bn.processor_id = processor_id) (hsteady : ss.TimeDependent = false) :
    let n := x (bn.semiconductor_node.local_offset + 1)
    let p := x (bn.semiconductor_node.local_offset + 2)
    let T_semiconductor := x (bn.semiconductor_node.local_offset + 3)
    let nie := (bc.material.mapping bn.semiconductor_node).nie p n T_semiconductor
    let n_eq := (equilibrium_density bn.semiconductor_node.node_data.Net_doping nie).1
    let p_eq := (equilibrium_density bn.semiconductor_node.node_data.Net_doping nie).2
    let S := bn.semiconductor_node.outside_boundary_surface_area
    let In := -bc.elec_recomb_velocity * (n - n_eq) * S
    let Ip := bc.hole_recomb_velocity * (p - p_eq) * S
    (bn.resistance_node.global_offset, In + Ip) ∈
      (_DDM2_Function_Limited_Recombination pu ss processor_id bc x ⟨values, []⟩
        add_value_flag).f.stash := by
  intro n p T_semiconductor nie n_eq p_eq S In Ip
  apply limited_mem_inject pu ss processor_id bc x values add_value_flag bn hbn hown
  simp [limited_inject_current, hsteady, In, Ip, n, p, n_eq, p_eq, nie, T_semiconductor, S]

theorem limited_steady_inject_current_witness :
    (sample_resistance_node.global_offset,
      -(1 : ℝ) * (1 - (equilibrium_density 0 1).1) * 1
        + 1 * (2 - (equilibrium_density 0 1).2) * 1) ∈
      (_DDM2_Function_Limited_Recombination sample_unit (sample_solver false) 0
        (sample_bc [sample_boundary_node [sample_neighbor]] false)
        (fun i => if i = 4 then 2 else 1) ⟨fun _ => 0, []⟩
        InsertMode.NOT_SET_VALUES).f.stash :=
  limited_steady_inject_current sample_unit (sample_solver false) 0
    (sample_bc [sample_boundary_node [sample_neighbor]] false)
    (fun i => if i = 4 then 2 else 1) (fun _ => 0) InsertMode.NOT_SET_VALUES
    (sample_boundary_node [sample_neighbor]) (List.mem_singleton.mpr rfl) rfl rfl

/-- C6: in the finite-recombination residual, for every node of this processor
the value added at the semiconductor potential row is `V_semi - V_metal - offset`
with `offset = (kb*T_semi/e)*asinh(d/(2*nie)) - Eg/(2e) - (kb*T_semi/e)*ln(Nc/Nv)/2
- (affinity_semi - affinity_metal)/e`; it is zero exactly when
`V_semi - V_metal = offset`. -/
theorem limited_potential_residual (pu : PhysicalUnit) (ss : SolverSpecify)
    (processor_id : Nat) (bc : IF_Metal_OhmicBC) (x : Nat → ℝ) (values : Int → ℝ)
    (add_value_flag : InsertMode) (bn : BoundaryNode) (hbn : bn ∈ bc.nodes)
    (hown : bn.processor_id = processor_id) :
    let V_metal := x (bn.resistance_node.local_offset + 0)
    let V_semi := x bn.semiconductor_node.local_offset
    let n := x (bn.semiconductor_node.local_offset + 1)
    let p := x (bn.semiconductor_node.local_offset + 2)
    let T_semi := x (bn.semiconductor_node.local_offset + 3)
    let band := bc.material.mapping bn.semiconductor_node
    let nie := band.nie p n T_semi
    let d := bn.semiconductor_node.node_data.Net_doping
    let offset := (pu.kb * T_semi / pu.e) * Real.arsinh (d / (2 * nie))
      - band.Eg T_semi / (2 * pu.e)
      - (pu.kb * T_semi / pu.e) * Real.log (band.Nc T_semi / band.Nv T_semi) / 2
      - (bn.semiconductor_node.node_data.affinity - bn.resistance_node.node_data.affinity) / pu.e
    (bn.semiconductor_node.global_offset + 0, V_semi - V_metal - offset) ∈
      (_DDM2_Function_Limited_Recombination pu ss processor_id bc x ⟨values, []⟩
        add_value_flag).f.stash
    ∧ (V_semi - V_metal - offset = 0 ↔ V_semi - V_metal = offset) := by
  intro V_metal V_semi n p T_semi band nie d offset
  refine ⟨?_, sub_eq_zero⟩
  apply limited_mem pu ss processor_id bc x values add_value_flag bn hbn hown
  rw [limited_node_entries_eq]
  have e : V_semi - V_metal - offset
      = x bn.semiconductor_node.local_offset
          - pu.kb * x (bn.semiconductor_node.local_offset + 3) / pu.e
            * Real.arsinh (bn.semiconductor_node.node_data.Net_doping
                / (2 * (bc.material.mapping bn.semiconductor_node).nie
                    (x (bn.semiconductor_node.local_offset + 2))
                    (x (bn.semiconductor_node.local_offset + 1))
                    (x (bn.semiconductor_node.local_offset + 3))))
          + (bc.material.mapping bn.semiconductor_node).Eg
              (x (bn.semiconductor_node.local_offset + 3)) / (2 * pu.e)
          + pu.kb * x (bn.semiconductor_node.local_offset + 3)
            * Real.log ((bc.material.mapping bn.semiconductor_node).Nc
                  (x (bn.semiconductor_node.local_offset + 3))
                / (bc.material.mapping bn.semiconductor_node).Nv
                  (x (bn.semiconductor_node.local_offset + 3))) / (2 * pu.e)
          + bn.semiconductor_node.node_data.affinity / pu.e
          - (x (bn.resistance_node.local_offset + 0)
              + bn.resistance_node.node_data.affinity / pu.e) := by
    simp only [V_semi, V_metal, offset, T_semi, nie, band, d, n, p]
    ring
  rw [e]
  exact List.mem_cons_self _ _

theorem limited_potential_residual_witness :
    (sample_boundary_node []).processor_id = 0
    ∧ ((2 : Int) + 0,
        (1 : ℝ) - 1
          - ((1 * 1 / 1) * Real.arsinh (0 / (2 * 1)) - 0 / (2 * 1)
              - (1 * 1 / 1) * Real.log (1 / 1) / 2 - (0 - 0) / 1)) ∈
      (_DDM2_Function_Limited_Recombination sample_unit (sample_solver false) 0
        (sample_bc [sample_boundary_node []] false) (fun _ => 1) ⟨fun _ => 0, []⟩
        InsertMode.NOT_SET_VALUES).f.stash :=
  ⟨rfl,
    (limited_potential_residual sample_unit (sample_solver false) 0
      (sample_bc [sample_boundary_node []] false) (fun _ => 1) (fun _ => 0)
      InsertMode.NOT_SET_VALUES (sample_boundary_node []) (List.mem_singleton.mpr rfl) rfl).1⟩


/-- C7 (as stated) fails at the hole row: for a single node with unit
velocities and area, `p = 2` and `p_eq = 1`, `Ip = 1` while the only value
added at the hole row `global_offset + 2` is `-1`. -/
theorem limited_hole_row_counterexample :
    (1 : ℝ) * ((2 : ℝ) - (equilibrium_density 0 1).2) * 1 = 1
    ∧ (((_DDM2_Function_Limited_Recombination sample_unit (sample_solver false) 0
          (sample_bc [sample_boundary_node []] false)
          (fun i => if i = 4 then 2 else 1) ⟨fun _ => 0, []⟩
          InsertMode.NOT_SET_VALUES).f.stash.filter
            (fun entry => decide (entry.1 = (sample_semiconductor_node []).global_offset + 2))).map
              (fun entry => entry.2) = [-1])
    ∧ ((sample_semiconductor_node []).global_offset + 2,
          (1 : ℝ) * ((2 : ℝ) - (equilibrium_density 0 1).2) * 1) ∉
        (_DDM2_Function_Limited_Recombination sample_unit (sample_solver false) 0
          (sample_bc [sample_boundary_node []] false)
          (fun i => if i = 4 then 2 else 1) ⟨fun _ => 0, []⟩
          InsertMode.NOT_SET_VALUES).f.stash := by
  rw [limited_stash_sample, equilibrium_density_0_1]
  simp only [sample_semiconductor_node]
  refine ⟨by norm_num, ?_, ?_⟩
  · simp [List.filter_cons]
    norm_num
  · simp
    norm_num

/-- C7 (amended): in the finite-recombination residual, for every node of this
processor, with `In = -v_e*(n - n_eq)*S` and `Ip = v_h*(p - p_eq)*S`, the value
added at the semiconductor electron row is `In` and the value added at the
semiconductor hole row is `-Ip`. -/
theorem limited_emission_rows (pu : PhysicalUnit) (ss : SolverSpecify)
    (processor_id : Nat) (bc : IF_Metal_OhmicBC) (x : Nat → ℝ) (values : Int → ℝ)
    (add_value_flag : InsertMode) (bn : BoundaryNode) (hbn : bn ∈ bc.nodes)
    (hown : bn.processor_id = processor_id) :
    let n := x (bn.semiconductor_node.local_offset + 1)
    let p := x (bn.semiconductor_node.local_offset + 2)
    let T_semiconductor := x (bn.semiconductor_node.local_offset + 3)
    let nie := (bc.material.mapping bn.semiconductor_node).nie p n T_semiconductor
    let n_eq := (equilibrium_density bn.semiconductor_node.node_data.Net_doping nie).1
    let p_eq := (equilibrium_density bn.semiconductor_node.node_data.Net_doping nie).2
    let S := bn.semiconductor_node.outside_boundary_surface_area
    let In := -bc.elec_recomb_velocity * (n - n_eq) * S
    let Ip := bc.hole_recomb_velocity * (p - p_eq) * S
    (bn.semiconductor_node.global_offset + 1, In) ∈
        (_DDM2_Function_Limited_Recombination pu ss processor_id bc x ⟨values, []⟩
          add_value_flag).f.stash
    ∧ (bn.semiconductor_node.global_offset + 2, -Ip) ∈
        (_DDM2_Function_Limited_Recombination pu ss processor_id bc x ⟨values, []⟩
          add_value_flag).f.stash := by
  intro n p T_semiconductor nie n_eq p_eq S In Ip
  constructor
  · apply limited_mem pu ss processor_id bc x values add_value_flag bn hbn hown
    rw [limited_node_entries_eq]
    exact List.mem_cons_of_mem _ (List.mem_cons_self _ _)
  · apply limited_mem pu ss processor_id bc x values add_value_flag bn hbn hown
    rw [limited_node_entries_eq]
    exact List.mem_cons_of_mem _ (List.mem_cons_of_mem _ (List.mem_cons_self _ _))

theorem limited_emission_rows_witness :
    (sample_boundary_node []).processor_id = 0
    ∧ ((2 : Int) + 1, -(1 : ℝ) * (1 - (equilibrium_density 0 1).1) * 1) ∈
        (_DDM2_Function_Limited_Recombination sample_unit (sample_solver false) 0
          (sample_bc [sample_boundary_node []] false)
          (fun i => if i = 4 then 2 else 1) ⟨fun _ => 0, []⟩
          InsertMode.NOT_SET_VALUES).f.stash
    ∧ ((2 : Int) + 2, -((1 : ℝ) * (2 - (equilibrium_density 0 1).2) * 1)) ∈
        (_DDM2_Function_Limited_Recombination sample_unit (sample_solver false) 0
          (sample_bc [sample_boundary_node []] false)
          (fun i => if i = 4 then 2 else 1) ⟨fun _ => 0, []⟩
          InsertMode.NOT_SET_VALUES).f.stash :=
  ⟨rfl,
    limited_emission_rows sample_unit (sample_solver false) 0
      (sample_bc [sample_boundary_node []] false)
      (fun i => if i = 4 then 2 else 1) (fun _ => 0) InsertMode.NOT_SET_VALUES
      (sample_boundary_node []) (List.mem_singleton.mpr rfl) rfl⟩


/-- C8: in a transient finite-recombination residual with the first-order
scheme (`TS_type` is not `BDF2`, or `BDF2_LowerOrder` is set), for every node of
this processor without mesh neighbours, the value added at the metal potential
row is `In + Ip - (n - n_prev)/dt*volume - (p - p_prev)/dt*volume`. -/
theorem limited_first_order_inject_current (pu : PhysicalUnit) (ss : SolverSpecify)
    (processor_id : Nat) (bc : IF_Metal_OhmicBC) (x : Nat → ℝ) (values : Int → ℝ)
    (add_value_flag : InsertMode) (bn : BoundaryNode) (hbn : bn ∈ bc.nodes)
    (hown : bn.processor_id = processor_id) (htime : ss.TimeDependent = true)
    (hfirst : ss.TS_type ≠ TemporalScheme.BDF2 ∨ ss.BDF2_LowerOrder = true)
    (hnb : bn.semiconductor_node.neighbor_node = []) :
    let n := x (bn.semiconductor_node.local_offset + 1)
    let p := x (bn.semiconductor_node.local_offset + 2)
    let T_semiconductor := x (bn.semiconductor_node.local_offset + 3)
    let nie := (bc.material.mapping bn.semiconductor_node).nie p n T_semiconductor
    let n_eq := (equilibrium_density bn.semiconductor_node.node_data.Net_doping nie).1
    let p_eq := (equilibrium_density bn.semiconductor_node.node_data.Net_doping nie).2
    let S := bn.semiconductor_node.outside_boundary_surface_area
    let In := -bc.elec_recomb_velocity * (n - n_eq) * S
    let Ip := bc.hole_recomb_velocity * (p - p_eq) * S
    let n_prev := bn.semiconductor_node.node_data.n
    let p_prev := bn.semiconductor_node.node_data.p
    let volume := bn.semiconductor_node.volume
    (bn.resistance_node.global_offset,
        In + Ip - (n - n_prev) / ss.dt * volume - (p - p_prev) / ss.dt * volume) ∈
      (_DDM2_Function_Limited_Recombination pu ss processor_id bc x ⟨values, []⟩
        add_value_flag).f.stash := by
  intro n p T_semiconductor nie n_eq p_eq S In Ip n_prev p_prev volume
  apply limited_mem_inject pu ss processor_id bc x values add_value_flag bn hbn hown
  have hcond : ¬ (ss.TS_type = TemporalScheme.BDF2 ∧ ss.BDF2_LowerOrder = false) := by
    rintro ⟨h1, h2⟩
    rcases hfirst with h | h
    · exact h h1
    · rw [h2] at h; exact Bool.false_ne_true h
  simp only [limited_inject_current, htime, if_true, hcond, if_false, I_displacement, hnb,
    List.foldl_nil]
  simp only [In, Ip, n, p, n_eq, p_eq, nie, T_semiconductor, S, n_prev, p_prev, volume]
  norm_num
  ring

theorem limited_first_order_inject_current_witness :
    (sample_solver true).TimeDependent = true
    ∧ (sample_semiconductor_node []).neighbor_node = []
    ∧ ((0 : Int),
        -(1 : ℝ) * (1 - (equilibrium_density 0 1).1) * 1
          + 1 * (2 - (equilibrium_density 0 1).2) * 1
          - (1 - 0) / 1 * 1 - (2 - 0) / 1 * 1) ∈
      (_DDM2_Function_Limited_Recombination sample_unit (sample_solver true) 0
        (sample_bc [sample_boundary_node []] false)
        (fun i => if i = 4 then 2 else 1) ⟨fun _ => 0, []⟩
        InsertMode.NOT_SET_VALUES).f.stash :=
  ⟨rfl, rfl,
    limited_first_order_inject_current sample_unit (sample_solver true) 0
      (sample_bc [sample_boundary_node []] false)
      (fun i => if i = 4 then 2 else 1) (fun _ => 0) InsertMode.NOT_SET_VALUES
      (sample_boundary_node []) (List.mem_singleton.mpr rfl) rfl rfl
      (Or.inl (by decide)) rfl⟩

/-- C9 (as stated) fails in the sign of the displacement current: for a single
node with one neighbour, first-order transient, `In + Ip` and the storage terms
summing to 0 and a displacement current of 1, the claimed value is `0 + 1 = 1`
while the only value added at the metal potential row is `0 - 1 = -1`. -/
theorem limited_displacement_sign_counterexample :
    (-(1 : ℝ) * (0 - (equilibrium_density 0 1).1) * 1
        + 1 * (0 - (equilibrium_density 0 1).2) * 1
        + -(0 - 0) / 1 * 1 + -(0 - 0) / 1 * 1)
      + ([sample_neighbor].map (fun nb =>
          nb.cv_surface_area * sample_node_data.eps
            * (((1 - 0) - (sample_node_data.psi - nb.node_data.psi)) / nb.distance / 1))).sum
      = (1 : ℝ)
    ∧ ((_DDM2_Function_Limited_Recombination sample_unit (sample_solver true) 0
          (sample_bc [sample_boundary_node [sample_neighbor]] false)
          (fun i => if i = 2 then 1 else 0) ⟨fun _ => 0, []⟩
          InsertMode.NOT_SET_VALUES).f.stash.filter
            (fun entry => decide (entry.1 = sample_resistance_node.global_offset))).map
              (fun entry => entry.2) = [-1]
    ∧ (sample_resistance_node.global_offset, (1 : ℝ)) ∉
        (_DDM2_Function_Limited_Recombination sample_unit (sample_solver true) 0
          (sample_bc [sample_boundary_node [sample_neighbor]] false)
          (fun i => if i = 2 then 1 else 0) ⟨fun _ => 0, []⟩
          InsertMode.NOT_SET_VALUES).f.stash := by
  rw [limited_stash_sample, equilibrium_density_0_1]
  have hinj : limited_inject_current (sample_solver true) (fun i => if i = 2 then (1 : ℝ) else 0)
      (sample_semiconductor_node [sample_neighbor])
      ((fun i => if i = 2 then (1 : ℝ) else 0) 2)
      ((fun i => if i = 2 then (1 : ℝ) else 0) (2 + 1))
      ((fun i => if i = 2 then (1 : ℝ) else 0) (2 + 2))
      (-1 * ((fun i => if i = 2 then (1 : ℝ) else 0) (2 + 1) - 1) * 1)
      (1 * ((fun i => if i = 2 then (1 : ℝ) else 0) (2 + 2) - 1) * 1) = -1 := by
    simp [limited_inject_current, sample_solver, I_displacement, dEdt,
      sample_semiconductor_node, sample_neighbor, sample_node_data]
    norm_num
  rw [hinj]
  simp only [sample_resistance_node, sample_neighbor, sample_node_data]
  refine ⟨by norm_num, ?_, ?_⟩
  · simp [List.filter_cons]
  · simp
    norm_num

/-- C9 (amended): in a transient first-order finite-recombination residual, for
every node of this processor the value added at the metal potential row is
`(In + Ip + Tn + Tp)` minus the displacement current, the displacement current
being the sum over every mesh neighbour `nb` of `cv_surface_area(nb) * eps *
dEdt(nb)` with `dEdt(nb) = ((V_semi - V_nb) - (psi_prev_semi - psi_prev_nb)) /
distance(nb) / dt`. -/
theorem limited_first_order_displacement (pu : PhysicalUnit) (ss : SolverSpecify)
    (processor_id : Nat) (bc : IF_Metal_OhmicBC) (x : Nat → ℝ) (values : Int → ℝ)
    (add_value_flag : InsertMode) (bn : BoundaryNode) (hbn : bn ∈ bc.nodes)
    (hown : bn.processor_id = processor_id) (htime : ss.TimeDependent = true)
    (hfirst : ss.TS_type ≠ TemporalScheme.BDF2 ∨ ss.BDF2_LowerOrder = true) :
    let V_semi := x bn.semiconductor_node.local_offset
    let n := x (bn.semiconductor_node.local_offset + 1)
    let p := x (bn.semiconductor_node.local_offset + 2)
    let T_semiconductor := x (bn.semiconductor_node.local_offset + 3)
    let nie := (bc.material.mapping bn.semiconductor_node).nie p n T_semiconductor
    let n_eq := (equilibrium_density bn.semiconductor_node.node_data.Net_doping nie).1
    let p_eq := (equilibrium_density bn.semiconductor_node.node_data.Net_doping nie).2
    let S := bn.semiconductor_node.outside_boundary_surface_area
    let In := -bc.elec_recomb_velocity * (n - n_eq) * S
    let Ip := bc.hole_recomb_velocity * (p - p_eq) * S
    let Tn := -(n - bn.semiconductor_node.node_data.n) / ss.dt * bn.semiconductor_node.volume
    let Tp := -(p - bn.semiconductor_node.node_data.p) / ss.dt * bn.semiconductor_node.volume
    let displacement := (bn.semiconductor_node.neighbor_node.map (fun nb =>
      nb.cv_surface_area * bn.semiconductor_node.node_data.eps
        * (((V_semi - x (nb.local_offset + 0))
            - (bn.semiconductor_node.node_data.psi - nb.node_data.psi))
          / nb.distance / ss.dt))).sum
    (bn.resistance_node.global_offset, (In + Ip + Tn + Tp) - displacement) ∈
      (_DDM2_Function_Limited_Recombination pu ss processor_id bc x ⟨values, []⟩
        add_value_flag).f.stash := by
  intro V_semi n p T_semiconductor nie n_eq p_eq S In Ip Tn Tp displacement
  apply limited_mem_inject pu ss processor_id bc x values add_value_flag bn hbn hown
  have hcond : ¬ (ss.TS_type = TemporalScheme.BDF2 ∧ ss.BDF2_LowerOrder = false) := by
    rintro ⟨h1, h2⟩
    rcases hfirst with h | h
    · exact h h1
    · rw [h2] at h; exact Bool.false_ne_true h
  have hd : ∀ nb : FVM_Neighbor,
      dEdt ss x V_semi bn.semiconductor_node.node_data nb
        = ((V_semi - x (nb.local_offset + 0))
            - (bn.semiconductor_node.node_data.psi - nb.node_data.psi))
          / nb.distance / ss.dt := by
    intro nb
    simp only [dEdt, hcond, if_false]
  simp only [limited_inject_current, htime, if_true, hcond, if_false, I_displacement_eq_sum, hd]

theorem limited_first_order_displacement_witness :
    (sample_solver true).TimeDependent = true
    ∧ ((0 : Int),
        (-(1 : ℝ) * (0 - (equilibrium_density 0 1).1) * 1
          + 1 * (0 - (equilibrium_density 0 1).2) * 1
          + -(0 - 0) / 1 * 1 + -(0 - 0) / 1 * 1)
        - ([sample_neighbor].map (fun nb =>
            nb.cv_surface_area * (1 : ℝ)
              * (((1 - (if nb.local_offset + 0 = 2 then (1 : ℝ) else 0)) - (0 - nb.node_data.psi))
                  / nb.distance / 1))).sum) ∈
      (_DDM2_Function_Limited_Recombination sample_unit (sample_solver true) 0
        (sample_bc [sample_boundary_node [sample_neighbor]] false)
        (fun i => if i = 2 then 1 else 0) ⟨fun _ => 0, []⟩
        InsertMode.NOT_SET_VALUES).f.stash :=
  ⟨rfl,
    limited_first_order_displacement sample_unit (sample_solver true) 0
      (sample_bc [sample_boundary_node [sample_neighbor]] false)
      (fun i => if i = 2 then 1 else 0) (fun _ => 0) InsertMode.NOT_SET_VALUES
      (sample_boundary_node [sample_neighbor]) (List.mem_singleton.mpr rfl) rfl rfl
      (Or.inl (by decide))⟩


/-- C10: in the infinite-recombination regime, when `DDM2_Function_Preprocess`
and then the residual evaluation run over the same node sequence with the same
ownership, the buffer filled by preprocessing holds, for the nodes of this
processor in sequence order, the value read from the residual vector at that
node's hole and electron rows; the residual evaluation returns and adds at the
metal potential row of each such node the value buffered for that same node
(less the displacement current when transient), which in steady state is
exactly the buffered value. -/
theorem conduction_current_alignment (pu : PhysicalUnit) (fermi_half : ℝ → ℝ)
    (ss : SolverSpecify) (processor_id : Nat) (bc : IF_Metal_OhmicBC) (f0 : Vec)
    (src_row dst_row clear_row : List Int) (x : Nat → ℝ) (values : Int → ℝ)
    (add_value_flag : InsertMode) (hinf : bc._infinity_recombination = true) :
    (DDM2_Function_Preprocess processor_id bc f0 src_row dst_row clear_row).bc._current_buffer
      = (owned_nodes processor_id bc.nodes).map (fun bn =>
          f0.values (bn.semiconductor_node.global_offset + 2)
            - f0.values (bn.semiconductor_node.global_offset + 1))
    ∧ ∃ res, _DDM2_Function_Infinite_Recombination pu fermi_half ss processor_id
          (DDM2_Function_Preprocess processor_id bc f0 src_row dst_row clear_row).bc x
          ⟨values, []⟩ add_value_flag = some res
        ∧ res.f.stash
          = (owned_nodes processor_id bc.nodes).map (fun bn =>
              (bn.resistance_node.global_offset,
                infinite_inject_current ss x bn
                  (f0.values (bn.semiconductor_node.global_offset + 2)
                    - f0.values (bn.semiconductor_node.global_offset + 1))))
            ++ (owned_nodes processor_id bc.nodes).flatMap
                (infinite_node_entries pu fermi_half bc x)
        ∧ (ss.TimeDependent = false →
            res.f.stash
              = (owned_nodes processor_id bc.nodes).map (fun bn =>
                  (bn.resistance_node.global_offset,
                    f0.values (bn.semiconductor_node.global_offset + 2)
                      - f0.values (bn.semiconductor_node.global_offset + 1)))
                ++ (owned_nodes processor_id bc.nodes).flatMap
                    (infinite_node_entries pu fermi_half bc x)) := by
  have hpre := function_preprocess_infinite_bc processor_id bc f0 src_row dst_row clear_row hinf
  have hbuffer :
      (DDM2_Function_Preprocess processor_id bc f0 src_row dst_row clear_row).bc._current_buffer
        = (owned_nodes processor_id bc.nodes).map (fun bn =>
            f0.values (bn.semiconductor_node.global_offset + 2)
              - f0.values (bn.semiconductor_node.global_offset + 1)) := by
    rw [hpre]
  have hnodes :
      (DDM2_Function_Preprocess processor_id bc f0 src_row dst_row clear_row).bc.nodes
        = bc.nodes := by
    rw [hpre]
  have hentries : infinite_node_entries pu fermi_half
        (DDM2_Function_Preprocess processor_id bc f0 src_row dst_row clear_row).bc x
      = infinite_node_entries pu fermi_half bc x := by
    rw [hpre]
    rfl
  refine ⟨hbuffer, ?_⟩
  obtain ⟨res, hres, hstash⟩ := infinite_stash pu fermi_half ss processor_id
    (DDM2_Function_Preprocess processor_id bc f0 src_row dst_row clear_row).bc x values
    add_value_flag
    ((owned_nodes processor_id bc.nodes).map (fun bn =>
        f0.values (bn.semiconductor_node.global_offset + 2)
          - f0.values (bn.semiconductor_node.global_offset + 1)))
    [] (by rw [hbuffer, List.append_nil]) (by rw [hnodes, List.length_map])
  rw [hnodes, hentries, zipWith_map_self] at hstash
  refine ⟨res, hres, hstash, ?_⟩
  intro hsteady
  rw [hstash]
  simp [infinite_inject_current, hsteady]

theorem conduction_current_alignment_witness :
    (sample_bc [⟨1, sample_semiconductor_node [], sample_resistance_node, []⟩,
        sample_boundary_node [sample_neighbor]] true)._infinity_recombination = true
    ∧ (DDM2_Function_Preprocess 0
        (sample_bc [⟨1, sample_semiconductor_node [], sample_resistance_node, []⟩,
          sample_boundary_node [sample_neighbor]] true)
        ⟨fun row => if row = 4 then 5 else if row = 3 then 2 else 0, []⟩
        [] [] []).bc._current_buffer
      = (owned_nodes 0 [⟨1, sample_semiconductor_node [], sample_resistance_node, []⟩,
          sample_boundary_node [sample_neighbor]]).map (fun bn =>
            (if bn.semiconductor_node.global_offset + 2 = 4 then (5 : ℝ)
              else if bn.semiconductor_node.global_offset + 2 = 3 then 2 else 0)
            - (if bn.semiconductor_node.global_offset + 1 = 4 then (5 : ℝ)
              else if bn.semiconductor_node.global_offset + 1 = 3 then 2 else 0)) :=
  ⟨rfl,
    (conduction_current_alignment sample_unit (fun _ => 0) (sample_solver false) 0
      (sample_bc [⟨1, sample_semiconductor_node [], sample_resistance_node, []⟩,
        sample_boundary_node [sample_neighbor]] true)
      ⟨fun row => if row = 4 then 5 else if row = 3 then 2 else 0, []⟩
      [] [] [] (fun _ => 1) (fun _ => 0) InsertMode.NOT_SET_VALUES rfl).1⟩


/-- C11 (as stated) fails under Fermi statistics: for a single node with
`V_semi = 2`, `V_metal = 1`, all other unknowns 1 and a Fermi integral that is
constantly 0, the finite-recombination residual adds `f_psi = 1` at the
semiconductor potential row, while the infinite-recombination residual under
Fermi statistics adds `Nc*F - Nv*F - Net_doping = 0` there. -/
theorem infinite_fermi_potential_counterexample :
    ((sample_semiconductor_node []).global_offset + 0, (1 : ℝ)) ∈
      (_DDM2_Function_Limited_Recombination sample_unit (sample_solver false) 0
        (sample_bc [sample_boundary_node []] false)
        (fun i => if i = 2 then 2 else 1) ⟨fun _ => 0, []⟩
        InsertMode.NOT_SET_VALUES).f.stash
    ∧ ∃ res, _DDM2_Function_Infinite_Recombination sample_unit (fun _ => 0)
          (sample_solver false) 0 sample_bc_fermi
          (fun i => if i = 2 then 2 else 1) ⟨fun _ => 0, []⟩
          InsertMode.NOT_SET_VALUES = some res
        ∧ (res.f.stash.filter
            (fun entry => decide (entry.1 = (sample_semiconductor_node []).global_offset + 0))).map
              (fun entry => entry.2) = [0]
        ∧ ((sample_semiconductor_node []).global_offset + 0, (1 : ℝ)) ∉ res.f.stash := by
  constructor
  · rw [limited_stash_sample]
    simp [sample_semiconductor_node]
    norm_num
  · obtain ⟨res, hres, hstash⟩ := infinite_stash_sample_fermi (fun i => if i = 2 then 2 else 1)
    refine ⟨res, hres, ?_⟩
    rw [hstash]
    simp only [sample_semiconductor_node]
    constructor
    · simp [List.filter_cons]
    · simp

/-- C11 (amended): in the infinite-recombination residual, for every node of
this processor and every state, under Boltzmann statistics the value added at
the semiconductor potential row is the value `f_psi` that the
finite-recombination residual adds there; under Fermi statistics it is
`Nc*F(etan) - Nv*F(etap) - Net_doping`; under both statistics the value added at
the semiconductor temperature row is `T_semi - T_metal`, as in the finite
regime. -/
theorem infinite_potential_temperature_rows (pu : PhysicalUnit) (fermi_half : ℝ → ℝ)
    (ss : SolverSpecify) (processor_id : Nat) (bc : IF_Metal_OhmicBC) (x : Nat → ℝ)
    (values : Int → ℝ) (add_value_flag : InsertMode) (bn : BoundaryNode) (hbn : bn ∈ bc.nodes)
    (hown : bn.processor_id = processor_id)
    (hbuf : (owned_nodes processor_id bc.nodes).length ≤ bc._current_buffer.length) :
    let V_metal := x (bn.resistance_node.local_offset + 0)
    let T_metal := x (bn.resistance_node.local_offset + 1)
    let V_semi := x bn.semiconductor_node.local_offset
    let n := x (bn.semiconductor_node.local_offset + 1)
    let p := x (bn.semiconductor_node.local_offset + 2)
    let T_semi := x (bn.semiconductor_node.local_offset + 3)
    let band := bc.material.mapping bn.semiconductor_node
    let d := bn.semiconductor_node.node_data.Net_doping
    let affinity_semi := bn.semiconductor_node.node_data.affinity
    let affinity_metal := bn.resistance_node.node_data.affinity
    let f_psi := V_semi - pu.kb * T_semi / pu.e * Real.arsinh (d / (2 * band.nie p n T_semi))
      + band.Eg T_semi / (2 * pu.e)
      + pu.kb * T_semi * Real.log (band.Nc T_semi / band.Nv T_semi) / (2 * pu.e)
      + affinity_semi / pu.e - (V_metal + affinity_metal / pu.e)
    let etan := (-pu.e * (V_metal + affinity_metal / pu.e) - -(pu.e * V_semi + affinity_semi))
      / pu.kb / T_semi
    let etap := (-(pu.e * V_semi + affinity_semi + band.Eg T_semi)
      + pu.e * (V_metal + affinity_metal / pu.e)) / pu.kb / T_semi
    ∃ res, _DDM2_Function_Infinite_Recombination pu fermi_half ss processor_id bc x
        ⟨values, []⟩ add_value_flag = some res
      ∧ (bc.Fermi = false → (bn.semiconductor_node.global_offset + 0, f_psi) ∈ res.f.stash)
      ∧ (bc.Fermi = true →
          (bn.semiconductor_node.global_offset + 0,
            band.Nc T_semi * fermi_half etan - band.Nv T_semi * fermi_half etap - d)
            ∈ res.f.stash)
      ∧ (bn.semiconductor_node.global_offset + 3, T_semi - T_metal) ∈ res.f.stash
      ∧ (bn.semiconductor_node.global_offset + 0, f_psi) ∈
          (_DDM2_Function_Limited_Recombination pu ss processor_id bc x ⟨values, []⟩
            add_value_flag).f.stash
      ∧ (bn.semiconductor_node.global_offset + 3, T_semi - T_metal) ∈
          (_DDM2_Function_Limited_Recombination pu ss processor_id bc x ⟨values, []⟩
            add_value_flag).f.stash := by
  intro V_metal T_metal V_semi n p T_semi band d affinity_semi affinity_metal f_psi etan etap
  obtain ⟨res, hres, hmem⟩ := infinite_mem pu fermi_half ss processor_id bc x values
    add_value_flag hbuf
  refine ⟨res, hres, ?_, ?_, ?_, ?_, ?_⟩
  · intro hboltzmann
    apply hmem bn hbn hown
    unfold infinite_node_entries ohmic_governing_equations
    simp only [hboltzmann, Bool.false_eq_true, if_false, List.zip_cons_cons]
    exact List.mem_append_left _ (List.mem_append_left _ (List.mem_cons_self _ _))
  · intro hfermi
    apply hmem bn hbn hown
    unfold infinite_node_entries ohmic_governing_equations
    simp only [hfermi, if_true, List.zip_cons_cons]
    exact List.mem_append_left _ (List.mem_append_left _ (List.mem_cons_self _ _))
  · apply hmem bn hbn hown
    unfold infinite_node_entries
    exact List.mem_append_left _ (List.mem_append_right _ (List.mem_cons_self _ _))
  · apply limited_mem pu ss processor_id bc x values add_value_flag bn hbn hown
    rw [limited_node_entries_eq]
    exact List.mem_cons_self _ _
  · apply limited_mem pu ss processor_id bc x values add_value_flag bn hbn hown
    rw [limited_node_entries_eq]
    exact List.mem_cons_of_mem _ (List.mem_cons_of_mem _ (List.mem_cons_of_mem _
      (List.mem_cons_self _ _)))

theorem infinite_potential_temperature_rows_witness :
    (owned_nodes 0 sample_bc_fermi.nodes).length ≤ sample_bc_fermi._current_buffer.length
    ∧ ∃ res, _DDM2_Function_Infinite_Recombination sample_unit (fun _ => 0)
          (sample_solver false) 0 sample_bc_fermi (fun _ => 1) ⟨fun _ => 0, []⟩
          InsertMode.NOT_SET_VALUES = some res
        ∧ ((2 : Int) + 3, (1 : ℝ) - 1) ∈ res.f.stash :=
  ⟨Nat.le_refl 1,
    match infinite_potential_temperature_rows sample_unit (fun _ => 0) (sample_solver false) 0
      sample_bc_fermi (fun _ => 1) (fun _ => 0) InsertMode.NOT_SET_VALUES
      (sample_boundary_node []) (List.mem_singleton.mpr rfl) rfl (Nat.le_refl 1) with
    | ⟨res, hres, _, _, hT, _, _⟩ => ⟨res, hres, hT⟩⟩

/-- C12: in the infinite-recombination regime under Fermi statistics, with a
non-zero elementary charge `e`, for every node of this processor the value
added at the electron row is `n - Nc*F(eta_n)` and the value added at the hole
row is `p - Nv*F(eta_p)`, where `eta_n = (e*(V_semi - V_metal) + affinity_semi -
affinity_metal)/(kb*T_semi)` and `eta_p = -eta_n - Eg/(kb*T_semi)`. -/
theorem infinite_fermi_carrier_rows (pu : PhysicalUnit) (fermi_half : ℝ → ℝ)
    (ss : SolverSpecify) (processor_id : Nat) (bc : IF_Metal_OhmicBC) (x : Nat → ℝ)
    (values : Int → ℝ) (add_value_flag : InsertMode) (bn : BoundaryNode) (hbn : bn ∈ bc.nodes)
    (hown : bn.processor_id = processor_id) (hfermi : bc.Fermi = true) (he : pu.e ≠ 0)
    (hbuf : (owned_nodes processor_id bc.nodes).length ≤ bc._current_buffer.length) :
    let V_metal := x (bn.resistance_node.local_offset + 0)
    let V_semi := x bn.semiconductor_node.local_offset
    let n := x (bn.semiconductor_node.local_offset + 1)
    let p := x (bn.semiconductor_node.local_offset + 2)
    let T_semi := x (bn.semiconductor_node.local_offset + 3)
    let band := bc.material.mapping bn.semiconductor_node
    let affinity_semi := bn.semiconductor_node.node_data.affinity
    let affinity_metal := bn.resistance_node.node_data.affinity
    let eta_n := (pu.e * (V_semi - V_metal) + affinity_semi - affinity_metal) / (pu.kb * T_semi)
    let eta_p := -eta_n - band.Eg T_semi / (pu.kb * T_semi)
    ∃ res, _DDM2_Function_Infinite_Recombination pu fermi_half ss processor_id bc x
        ⟨values, []⟩ add_value_flag = some res
      ∧ (bn.semiconductor_node.global_offset + 1, n - band.Nc T_semi * fermi_half eta_n)
          ∈ res.f.stash
      ∧ (bn.semiconductor_node.global_offset + 2, p - band.Nv T_semi * fermi_half eta_p)
          ∈ res.f.stash := by
  intro V_metal V_semi n p T_semi band affinity_semi affinity_metal eta_n eta_p
  obtain ⟨res, hres, hmem⟩ := infinite_mem pu fermi_half ss processor_id bc x values
    add_value_flag hbuf
  have hn : eta_n = (-pu.e * (V_metal + affinity_metal / pu.e) - -(pu.e * V_semi + affinity_semi))
      / pu.kb / T_semi := by
    simp only [eta_n]
    rw [div_div]
    congr 1
    field_simp
    ring
  have hp : eta_p = (-(pu.e * V_semi + affinity_semi + band.Eg T_semi)
      + pu.e * (V_metal + affinity_metal / pu.e)) / pu.kb / T_semi := by
    simp only [eta_p, eta_n]
    rw [div_div, neg_div', ← sub_div]
    congr 1
    field_simp
    ring
  refine ⟨res, hres, ?_, ?_⟩
  · apply hmem bn hbn hown
    rw [hn]
    unfold infinite_node_entries ohmic_governing_equations
    simp only [hfermi, if_true, List.zip_cons_cons]
    exact List.mem_append_left _ (List.mem_append_left _
      (List.mem_cons_of_mem _ (List.mem_cons_self _ _)))
  · apply hmem bn hbn hown
    rw [hp]
    unfold infinite_node_entries ohmic_governing_equations
    simp only [hfermi, if_true, List.zip_cons_cons]
    exact List.mem_append_left _ (List.mem_append_left _
      (List.mem_cons_of_mem _ (List.mem_cons_of_mem _ (List.mem_cons_self _ _))))

theorem infinite_fermi_carrier_rows_witness :
    sample_bc_fermi.Fermi = true ∧ sample_unit.e ≠ 0
    ∧ ∃ res, _DDM2_Function_Infinite_Recombination sample_unit (fun _ => 0)
          (sample_solver false) 0 sample_bc_fermi (fun _ => 1) ⟨fun _ => 0, []⟩
          InsertMode.NOT_SET_VALUES = some res
        ∧ ((2 : Int) + 1,
            (1 : ℝ) - 1 * (fun _ : ℝ => (0 : ℝ)) ((1 * (1 - 1) + 0 - 0) / (1 * 1))) ∈ res.f.stash :=
  have he : sample_unit.e ≠ 0 := by simp [sample_unit]
  ⟨rfl, he,
    match infinite_fermi_carrier_rows sample_unit (fun _ => 0) (sample_solver false) 0
      sample_bc_fermi (fun _ => 1) (fun _ => 0) InsertMode.NOT_SET_VALUES
      (sample_boundary_node []) (List.mem_singleton.mpr rfl) rfl rfl he (Nat.le_refl 1) with
    | ⟨res, hres, hn, _⟩ => ⟨res, hres, hn⟩⟩

/-- C13: for both regimes and for both `DDM2_Function_Preprocess` and
`DDM2_Jacobian_Preprocess`, for every boundary node of this processor: the
returned clear list contains the semiconductor potential row; both functions
append to `src_row` and `dst_row` the sources and the destinations of one list
of (source, destination) pairs, so that each pair sits at the same position of
the two appended parts, and that list holds the pair (semiconductor
temperature row, metal temperature row) and, for every associated insulator
node, the pair (insulator temperature row, the same metal temperature row).
When `src_row` and `dst_row` have equal length on entry the pairs sit at the
same position of the returned lists. -/
theorem preprocess_clear_and_move_rows (processor_id : Nat) (bc : IF_Metal_OhmicBC) (f : Vec)
    (jac : SparseMatrix) (src_row dst_row clear_row : List Int) (bn : BoundaryNode)
    (hbn : bn ∈ bc.nodes) (hown : bn.processor_id = processor_id) :
    bn.semiconductor_node.global_offset + 0 ∈
      (DDM2_Function_Preprocess processor_id bc f src_row dst_row clear_row).clear_row
    ∧ bn.semiconductor_node.global_offset + 0 ∈
      (DDM2_Jacobian_Preprocess processor_id bc jac src_row dst_row clear_row).clear_row
    ∧ ∃ moves : List (Int × Int),
        (DDM2_Function_Preprocess processor_id bc f src_row dst_row clear_row).src_row
          = src_row ++ moves.map Prod.fst
        ∧ (DDM2_Function_Preprocess processor_id bc f src_row dst_row clear_row).dst_row
          = dst_row ++ moves.map Prod.snd
        ∧ (DDM2_Jacobian_Preprocess processor_id bc jac src_row dst_row clear_row).src_row
          = src_row ++ moves.map Prod.fst
        ∧ (DDM2_Jacobian_Preprocess processor_id bc jac src_row dst_row clear_row).dst_row
          = dst_row ++ moves.map Prod.snd
        ∧ (bn.semiconductor_node.global_offset + 3, bn.resistance_node.global_offset + 1)
            ∈ moves
        ∧ (∀ rn ∈ bn.region_node, rn.1 = SimulationRegionType.InsulatorRegion →
            (rn.2.global_offset + 1, bn.resistance_node.global_offset + 1) ∈ moves)
        ∧ (src_row.length = dst_row.length → ∀ move ∈ moves,
            move ∈ (DDM2_Function_Preprocess processor_id bc f src_row dst_row
                clear_row).src_row.zip
              (DDM2_Function_Preprocess processor_id bc f src_row dst_row clear_row).dst_row
            ∧ move ∈ (DDM2_Jacobian_Preprocess processor_id bc jac src_row dst_row
                clear_row).src_row.zip
              (DDM2_Jacobian_Preprocess processor_id bc jac src_row dst_row
                clear_row).dst_row) := by
  obtain ⟨f1, f2, f3⟩ := function_preprocess_rows processor_id bc f src_row dst_row clear_row
  obtain ⟨j1, j2, j3⟩ := jacobian_preprocess_rows processor_id bc jac src_row dst_row clear_row
  have hownmem : bn ∈ owned_nodes processor_id bc.nodes := by simp [owned_nodes, hbn, hown]
  have hclear : bn.semiconductor_node.global_offset + 0 ∈
      (owned_nodes processor_id bc.nodes).flatMap
        (preprocess_clear_rows bc._infinity_recombination) := by
    rw [List.mem_flatMap]
    refine ⟨bn, hownmem, ?_⟩
    unfold preprocess_clear_rows
    cases bc._infinity_recombination <;> simp
  refine ⟨?_, ?_, (owned_nodes processor_id bc.nodes).flatMap preprocess_move_rows,
    f1, f2, j1, j2, ?_, ?_, ?_⟩
  · rw [f3]; exact List.mem_append_right _ hclear
  · rw [j3]; exact List.mem_append_right _ hclear
  · rw [List.mem_flatMap]
    exact ⟨bn, hownmem, List.mem_cons_self _ _⟩
  · intro rn hrn hins
    rw [List.mem_flatMap]
    refine ⟨bn, hownmem, List.mem_cons_of_mem _ ?_⟩
    unfold insulator_move_rows
    rw [List.mem_flatMap]
    exact ⟨rn, hrn, by simp [hins]⟩
  · intro hlen move hmove
    rw [f1, f2, j1, j2, List.zip_append hlen, zip_map_fst_snd]
    exact ⟨List.mem_append_right _ hmove, List.mem_append_right _ hmove⟩

theorem preprocess_clear_and_move_rows_witness :
    sample_boundary_node_insulator.processor_id = 0
    ∧ sample_boundary_node_insulator.semiconductor_node.global_offset + 0 ∈
      (DDM2_Function_Preprocess 0 (sample_bc [sample_boundary_node_insulator] false)
        ⟨fun _ => 0, []⟩ [] [] []).clear_row
    ∧ sample_boundary_node_insulator.semiconductor_node.global_offset + 0 ∈
      (DDM2_Jacobian_Preprocess 0 (sample_bc [sample_boundary_node_insulator] false)
        sample_matrix [] [] []).clear_row :=
  ⟨rfl,
    (preprocess_clear_and_move_rows 0 (sample_bc [sample_boundary_node_insulator] false)
      ⟨fun _ => 0, []⟩ sample_matrix [] [] [] sample_boundary_node_insulator
      (List.mem_singleton.mpr rfl) rfl).1,
    (preprocess_clear_and_move_rows 0 (sample_bc [sample_boundary_node_insulator] false)
      ⟨fun _ => 0, []⟩ sample_matrix [] [] [] sample_boundary_node_insulator
      (List.mem_singleton.mpr rfl) rfl).2.1⟩

/-- C14: assuming the global rows of all unknowns at the boundary nodes are
pairwise distinct and the clear list is empty on entry, the semiconductor
electron row and hole row of a boundary node of this processor appear in the
clear list returned by `DDM2_Function_Preprocess`, and in the one returned by
`DDM2_Jacobian_Preprocess`, if and only if the boundary condition is in the
infinite-recombination regime. -/
theorem preprocess_carrier_rows_cleared_iff_infinite (processor_id : Nat)
    (bc : IF_Metal_OhmicBC) (f : Vec) (jac : SparseMatrix) (src_row dst_row : List Int)
    (bn : BoundaryNode) (hbn : bn ∈ bc.nodes) (hown : bn.processor_id = processor_id)
    (hnodup : (bc.nodes.flatMap unknown_rows).Nodup) :
    (bn.semiconductor_node.global_offset + 1 ∈
        (DDM2_Function_Preprocess processor_id bc f src_row dst_row []).clear_row
      ↔ bc._infinity_recombination = true)
    ∧ (bn.semiconductor_node.global_offset + 2 ∈
        (DDM2_Function_Preprocess processor_id bc f src_row dst_row []).clear_row
      ↔ bc._infinity_recombination = true)
    ∧ (bn.semiconductor_node.global_offset + 1 ∈
        (DDM2_Jacobian_Preprocess processor_id bc jac src_row dst_row []).clear_row
      ↔ bc._infinity_recombination = true)
    ∧ (bn.semiconductor_node.global_offset + 2 ∈
        (DDM2_Jacobian_Preprocess processor_id bc jac src_row dst_row []).clear_row
      ↔ bc._infinity_recombination = true) := by
  obtain ⟨_, _, f3⟩ := function_preprocess_rows processor_id bc f src_row dst_row []
  obtain ⟨_, _, j3⟩ := jacobian_preprocess_rows processor_id bc jac src_row dst_row []
  rw [f3, j3, List.nil_append]
  exact ⟨carrier_row_cleared_iff processor_id bc.nodes _ hnodup bn hbn hown 1 (Or.inl rfl),
    carrier_row_cleared_iff processor_id bc.nodes _ hnodup bn hbn hown 2 (Or.inr rfl),
    carrier_row_cleared_iff processor_id bc.nodes _ hnodup bn hbn hown 1 (Or.inl rfl),
    carrier_row_cleared_iff processor_id bc.nodes _ hnodup bn hbn hown 2 (Or.inr rfl)⟩

theorem preprocess_carrier_rows_cleared_iff_infinite_witness :
    ((sample_bc [sample_boundary_node_insulator] false).nodes.flatMap unknown_rows).Nodup
    ∧ (sample_boundary_node_insulator.semiconductor_node.global_offset + 1 ∈
        (DDM2_Function_Preprocess 0 (sample_bc [sample_boundary_node_insulator] false)
          ⟨fun _ => 0, []⟩ [] [] []).clear_row
      ↔ (sample_bc [sample_boundary_node_insulator] false)._infinity_recombination = true) :=
  have hnodup :
      ((sample_bc [sample_boundary_node_insulator] false).nodes.flatMap unknown_rows).Nodup := by
    simp [sample_bc, sample_boundary_node_insulator, unknown_rows, insulator_clear_rows,
      sample_semiconductor_node, sample_resistance_node, sample_insulator_node]
  ⟨hnodup,
    (preprocess_carrier_rows_cleared_iff_infinite 0
      (sample_bc [sample_boundary_node_insulator] false) ⟨fun _ => 0, []⟩ sample_matrix [] []
      sample_boundary_node_insulator (List.mem_singleton.mpr rfl) rfl hnodup).1⟩

/-- C15: in the infinite-recombination regime, for a node of this processor
with one mesh neighbour, after `DDM2_Jacobian_Preprocess` has harvested from the
matrix `jac0` and the harvested buffer is replayed at the start of
`_DDM2_Jacobian_Infinite_Recombination`, the replayed additions are the first
additions of the assembly, and for this node they are, at the four columns of
the neighbour and then at the four columns of the semiconductor node, additions
to the metal potential row of the `jac0` entry of the hole row minus the `jac0`
entry of the electron row; these are the rows whose residual values
`DDM2_Function_Preprocess` combines, hole row minus electron row, into the
buffered conduction current. -/
theorem harvest_then_replay (pu : PhysicalUnit) (fermi_half_ad : AutoDScalar → AutoDScalar)
    (ss : SolverSpecify) (processor_id : Nat) (bc : IF_Metal_OhmicBC) (material_ad : MaterialAD)
    (x : Nat → ℝ) (jac0 : SparseMatrix) (f0 : Vec) (values : Int → Int → ℝ)
    (add_value_flag : InsertMode) (src_row dst_row clear_row : List Int) (bn : BoundaryNode)
    (nb : FVM_Neighbor) (hinf : bc._infinity_recombination = true) (hbn : bn ∈ bc.nodes)
    (hown : bn.processor_id = processor_id)
    (hnb : bn.semiconductor_node.neighbor_node = [nb]) :
    (_DDM2_Jacobian_Infinite_Recombination pu fermi_half_ad ss processor_id
        (DDM2_Jacobian_Preprocess processor_id bc jac0 src_row dst_row clear_row).bc
        material_ad x ⟨values, []⟩ add_value_flag).jac.added
      = jacobian_replay_calls
          (DDM2_Jacobian_Preprocess processor_id bc jac0 src_row dst_row clear_row).bc
        ++ (owned_nodes processor_id bc.nodes).flatMap
            (infinite_jacobian_node pu fermi_half_ad ss
              (DDM2_Jacobian_Preprocess processor_id bc jac0 src_row dst_row clear_row).bc
              material_ad x)
    ∧ jacobian_replay_calls
          (DDM2_Jacobian_Preprocess processor_id bc jac0 src_row dst_row clear_row).bc
        = (owned_nodes processor_id bc.nodes).flatMap (harvest_calls jac0)
    ∧ harvest_calls jac0 bn
        = [nb.global_offset + 0, nb.global_offset + 1, nb.global_offset + 2,
            nb.global_offset + 3, bn.semiconductor_node.global_offset + 0,
            bn.semiconductor_node.global_offset + 1, bn.semiconductor_node.global_offset + 2,
            bn.semiconductor_node.global_offset + 3].map (fun col =>
              (bn.resistance_node.global_offset, col,
                jac0.values (bn.semiconductor_node.global_offset + 2) col
                  - jac0.values (bn.semiconductor_node.global_offset + 1) col))
    ∧ (∀ call ∈ harvest_calls jac0 bn, call ∈
        (_DDM2_Jacobian_Infinite_Recombination pu fermi_half_ad ss processor_id
          (DDM2_Jacobian_Preprocess processor_id bc jac0 src_row dst_row clear_row).bc
          material_ad x ⟨values, []⟩ add_value_flag).jac.added)
    ∧ (DDM2_Function_Preprocess processor_id bc f0 src_row dst_row
          clear_row).bc._current_buffer
        = (owned_nodes processor_id bc.nodes).map (fun node =>
            f0.values (node.semiconductor_node.global_offset + 2)
              - f0.values (node.semiconductor_node.global_offset + 1)) := by
  obtain ⟨hreplay, hnodes⟩ :=
    jacobian_preprocess_harvest processor_id bc jac0 src_row dst_row clear_row hinf
  have hadded := infinite_jacobian_added pu fermi_half_ad ss processor_id
    (DDM2_Jacobian_Preprocess processor_id bc jac0 src_row dst_row clear_row).bc
    material_ad x ⟨values, []⟩ add_value_flag
  rw [hnodes] at hadded
  simp only [List.nil_append] at hadded
  refine ⟨hadded, hreplay, ?_, ?_, ?_⟩
  · simp [harvest_calls, harvest_column_calls, hnb]
  · intro call hcall
    rw [hadded, hreplay]
    apply List.mem_append_left
    rw [List.mem_flatMap]
    exact ⟨bn, by simp [owned_nodes, hbn, hown], hcall⟩
  · rw [function_preprocess_infinite_bc processor_id bc f0 src_row dst_row clear_row hinf]

theorem harvest_then_replay_witness :
    (sample_bc [sample_boundary_node [sample_neighbor]] true)._infinity_recombination = true
    ∧ (sample_boundary_node [sample_neighbor]).semiconductor_node.neighbor_node
        = [sample_neighbor]
    ∧ jacobian_replay_calls
          (DDM2_Jacobian_Preprocess 0 (sample_bc [sample_boundary_node [sample_neighbor]] true)
            sample_matrix [] [] []).bc
        = (owned_nodes 0 (sample_bc [sample_boundary_node [sample_neighbor]] true).nodes).flatMap
            (harvest_calls sample_matrix) :=
  ⟨rfl, rfl,
    (harvest_then_replay sample_unit (fun a => a) (sample_solver false) 0
      (sample_bc [sample_boundary_node [sample_neighbor]] true) sample_material_ad (fun _ => 1)
      sample_matrix ⟨fun _ => 0, []⟩ (fun _ _ => 0) InsertMode.NOT_SET_VALUES [] [] []
      (sample_boundary_node [sample_neighbor]) sample_neighbor rfl
      (List.mem_singleton.mpr rfl) rfl rfl).2.1⟩

/-- C16 (as stated) fails: for a single node without neighbours, after
`DDM2_Jacobian_Preprocess` has harvested four entries of value 10 and
`_DDM2_Jacobian_Infinite_Recombination` has returned, the buffer still holds
the harvested row, and a second assembly with no preprocessing in between
starts by adding the same four harvested entries again. -/
theorem harvested_buffer_kept_counterexample :
    (_DDM2_Jacobian_Infinite_Recombination sample_unit (fun a => a) (sample_solver false) 0
        (DDM2_Jacobian_Preprocess 0 (sample_bc [sample_boundary_node []] true)
          sample_matrix [] [] []).bc
        sample_material_ad (fun _ => 1) ⟨fun _ _ => 0, []⟩
        InsertMode.NOT_SET_VALUES).bc._buffer_rows = [0]
    ∧ jacobian_replay_calls
        (_DDM2_Jacobian_Infinite_Recombination sample_unit (fun a => a) (sample_solver false) 0
          (DDM2_Jacobian_Preprocess 0 (sample_bc [sample_boundary_node []] true)
            sample_matrix [] [] []).bc
          sample_material_ad (fun _ => 1) ⟨fun _ _ => 0, []⟩
          InsertMode.NOT_SET_VALUES).bc
        = [((0 : Int), (2 : Int), (10 : ℝ)), (0, 3, 10), (0, 4, 10), (0, 5, 10)]
    ∧ [((0 : Int), (2 : Int), (10 : ℝ)), (0, 3, 10), (0, 4, 10), (0, 5, 10)] <+:
        (_DDM2_Jacobian_Infinite_Recombination sample_unit (fun a => a) (sample_solver false) 0
          (_DDM2_Jacobian_Infinite_Recombination sample_unit (fun a => a) (sample_solver false) 0
            (DDM2_Jacobian_Preprocess 0 (sample_bc [sample_boundary_node []] true)
              sample_matrix [] [] []).bc
            sample_material_ad (fun _ => 1) ⟨fun _ _ => 0, []⟩
            InsertMode.NOT_SET_VALUES).bc
          sample_material_ad (fun _ => 1) ⟨fun _ _ => 0, []⟩
          InsertMode.NOT_SET_VALUES).jac.added := by
  have hbc : (_DDM2_Jacobian_Infinite_Recombination sample_unit (fun a => a)
        (sample_solver false) 0
        (DDM2_Jacobian_Preprocess 0 (sample_bc [sample_boundary_node []] true)
          sample_matrix [] [] []).bc
        sample_material_ad (fun _ => 1) ⟨fun _ _ => 0, []⟩ InsertMode.NOT_SET_VALUES).bc
      = (DDM2_Jacobian_Preprocess 0 (sample_bc [sample_boundary_node []] true)
          sample_matrix [] [] []).bc := rfl
  have hreplay : jacobian_replay_calls
        (DDM2_Jacobian_Preprocess 0 (sample_bc [sample_boundary_node []] true)
          sample_matrix [] [] []).bc
      = [((0 : Int), (2 : Int), (10 : ℝ)), (0, 3, 10), (0, 4, 10), (0, 5, 10)] := by
    rw [(jacobian_preprocess_harvest 0 (sample_bc [sample_boundary_node []] true)
      sample_matrix [] [] [] rfl).1]
    have hown : owned_nodes 0 (sample_bc [sample_boundary_node []] true).nodes
        = [sample_boundary_node []] := rfl
    rw [hown]
    simp [harvest_calls, harvest_column_calls, sample_boundary_node, sample_semiconductor_node,
      sample_resistance_node, sample_matrix]
    norm_num
  rw [hbc]
  refine ⟨rfl, hreplay, ?_⟩
  rw [infinite_jacobian_added, hreplay]
  simp only [List.nil_append]
  exact List.prefix_append _ _

/-- C16 (amended): in the infinite-recombination regime the harvested Jacobian
buffer is emptied at the start of `DDM2_Jacobian_Preprocess`, which refills it
from the matrix it is given whatever the buffer held before;
`_DDM2_Jacobian_Infinite_Recombination` replays the buffered entries once, as
its first additions, and returns the boundary condition with the buffer
unchanged, so that a second assembly with no preprocessing in between replays
the same entries again. -/
theorem harvested_buffer_lifecycle (pu : PhysicalUnit)
    (fermi_half_ad : AutoDScalar → AutoDScalar) (ss : SolverSpecify) (processor_id : Nat)
    (bc : IF_Metal_OhmicBC) (material_ad : MaterialAD) (x : Nat → ℝ) (jac0 jac : SparseMatrix)
    (add_value_flag : InsertMode) (src_row dst_row clear_row : List Int)
    (hinf : bc._infinity_recombination = true) :
    jacobian_replay_calls
        (DDM2_Jacobian_Preprocess processor_id bc jac0 src_row dst_row clear_row).bc
      = (owned_nodes processor_id bc.nodes).flatMap (harvest_calls jac0)
    ∧ (_DDM2_Jacobian_Infinite_Recombination pu fermi_half_ad ss processor_id bc material_ad x
        jac add_value_flag).bc = bc
    ∧ (_DDM2_Jacobian_Infinite_Recombination pu fermi_half_ad ss processor_id bc material_ad x
        jac add_value_flag).jac.added
      = jac.added ++ jacobian_replay_calls bc
        ++ (owned_nodes processor_id bc.nodes).flatMap
            (infinite_jacobian_node pu fermi_half_ad ss bc material_ad x)
    ∧ (_DDM2_Jacobian_Infinite_Recombination pu fermi_half_ad ss processor_id
        (_DDM2_Jacobian_Infinite_Recombination pu fermi_half_ad ss processor_id bc material_ad x
          jac add_value_flag).bc material_ad x jac add_value_flag).jac.added
      = jac.added ++ jacobian_replay_calls bc
        ++ (owned_nodes processor_id bc.nodes).flatMap
            (infinite_jacobian_node pu fermi_half_ad ss bc material_ad x) :=
  ⟨(jacobian_preprocess_harvest processor_id bc jac0 src_row dst_row clear_row hinf).1, rfl,
    infinite_jacobian_added pu fermi_half_ad ss processor_id bc material_ad x jac add_value_flag,
    infinite_jacobian_added pu fermi_half_ad ss processor_id bc material_ad x jac add_value_flag⟩

theorem harvested_buffer_lifecycle_witness :
    (sample_bc [sample_boundary_node []] true)._infinity_recombination = true
    ∧ (_DDM2_Jacobian_Infinite_Recombination sample_unit (fun a => a) (sample_solver false) 0
        (sample_bc [sample_boundary_node []] true) sample_material_ad (fun _ => 1)
        sample_matrix InsertMode.NOT_SET_VALUES).bc
      = sample_bc [sample_boundary_node []] true :=
  ⟨rfl,
    (harvested_buffer_lifecycle sample_unit (fun a => a) (sample_solver false) 0
      (sample_bc [sample_boundary_node []] true) sample_material_ad (fun _ => 1)
      sample_matrix sample_matrix InsertMode.NOT_SET_VALUES [] [] [] rfl).2.1⟩

/-- C17 (evaluation at a failing input): for a single node with unit
recombination velocity and area, zero doping, all unknowns 1 and a material
whose intrinsic density is the lattice temperature, the residual value `In`
that the finite-recombination residual adds at the electron row has partial
derivative 1 with respect to `T_semiconductor`, while the only Jacobian
addition in the electron row is `-1` at the column of `n`: nothing is added at
the column of `T_semiconductor`. -/
theorem limited_jacobian_misses_temperature_derivative :
    (residual_row (sample_boundary_node []) 1,
        (steady_residual sample_unit sample_bc_thermal (sample_boundary_node [])
          (sample_bc_thermal.material.mapping (sample_semiconductor_node []))
          (unknowns_of (fun _ => 1) (sample_boundary_node []))).getD 1 0) ∈
      (_DDM2_Function_Limited_Recombination sample_unit (sample_solver false) 0
        sample_bc_thermal (fun _ => 1) ⟨fun _ => 0, []⟩ InsertMode.NOT_SET_VALUES).f.stash
    ∧ HasDerivAt (fun t =>
        (steady_residual sample_unit sample_bc_thermal (sample_boundary_node [])
          (sample_bc_thermal.material.mapping (sample_semiconductor_node []))
          (Function.update (unknowns_of (fun _ => 1) (sample_boundary_node [])) 5 t)).getD 1 0)
        1 (unknowns_of (fun _ => 1) (sample_boundary_node []) 5)
    ∧ (_DDM2_Jacobian_Limited_Recombination sample_unit (sample_solver false) 0
          sample_bc_thermal sample_material_thermal_ad (fun _ => 1) ⟨fun _ _ => 0, []⟩
          InsertMode.NOT_SET_VALUES).jac.added.filter
        (fun call => decide (call.1 = residual_row (sample_boundary_node []) 1))
      = [(residual_row (sample_boundary_node []) 1, unknown_column (sample_boundary_node []) 3,
          (-1 : ℝ))] := by
  refine ⟨?_, ?_, ?_⟩
  · apply limited_mem sample_unit (sample_solver false) 0 sample_bc_thermal (fun _ => 1)
      (fun _ => 0) InsertMode.NOT_SET_VALUES (sample_boundary_node [])
      (List.mem_singleton.mpr rfl) rfl
    rw [limited_node_entries_steady sample_unit (sample_solver false) sample_bc_thermal
      (fun _ => 1) (sample_boundary_node []) rfl rfl]
    exact List.mem_map.mpr ⟨1, by simp, rfl⟩
  · have h1 : HasDerivAt (fun t : ℝ => t - 1) 1 1 := by
      simpa using (hasDerivAt_id (1 : ℝ)).sub_const 1
    have hu : unknowns_of (fun _ => (1 : ℝ)) (sample_boundary_node []) 5 = 1 := by
      simp [unknowns_of]
    rw [hu]
    apply h1.congr_of_eventuallyEq
    filter_upwards [lt_mem_nhds (show (0 : ℝ) < 1 by norm_num)] with t ht
    simp [steady_residual, Function.update, sample_bc_thermal, sample_bc,
      sample_material_thermal, sample_boundary_node, sample_semiconductor_node,
      sample_node_data, unknowns_of, equilibrium_density_zero_pos t ht]
  · rw [limited_jacobian_added]
    have hown : owned_nodes 0 sample_bc_thermal.nodes = [sample_boundary_node []] := rfl
    rw [hown]
    simp [limited_jacobian_node, sample_solver, has_associated_region, sample_boundary_node,
      sample_semiconductor_node, sample_resistance_node, sample_node_data, sample_bc_thermal,
      sample_bc, sample_material_thermal_ad, add_row_calls, AutoDScalar.getADValues,
      AutoDScalar.getADValue, residual_row, unknown_column, List.filter_cons,
      equilibrium_density_ad, AutoDScalar.mul_ad, AutoDScalar.sub_ad, AutoDScalar.add_ad,
      AutoDScalar.div_ad, AutoDScalar.sqrt_ad, AutoDScalar.const_ad, AutoDScalar.const_value,
      AutoDScalar.independent_ad, AutoDScalar.independent_value, AutoDScalar.mul_value,
      AutoDScalar.sub_value, AutoDScalar.add_value, AutoDScalar.div_value]

/-- C20: if the material model is independent of the state (`nie`, `Nc`, `Nv`,
`Eg` constant, with zero derivatives), then in the finite-recombination regime
at steady state, for every node of this processor without insulator nodes, the
Jacobian additions made for the node are exactly the enumerated ones (the
potential row has -1 at `V_metal`, +1 at `V_semi` and `d(f_psi)/dT_semi` at
`T_semi`; the electron row has `-v_e*S` at `n`; the hole row has `-v_h*S` at `p`;
the temperature row has -1 at `T_metal` and +1 at `T_semi`; the metal potential
row has `-v_e*S` at `n` and `+v_h*S` at `p`; the other added entries are zero),
and each added value is the partial derivative, with respect to the unknown of
its column, of the residual value that the residual function adds at its row. -/
theorem limited_jacobian_constant_material (pu : PhysicalUnit) (ss : SolverSpecify)
    (processor_id : Nat) (bc : IF_Metal_OhmicBC) (material_ad : MaterialAD) (x : Nat → ℝ)
    (jac : SparseMatrix) (values : Int → ℝ) (add_value_flag : InsertMode) (bn : BoundaryNode)
    (nie0 Nc0 Nv0 Eg0 : ℝ) (hbn : bn ∈ bc.nodes) (hown : bn.processor_id = processor_id)
    (hnie_ad : ∀ p n T, (material_ad.mapping bn.semiconductor_node).nie p n T
      = AutoDScalar.const nie0)
    (hNc_ad : ∀ T, (material_ad.mapping bn.semiconductor_node).Nc T = AutoDScalar.const Nc0)
    (hNv_ad : ∀ T, (material_ad.mapping bn.semiconductor_node).Nv T = AutoDScalar.const Nv0)
    (hEg_ad : ∀ T, (material_ad.mapping bn.semiconductor_node).Eg T = AutoDScalar.const Eg0)
    (hnie : ∀ p n T, (bc.material.mapping bn.semiconductor_node).nie p n T = nie0)
    (hNc : ∀ T, (bc.material.mapping bn.semiconductor_node).Nc T = Nc0)
    (hNv : ∀ T, (bc.material.mapping bn.semiconductor_node).Nv T = Nv0)
    (hEg : ∀ T, (bc.material.mapping bn.semiconductor_node).Eg T = Eg0)
    (hsteady : ss.TimeDependent = false)
    (hins : has_associated_region bn SimulationRegionType.InsulatorRegion = false) :
    limited_jacobian_node pu ss bc material_ad x bn
      = (constant_material_jacobian pu bc bn nie0 Nc0 Nv0).map (fun e =>
          (residual_row bn e.1, unknown_column bn e.2.1, e.2.2))
    ∧ (∀ call ∈ limited_jacobian_node pu ss bc material_ad x bn, call ∈
        (_DDM2_Jacobian_Limited_Recombination pu ss processor_id bc material_ad x jac
          add_value_flag).jac.added)
    ∧ (∀ e ∈ constant_material_jacobian pu bc bn nie0 Nc0 Nv0,
        HasDerivAt (fun t =>
          (steady_residual pu bc bn (bc.material.mapping bn.semiconductor_node)
            (Function.update (unknowns_of x bn) e.2.1 t)).getD e.1 0)
          e.2.2 (unknowns_of x bn e.2.1))
    ∧ (∀ i ∈ [0, 1, 2, 3, 4],
        (residual_row bn i,
          (steady_residual pu bc bn (bc.material.mapping bn.semiconductor_node)
            (unknowns_of x bn)).getD i 0) ∈
          (_DDM2_Function_Limited_Recombination pu ss processor_id bc x ⟨values, []⟩
            add_value_flag).f.stash) := by
  refine ⟨?_, ?_, ?_, ?_⟩
  · rw [limited_jacobian_node_const pu ss bc material_ad x bn nie0 Nc0 Nv0 Eg0 hnie_ad hNc_ad
      hNv_ad hEg_ad hsteady hins]
    simp [constant_material_jacobian, residual_row, unknown_column]
  · intro call hcall
    rw [limited_jacobian_added]
    apply List.mem_append_right
    rw [List.mem_flatMap]
    exact ⟨bn, by simp [owned_nodes, hbn, hown], hcall⟩
  · exact steady_residual_const_deriv pu bc bn _ (unknowns_of x bn) nie0 Nc0 Nv0 Eg0 hnie hNc
      hNv hEg
  · intro i hi
    apply limited_mem pu ss processor_id bc x values add_value_flag bn hbn hown
    rw [limited_node_entries_steady pu ss bc x bn hsteady hins]
    exact List.mem_map.mpr ⟨i, hi, rfl⟩

theorem limited_jacobian_constant_material_witness :
    (sample_solver false).TimeDependent = false
    ∧ has_associated_region (sample_boundary_node []) SimulationRegionType.InsulatorRegion
        = false
    ∧ limited_jacobian_node sample_unit (sample_solver false)
          (sample_bc [sample_boundary_node []] false) sample_material_ad (fun _ => 1)
          (sample_boundary_node [])
        = (constant_material_jacobian sample_unit (sample_bc [sample_boundary_node []] false)
            (sample_boundary_node []) 1 1 1).map (fun e =>
              (residual_row (sample_boundary_node []) e.1,
                unknown_column (sample_boundary_node []) e.2.1, e.2.2)) :=
  ⟨rfl, rfl,
    (limited_jacobian_constant_material sample_unit (sample_solver false) 0
      (sample_bc [sample_boundary_node []] false) sample_material_ad (fun _ => 1) sample_matrix
      (fun _ => 0) InsertMode.NOT_SET_VALUES (sample_boundary_node []) 1 1 1 0
      (List.mem_singleton.mpr rfl) rfl (fun _ _ _ => rfl) (fun _ => rfl) (fun _ => rfl)
      (fun _ => rfl) (fun _ _ _ => rfl) (fun _ => rfl) (fun _ => rfl) (fun _ => rfl) rfl
      rfl).1⟩

/-- C19: for every list of boundary nodes with their per-node injected
currents and every assignment of the nodes to `n_processors` processes, the
terminal current after `DDM2_Update_Solution`, which is the sum over the
processes of the current each one accumulates in the residual pass (`z_width`
times the sum of the injected currents of the nodes it owns), equals `z_width`
times the sum over all nodes; this is also the value that one process computes
when it owns every node. -/
theorem terminal_current_partition_sum (pu : PhysicalUnit) (ss : SolverSpecify)
    (bc : IF_Metal_OhmicBC) (x : Nat → ℝ) (f : Vec) (add_value_flag : InsertMode)
    (n_processors : Nat) (x_local : Nat → Nat → ℝ) (processor_id : Nat)
    (hproc : ∀ bn ∈ bc.nodes, bn.processor_id < n_processors) :
    (DDM2_Update_Solution n_processors
        (fun r => (_DDM2_Function_Limited_Recombination pu ss r bc x f add_value_flag).bc)
        x_local processor_id).current
      = bc.z_width * (bc.nodes.map (limited_node_inject_current ss bc x)).sum
    ∧ (∀ r, (_DDM2_Function_Limited_Recombination pu ss r bc x f add_value_flag).bc.current
        = bc.z_width
          * ((owned_nodes r bc.nodes).map (limited_node_inject_current ss bc x)).sum)
    ∧ (_DDM2_Function_Limited_Recombination pu ss 0
        { bc with nodes := bc.nodes.map (fun bn => { bn with processor_id := 0 }) } x f
        add_value_flag).bc.current
      = bc.z_width * (bc.nodes.map (limited_node_inject_current ss bc x)).sum := by
  refine ⟨?_, fun r => limited_current pu ss r bc x f add_value_flag, ?_⟩
  · unfold DDM2_Update_Solution Parallel_sum
    simp only [limited_current]
    rw [List.sum_map_mul_left, sum_over_owners _ n_processors bc.nodes hproc]
  · rw [limited_current]
    have hall : owned_nodes 0 (bc.nodes.map (fun bn => { bn with processor_id := 0 }))
        = bc.nodes.map (fun bn => { bn with processor_id := 0 }) := by
      unfold owned_nodes
      rw [List.filter_eq_self]
      intro b hb
      obtain ⟨a, _, rfl⟩ := List.mem_map.mp hb
      simp
    simp only [hall, List.map_map]
    rfl

theorem terminal_current_partition_sum_witness :
    (∀ bn ∈ (sample_bc [sample_boundary_node [], sample_boundary_node_remote] false).nodes,
      bn.processor_id < 2)
    ∧ (DDM2_Update_Solution 2
        (fun r => (_DDM2_Function_Limited_Recombination sample_unit (sample_solver false) r
          (sample_bc [sample_boundary_node [], sample_boundary_node_remote] false)
          (fun i => if i = 4 then 2 else 1) ⟨fun _ => 0, []⟩ InsertMode.NOT_SET_VALUES).bc)
        (fun _ _ => 0) 0).current
      = (sample_bc [sample_boundary_node [], sample_boundary_node_remote] false).z_width
        * ((sample_bc [sample_boundary_node [], sample_boundary_node_remote] false).nodes.map
            (limited_node_inject_current (sample_solver false)
              (sample_bc [sample_boundary_node [], sample_boundary_node_remote] false)
              (fun i => if i = 4 then 2 else 1))).sum :=
  have hproc : ∀ bn ∈
      (sample_bc [sample_boundary_node [], sample_boundary_node_remote] false).nodes,
      bn.processor_id < 2 := by
    intro bn hbn
    have hbn2 : bn ∈ [sample_boundary_node [], sample_boundary_node_remote] := hbn
    simp only [List.mem_cons, List.mem_singleton, List.not_mem_nil, or_false] at hbn2
    rcases hbn2 with rfl | rfl
    · exact Nat.zero_lt_two
    · exact Nat.one_lt_two
  ⟨hproc,
    (terminal_current_partition_sum sample_unit (sample_solver false)
      (sample_bc [sample_boundary_node [], sample_boundary_node_remote] false)
      (fun i => if i = 4 then 2 else 1) ⟨fun _ => 0, []⟩ InsertMode.NOT_SET_VALUES 2
      (fun _ _ => 0) 0 hproc).1⟩

/-- C21 (evaluation at a failing input): for a single node of this processor
whose electron row (row 3) of the residual vector holds 1 and whose hole row
(row 4) holds 3, `DDM2_Function_Preprocess` in the infinite-recombination
regime buffers `I[1] - I[0] = 3 - 1 = 2`, the hole-row value minus the
electron-row value, where the comments of lines 141 and 148 (`I={In, Ip}`,
`the current = In - Ip`) give the electron-row value minus the hole-row value
`1 - 3`. -/
theorem preprocess_buffers_hole_minus_electron_row :
    sample_bulk_residual.values ((sample_semiconductor_node []).global_offset + 1) = 1
    ∧ sample_bulk_residual.values ((sample_semiconductor_node []).global_offset + 2) = 3
    ∧ (DDM2_Function_Preprocess 0 (sample_bc [sample_boundary_node []] true)
        sample_bulk_residual [] [] []).bc._current_buffer = [2]
    ∧ (DDM2_Function_Preprocess 0 (sample_bc [sample_boundary_node []] true)
        sample_bulk_residual [] [] []).bc._current_buffer ≠ [1 - 3] := by
  have hbuf : (DDM2_Function_Preprocess 0 (sample_bc [sample_boundary_node []] true)
      sample_bulk_residual [] [] []).bc._current_buffer = [2] := by
    rw [function_preprocess_infinite_bc 0 (sample_bc [sample_boundary_node []] true)
      sample_bulk_residual [] [] [] rfl]
    have hown : owned_nodes 0 (sample_bc [sample_boundary_node []] true).nodes
        = [sample_boundary_node []] := rfl
    rw [hown]
    simp [sample_bulk_residual, sample_boundary_node, sample_semiconductor_node]
    norm_num
  refine ⟨?_, ?_, hbuf, ?_⟩
  · simp [sample_bulk_residual, sample_semiconductor_node]
  · simp [sample_bulk_residual, sample_semiconductor_node]
  · rw [hbuf]
    norm_num

/-- C22: in the infinite-recombination regime, whatever the conduction-current
buffer held before the call, after `DDM2_Function_Preprocess` returns it holds
exactly one entry for each boundary node of this processor (the same entries
as when the call starts from any other buffer contents), and the residual
evaluation over the same nodes with the same ownership returns: every read
`_current_buffer[i++]` is within bounds. -/
theorem preprocess_resets_current_buffer (pu : PhysicalUnit) (fermi_half : ℝ → ℝ)
    (ss : SolverSpecify) (processor_id : Nat) (bc : IF_Metal_OhmicBC) (old : List ℝ)
    (f0 : Vec) (src_row dst_row clear_row : List Int) (x : Nat → ℝ) (f : Vec)
    (add_value_flag : InsertMode) (hinf : bc._infinity_recombination = true) :
    (DDM2_Function_Preprocess processor_id { bc with _current_buffer := old } f0 src_row dst_row
        clear_row).bc._current_buffer.length
      = (owned_nodes processor_id bc.nodes).length
    ∧ (DDM2_Function_Preprocess processor_id { bc with _current_buffer := old } f0 src_row
        dst_row clear_row).bc._current_buffer
      = (DDM2_Function_Preprocess processor_id bc f0 src_row dst_row
          clear_row).bc._current_buffer
    ∧ (DDM2_Function_Preprocess processor_id { bc with _current_buffer := old } f0 src_row
        dst_row clear_row).bc.nodes = bc.nodes
    ∧ ∃ res, _DDM2_Function_Infinite_Recombination pu fermi_half ss processor_id
        (DDM2_Function_Preprocess processor_id { bc with _current_buffer := old } f0 src_row
          dst_row clear_row).bc x f add_value_flag = some res := by
  have hold := function_preprocess_infinite_bc processor_id { bc with _current_buffer := old }
    f0 src_row dst_row clear_row hinf
  have hnew := function_preprocess_infinite_bc processor_id bc f0 src_row dst_row clear_row hinf
  refine ⟨?_, ?_, ?_, ?_⟩
  · rw [hold]
    simp
  · rw [hold, hnew]
  · rw [hold]
  · apply infinite_returns
    rw [hold]
    simp

theorem preprocess_resets_current_buffer_witness :
    (sample_bc [sample_boundary_node []] true)._infinity_recombination = true
    ∧ (DDM2_Function_Preprocess 0
        { sample_bc [sample_boundary_node []] true with _current_buffer := [7, 8, 9] }
        sample_bulk_residual [] [] []).bc._current_buffer.length
      = (owned_nodes 0 (sample_bc [sample_boundary_node []] true).nodes).length :=
  ⟨rfl,
    (preprocess_resets_current_buffer sample_unit (fun _ => 0) (sample_solver false) 0
      (sample_bc [sample_boundary_node []] true) [7, 8, 9] sample_bulk_residual [] [] []
      (fun _ => 1) ⟨fun _ => 0, []⟩ InsertMode.NOT_SET_VALUES rfl).1⟩

/-- C23: for every real net doping `d` (negative, zero or positive) and every
`nie > 0` the computed equilibrium densities satisfy
`electron_density - hole_density = d`; at `d = 0` both equal `nie`. -/
theorem equilibrium_density_charge_neutral (d nie : ℝ) (h : 0 < nie) :
    (equilibrium_density d nie).1 - (equilibrium_density d nie).2 = d
    ∧ equilibrium_density 0 nie = (nie, nie) := by
  refine ⟨equilibrium_density_diff d nie h, ?_⟩
  have hs : Real.sqrt (0 * 0 + 4 * nie * nie) = 2 * nie := by
    rw [show (0 : ℝ) * 0 + 4 * nie * nie = (2 * nie) ^ 2 by ring]
    exact Real.sqrt_sq (by linarith)
  have hne : nie ≠ 0 := ne_of_gt h
  unfold equilibrium_density
  rw [if_neg (lt_irrefl 0), hs]
  have h1 : (0 + 2 * nie) / 2.0 = nie := by norm_num
  rw [h1]
  have h2 : nie * nie / nie = nie := by field_simp
  simp only [h2]

theorem equilibrium_density_charge_neutral_witness :
    (0 : ℝ) < 2
    ∧ (equilibrium_density (-3) 2).1 - (equilibrium_density (-3) 2).2 = -3
    ∧ equilibrium_density 0 2 = (2, 2) :=
  ⟨by norm_num, (equilibrium_density_charge_neutral (-3) 2 (by norm_num)).1,
    (equilibrium_density_charge_neutral 0 2 (by norm_num)).2⟩

/-- C24: for every real net doping `d` and every `nie > 0`, the majority
density computed first in either doping branch (the hole density when `d < 0`,
the electron density otherwise) is at least `nie`, hence strictly positive and
not zero, the minority density is `nie*nie` divided by it, and both computed
equilibrium densities are strictly positive; the densities computed on dual
values for the Jacobian have the same primal values, so the same holds for the
divisor there. -/
theorem equilibrium_density_majority_ge_nie (d nie : ℝ) (h : 0 < nie) :
    (d < 0 →
      (equilibrium_density d nie).2 = (-d + Real.sqrt (d * d + 4 * nie * nie)) / 2.0
      ∧ (equilibrium_density d nie).1 = nie * nie / (equilibrium_density d nie).2
      ∧ nie ≤ (equilibrium_density d nie).2 ∧ (equilibrium_density d nie).2 ≠ 0)
    ∧ (¬ d < 0 →
      (equilibrium_density d nie).1 = (d + Real.sqrt (d * d + 4 * nie * nie)) / 2.0
      ∧ (equilibrium_density d nie).2 = nie * nie / (equilibrium_density d nie).1
      ∧ nie ≤ (equilibrium_density d nie).1 ∧ (equilibrium_density d nie).1 ≠ 0)
    ∧ 0 < (equilibrium_density d nie).1
    ∧ 0 < (equilibrium_density d nie).2
    ∧ ∀ nie_ad : AutoDScalar, nie_ad.value = nie →
        (equilibrium_density_ad d nie_ad).1.value = (equilibrium_density d nie).1
        ∧ (equilibrium_density_ad d nie_ad).2.value = (equilibrium_density d nie).2 := by
  have hs := sqrt_disc_ge_two_nie d nie h
  have h2 : (2.0 : ℝ) = 2 := by norm_num
  have hneg : d < 0 → (equilibrium_density d nie).2
        = (-d + Real.sqrt (d * d + 4 * nie * nie)) / 2.0
      ∧ (equilibrium_density d nie).1 = nie * nie / (equilibrium_density d nie).2
      ∧ nie ≤ (equilibrium_density d nie).2 ∧ (equilibrium_density d nie).2 ≠ 0 := by
    intro hd
    obtain ⟨e2, e1⟩ := equilibrium_density_neg d nie hd
    have hge : nie ≤ (equilibrium_density d nie).2 := by
      rw [e2, h2]
      linarith
    exact ⟨e2, e1, hge, ne_of_gt (lt_of_lt_of_le h hge)⟩
  have hpos : ¬ d < 0 → (equilibrium_density d nie).1
        = (d + Real.sqrt (d * d + 4 * nie * nie)) / 2.0
      ∧ (equilibrium_density d nie).2 = nie * nie / (equilibrium_density d nie).1
      ∧ nie ≤ (equilibrium_density d nie).1 ∧ (equilibrium_density d nie).1 ≠ 0 := by
    intro hd
    obtain ⟨e1, e2⟩ := equilibrium_density_nonneg d nie hd
    have hge : nie ≤ (equilibrium_density d nie).1 := by
      rw [e1, h2]
      linarith [not_lt.mp hd]
    exact ⟨e1, e2, hge, ne_of_gt (lt_of_lt_of_le h hge)⟩
  have hboth : 0 < (equilibrium_density d nie).1 ∧ 0 < (equilibrium_density d nie).2 := by
    by_cases hd : d < 0
    · obtain ⟨_, e1, hge, _⟩ := hneg hd
      have hmaj : 0 < (equilibrium_density d nie).2 := lt_of_lt_of_le h hge
      refine ⟨?_, hmaj⟩
      rw [e1]
      exact div_pos (mul_pos h h) hmaj
    · obtain ⟨_, e2, hge, _⟩ := hpos hd
      have hmaj : 0 < (equilibrium_density d nie).1 := lt_of_lt_of_le h hge
      refine ⟨hmaj, ?_⟩
      rw [e2]
      exact div_pos (mul_pos h h) hmaj
  refine ⟨hneg, hpos, hboth.1, hboth.2, ?_⟩
  intro nie_ad hv
  rw [← hv]
  exact equilibrium_density_ad_value d nie_ad

theorem equilibrium_density_majority_ge_nie_witness :
    (0 : ℝ) < 2 ∧ 0 < (equilibrium_density (-3) 2).1 ∧ 0 < (equilibrium_density (-3) 2).2 :=
  ⟨by norm_num, (equilibrium_density_majority_ge_nie (-3) 2 (by norm_num)).2.2.1,
    (equilibrium_density_majority_ge_nie (-3) 2 (by norm_num)).2.2.2.1⟩

/-- C25: in the second-order (BDF2) transient branch of the finite-recombination
residual with `dt > 0` and `dt_last > 0`, the injected current is
`In + Ip + Tn + Tp` less the displacement current, where `Tn` and `Tp` are the
storage terms of lines 303-306; if the stored electron history of the node is
linear in time with slope `a` (`n_prev = n - a*dt`,
`n_last = n - a*(dt + dt_last)`) then `Tn = -a*volume`, and if the stored hole
history is linear with slope `b` then `Tp = -b*volume`; in particular both
vanish for a constant history, and the value added at the metal potential row
is `In + Ip - a*volume - b*volume` less the displacement current. -/
theorem bdf2_storage_exact_for_linear_history (pu : PhysicalUnit) (ss : SolverSpecify)
    (processor_id : Nat) (bc : IF_Metal_OhmicBC) (x : Nat → ℝ) (values : Int → ℝ)
    (add_value_flag : InsertMode) (bn : BoundaryNode) (a b : ℝ) (hbn : bn ∈ bc.nodes)
    (hown : bn.processor_id = processor_id) (htime : ss.TimeDependent = true)
    (hbdf2 : ss.TS_type = TemporalScheme.BDF2) (horder : ss.BDF2_LowerOrder = false)
    (hdt : 0 < ss.dt) (hlast : 0 < ss.dt_last)
    (hn : bn.semiconductor_node.node_data.n
      = x (bn.semiconductor_node.local_offset + 1) - a * ss.dt)
    (hn_last : bn.semiconductor_node.node_data.n_last
      = x (bn.semiconductor_node.local_offset + 1) - a * (ss.dt + ss.dt_last))
    (hp : bn.semiconductor_node.node_data.p
      = x (bn.semiconductor_node.local_offset + 2) - b * ss.dt)
    (hp_last : bn.semiconductor_node.node_data.p_last
      = x (bn.semiconductor_node.local_offset + 2) - b * (ss.dt + ss.dt_last)) :
    let V_semi := x bn.semiconductor_node.local_offset
    let n := x (bn.semiconductor_node.local_offset + 1)
    let p := x (bn.semiconductor_node.local_offset + 2)
    let T_semi := x (bn.semiconductor_node.local_offset + 3)
    let nie := (bc.material.mapping bn.semiconductor_node).nie p n T_semi
    let d := bn.semiconductor_node.node_data.Net_doping
    let S := bn.semiconductor_node.outside_boundary_surface_area
    let volume := bn.semiconductor_node.volume
    let In0 := -bc.elec_recomb_velocity * (n - (equilibrium_density d nie).1) * S
    let Ip0 := bc.hole_recomb_velocity * (p - (equilibrium_density d nie).2) * S
    let Tn := bdf2_storage_term ss n bn.semiconductor_node.node_data.n
      bn.semiconductor_node.node_data.n_last volume
    let Tp := bdf2_storage_term ss p bn.semiconductor_node.node_data.p
      bn.semiconductor_node.node_data.p_last volume
    (∀ In Ip : ℝ, limited_inject_current ss x bn.semiconductor_node V_semi n p In Ip
        = In + Ip + Tn + Tp - I_displacement ss x V_semi bn.semiconductor_node)
    ∧ Tn = -a * volume
    ∧ Tp = -b * volume
    ∧ (a = 0 → Tn = 0)
    ∧ (b = 0 → Tp = 0)
    ∧ (bn.resistance_node.global_offset,
        In0 + Ip0 + -a * volume + -b * volume
          - I_displacement ss x V_semi bn.semiconductor_node) ∈
      (_DDM2_Function_Limited_Recombination pu ss processor_id bc x ⟨values, []⟩
        add_value_flag).f.stash := by
  intro V_semi n p T_semi nie d S volume In0 Ip0 Tn Tp
  have hTn : Tn = -a * volume := by
    simp only [Tn, bdf2_storage_term]
    rw [hn, hn_last, neg_div, bdf2_linear_history ss.dt ss.dt_last n a hdt hlast]
  have hTp : Tp = -b * volume := by
    simp only [Tp, bdf2_storage_term]
    rw [hp, hp_last, neg_div, bdf2_linear_history ss.dt ss.dt_last p b hdt hlast]
  have hmain : ∀ In Ip : ℝ, limited_inject_current ss x bn.semiconductor_node V_semi n p In Ip
      = In + Ip + Tn + Tp - I_displacement ss x V_semi bn.semiconductor_node := by
    intro In Ip
    unfold limited_inject_current
    simp only [htime, hbdf2, horder, and_self, if_true, Tn, Tp, bdf2_storage_term, volume]
  refine ⟨hmain, hTn, hTp, ?_, ?_, ?_⟩
  · intro ha
    rw [hTn, ha]
    ring
  · intro hb
    rw [hTp, hb]
    ring
  · refine limited_mem_inject pu ss processor_id bc x values add_value_flag bn hbn hown _ ?_
    have h := hmain In0 Ip0
    rw [hTn, hTp] at h
    exact h.symm

theorem bdf2_storage_exact_for_linear_history_witness :
    sample_boundary_node_linear ∈ (sample_bc [sample_boundary_node_linear] false).nodes
    ∧ sample_solver_bdf2.TimeDependent = true
    ∧ sample_solver_bdf2.TS_type = TemporalScheme.BDF2
    ∧ sample_solver_bdf2.BDF2_LowerOrder = false
    ∧ 0 < sample_solver_bdf2.dt ∧ 0 < sample_solver_bdf2.dt_last
    ∧ sample_boundary_node_linear.semiconductor_node.node_data.n
        = (3 : ℝ) - 1 * sample_solver_bdf2.dt
    ∧ sample_boundary_node_linear.semiconductor_node.node_data.n_last
        = (3 : ℝ) - 1 * (sample_solver_bdf2.dt + sample_solver_bdf2.dt_last)
    ∧ sample_boundary_node_linear.semiconductor_node.node_data.p
        = (3 : ℝ) - (-2) * sample_solver_bdf2.dt
    ∧ sample_boundary_node_linear.semiconductor_node.node_data.p_last
        = (3 : ℝ) - (-2) * (sample_solver_bdf2.dt + sample_solver_bdf2.dt_last)
    ∧ bdf2_storage_term sample_solver_bdf2 3
        sample_boundary_node_linear.semiconductor_node.node_data.n
        sample_boundary_node_linear.semiconductor_node.node_data.n_last
        sample_boundary_node_linear.semiconductor_node.volume
      = -1 * sample_boundary_node_linear.semiconductor_node.volume
    ∧ bdf2_storage_term sample_solver_bdf2 3
        sample_boundary_node_linear.semiconductor_node.node_data.p
        sample_boundary_node_linear.semiconductor_node.node_data.p_last
        sample_boundary_node_linear.semiconductor_node.volume
      = -(-2) * sample_boundary_node_linear.semiconductor_node.volume :=
  have h1 : sample_boundary_node_linear.semiconductor_node.node_data.n
      = (3 : ℝ) - 1 * sample_solver_bdf2.dt := by
    norm_num [sample_boundary_node_linear, sample_node_data_linear, sample_solver_bdf2]
  have h2 : sample_boundary_node_linear.semiconductor_node.node_data.n_last
      = (3 : ℝ) - 1 * (sample_solver_bdf2.dt + sample_solver_bdf2.dt_last) := by
    norm_num [sample_boundary_node_linear, sample_node_data_linear, sample_solver_bdf2]
  have h3 : sample_boundary_node_linear.semiconductor_node.node_data.p
      = (3 : ℝ) - (-2) * sample_solver_bdf2.dt := by
    norm_num [sample_boundary_node_linear, sample_node_data_linear, sample_solver_bdf2]
  have h4 : sample_boundary_node_linear.semiconductor_node.node_data.p_last
      = (3 : ℝ) - (-2) * (sample_solver_bdf2.dt + sample_solver_bdf2.dt_last) := by
    norm_num [sample_boundary_node_linear, sample_node_data_linear, sample_solver_bdf2]
  have hdt : 0 < sample_solver_bdf2.dt := by norm_num [sample_solver_bdf2]
  have hlast : 0 < sample_solver_bdf2.dt_last := by norm_num [sample_solver_bdf2]
  ⟨List.mem_singleton.mpr rfl, rfl, rfl, rfl, hdt, hlast, h1, h2, h3, h4,
    (bdf2_storage_exact_for_linear_history sample_unit sample_solver_bdf2 0
      (sample_bc [sample_boundary_node_linear] false) (fun _ => 3) (fun _ => 0)
      InsertMode.NOT_SET_VALUES sample_boundary_node_linear 1 (-2)
      (List.mem_singleton.mpr rfl) rfl rfl rfl rfl hdt hlast h1 h2 h3 h4).2.1,
    (bdf2_storage_exact_for_linear_history sample_unit sample_solver_bdf2 0
      (sample_bc [sample_boundary_node_linear] false) (fun _ => 3) (fun _ => 0)
      InsertMode.NOT_SET_VALUES sample_boundary_node_linear 1 (-2)
      (List.mem_singleton.mpr rfl) rfl rfl rfl rfl hdt hlast h1 h2 h3 h4).2.2.1⟩

/-- C26: in the infinite-recombination residual under Fermi statistics, for
every node of this processor and every state, the residual evaluation returns
and the three values `f_phi`, `f_elec`, `f_hole` of the governing equations,
which it adds at the semiconductor potential, electron and hole rows, satisfy
`f_phi + f_elec - f_hole = n - p - Net_doping`; hence when the electron and
hole residuals are zero the potential residual is `n - p - Net_doping`. -/
theorem infinite_fermi_rows_neutrality (pu : PhysicalUnit) (fermi_half : ℝ → ℝ)
    (ss : SolverSpecify) (processor_id : Nat) (bc : IF_Metal_OhmicBC) (x : Nat → ℝ)
    (values : Int → ℝ) (add_value_flag : InsertMode) (bn : BoundaryNode) (hbn : bn ∈ bc.nodes)
    (hown : bn.processor_id = processor_id) (hfermi : bc.Fermi = true)
    (hbuf : (owned_nodes processor_id bc.nodes).length ≤ bc._current_buffer.length) :
    let n := x (bn.semiconductor_node.local_offset + 1)
    let p := x (bn.semiconductor_node.local_offset + 2)
    let T_semi := x (bn.semiconductor_node.local_offset + 3)
    let band := bc.material.mapping bn.semiconductor_node
    let d := bn.semiconductor_node.node_data.Net_doping
    let governing := ohmic_governing_equations pu fermi_half bc.Fermi
      bn.semiconductor_node.node_data bn.resistance_node.node_data
      (x (bn.resistance_node.local_offset + 0)) (x bn.semiconductor_node.local_offset) n p
      T_semi (band.nie p n T_semi) (band.Nc T_semi) (band.Nv T_semi) (band.Eg T_semi)
    ∃ res, _DDM2_Function_Infinite_Recombination pu fermi_half ss processor_id bc x
        ⟨values, []⟩ add_value_flag = some res
      ∧ ∃ f_phi f_elec f_hole : ℝ, governing = [f_phi, f_elec, f_hole]
        ∧ (bn.semiconductor_node.global_offset + 0, f_phi) ∈ res.f.stash
        ∧ (bn.semiconductor_node.global_offset + 1, f_elec) ∈ res.f.stash
        ∧ (bn.semiconductor_node.global_offset + 2, f_hole) ∈ res.f.stash
        ∧ f_phi + f_elec - f_hole = n - p - d
        ∧ (f_elec = 0 → f_hole = 0 → f_phi = n - p - d) := by
  intro n p T_semi band d governing
  obtain ⟨res, hres, hmem⟩ := infinite_mem pu fermi_half ss processor_id bc x values
    add_value_flag hbuf
  obtain ⟨f_phi, f_elec, f_hole, hgov⟩ : ∃ f_phi f_elec f_hole : ℝ,
      governing = [f_phi, f_elec, f_hole]
        ∧ f_phi + f_elec - f_hole = n - p - d := by
    simp only [governing, ohmic_governing_equations, hfermi, if_true]
    exact ⟨_, _, _, rfl, by simp only [d]; ring⟩
  obtain ⟨hlist, hsum⟩ := hgov
  have hentries : ∀ entry ∈ [(bn.semiconductor_node.global_offset + 0, f_phi),
      (bn.semiconductor_node.global_offset + 1, f_elec),
      (bn.semiconductor_node.global_offset + 2, f_hole)], entry ∈ res.f.stash := by
    intro entry hentry
    apply hmem bn hbn hown
    unfold infinite_node_entries
    have hzip : [bn.semiconductor_node.global_offset + 0,
        bn.semiconductor_node.global_offset + 1, bn.semiconductor_node.global_offset + 2].zip
          governing
        = [(bn.semiconductor_node.global_offset + 0, f_phi),
            (bn.semiconductor_node.global_offset + 1, f_elec),
            (bn.semiconductor_node.global_offset + 2, f_hole)] := by
      rw [hlist]
      rfl
    exact List.mem_append_left _ (List.mem_append_left _ (hzip ▸ hentry))
  refine ⟨res, hres, f_phi, f_elec, f_hole, hlist, ?_, ?_, ?_, hsum, ?_⟩
  · exact hentries _ (List.mem_cons_self _ _)
  · exact hentries _ (List.mem_cons_of_mem _ (List.mem_cons_self _ _))
  · exact hentries _ (List.mem_cons_of_mem _ (List.mem_cons_of_mem _ (List.mem_cons_self _ _)))
  · intro he hh
    rw [he, hh] at hsum
    linarith

theorem infinite_fermi_rows_neutrality_witness :
    sample_boundary_node [] ∈ sample_bc_fermi.nodes ∧ sample_bc_fermi.Fermi = true
    ∧ (owned_nodes 0 sample_bc_fermi.nodes).length ≤ sample_bc_fermi._current_buffer.length
    ∧ ∃ res, _DDM2_Function_Infinite_Recombination sample_unit (fun _ => 0)
          (sample_solver false) 0 sample_bc_fermi (fun _ => 1) ⟨fun _ => 0, []⟩
          InsertMode.NOT_SET_VALUES = some res
        ∧ ∃ f_phi f_elec f_hole : ℝ,
            (((2 : Int) + 0, f_phi) ∈ res.f.stash ∧ ((2 : Int) + 1, f_elec) ∈ res.f.stash
              ∧ ((2 : Int) + 2, f_hole) ∈ res.f.stash)
            ∧ f_phi + f_elec - f_hole = 1 - 1 - 0 :=
  ⟨List.mem_singleton.mpr rfl, rfl, Nat.le_refl 1,
    match infinite_fermi_rows_neutrality sample_unit (fun _ => 0) (sample_solver false) 0
      sample_bc_fermi (fun _ => 1) (fun _ => 0) InsertMode.NOT_SET_VALUES
      (sample_boundary_node []) (List.mem_singleton.mpr rfl) rfl rfl (Nat.le_refl 1) with
    | ⟨res, hres, f_phi, f_elec, f_hole, _, h0, h1, h2, hsum, _⟩ =>
      ⟨res, hres, f_phi, f_elec, f_hole, ⟨h0, h1, h2⟩, hsum⟩⟩

/-- C27: for every boundary-node sequence, ownership and regime,
`DDM2_Function_Preprocess` and `DDM2_Jacobian_Preprocess`, started with the
same contents of `clear_row`, `src_row` and `dst_row`, return identical
`clear_row`, `src_row` and `dst_row` lists, the same elements in the same
order; both append equally many elements to `src_row` and to `dst_row`, so the
returned `src_row` and `dst_row` have equal length when they have equal length
on entry, as they do when the caller starts from empty lists. -/
theorem function_and_jacobian_preprocess_rows_agree (processor_id : Nat)
    (bc : IF_Metal_OhmicBC) (f : Vec) (jac : SparseMatrix)
    (src_row dst_row clear_row : List Int) :
    (DDM2_Function_Preprocess processor_id bc f src_row dst_row clear_row).clear_row
      = (DDM2_Jacobian_Preprocess processor_id bc jac src_row dst_row clear_row).clear_row
    ∧ (DDM2_Function_Preprocess processor_id bc f src_row dst_row clear_row).src_row
      = (DDM2_Jacobian_Preprocess processor_id bc jac src_row dst_row clear_row).src_row
    ∧ (DDM2_Function_Preprocess processor_id bc f src_row dst_row clear_row).dst_row
      = (DDM2_Jacobian_Preprocess processor_id bc jac src_row dst_row clear_row).dst_row
    ∧ (DDM2_Function_Preprocess processor_id bc f src_row dst_row clear_row).src_row.length
        + dst_row.length
      = (DDM2_Function_Preprocess processor_id bc f src_row dst_row clear_row).dst_row.length
        + src_row.length
    ∧ (src_row.length = dst_row.length →
        (DDM2_Function_Preprocess processor_id bc f src_row dst_row clear_row).src_row.length
          = (DDM2_Function_Preprocess processor_id bc f src_row dst_row
              clear_row).dst_row.length
        ∧ (DDM2_Jacobian_Preprocess processor_id bc jac src_row dst_row
              clear_row).src_row.length
          = (DDM2_Jacobian_Preprocess processor_id bc jac src_row dst_row
              clear_row).dst_row.length) := by
  obtain ⟨fs, fd, fc⟩ := function_preprocess_rows processor_id bc f src_row dst_row clear_row
  obtain ⟨js, jd, jc⟩ := jacobian_preprocess_rows processor_id bc jac src_row dst_row clear_row
  refine ⟨by rw [fc, jc], by rw [fs, js], by rw [fd, jd], ?_, ?_⟩
  · rw [fs, fd]
    simp only [List.length_append, List.length_map]
    omega
  · intro hlen
    rw [fs, fd, js, jd]
    simp only [List.length_append, List.length_map, hlen, and_self]

theorem function_and_jacobian_preprocess_rows_agree_witness :
    ([] : List Int).length = ([] : List Int).length
    ∧ (DDM2_Function_Preprocess 0 (sample_bc [sample_boundary_node_insulator] true)
        sample_bulk_residual [] [] []).src_row
      = (DDM2_Jacobian_Preprocess 0 (sample_bc [sample_boundary_node_insulator] true)
          sample_matrix [] [] []).src_row
    ∧ (DDM2_Function_Preprocess 0 (sample_bc [sample_boundary_node_insulator] true)
        sample_bulk_residual [] [] []).src_row.length
      = (DDM2_Function_Preprocess 0 (sample_bc [sample_boundary_node_insulator] true)
          sample_bulk_residual [] [] []).dst_row.length :=
  ⟨rfl,
    (function_and_jacobian_preprocess_rows_agree 0
      (sample_bc [sample_boundary_node_insulator] true) sample_bulk_residual sample_matrix
      [] [] []).2.1,
    ((function_and_jacobian_preprocess_rows_agree 0
      (sample_bc [sample_boundary_node_insulator] true) sample_bulk_residual sample_matrix
      [] [] []).2.2.2.2 rfl).1⟩

end Genius

end
